import Mathlib

/-!
The tiny shell `tsh` with job control (src/tsh.c).

A shallow embedding of the job table, the builtin dispatcher, the child-status
handler and the pipeline builder of `tsh.c`, and the properties proved of them.

Conventions of the embedding.

* The global array `jobs[MAXJOBS]` is the list of its slots in index order; a
  loop `for (i = 0; i < MAXJOBS; i++)` over the array is a traversal of the list.
  A pointer `&jobs[i]` is the index `i`.
* `pid_t` and `int` fields are `Int`; C strings are `String`.
* `printf` output is the list of the strings printed, in order.
-/

namespace Tsh

/-! ## Constants and the job structure -/

/-- Constant `MAXJOBS` of the source, `16`. -/
def MAXJOBS : Nat := 16

/-- Constant `MAXARGS` of the source, `128`. -/
def MAXARGS : Nat := 128

/-- Constant `UNDEF` of the source, `0`. -/
def UNDEF : Int := 0

/-- Constant `FG` of the source, `1`. -/
def FG : Int := 1

/-- Constant `BG` of the source, `2`. -/
def BG : Int := 2

/-- Constant `ST` of the source, `3`. -/
def ST : Int := 3

/-- The structure `struct job_t`: per-job data. -/
structure job_t where
  pid : Int
  jid : Int
  state : Int
  cmdline : String
deriving DecidableEq, Repr

/-- Function `clearjob`: clear the entries in a job struct. -/
def clearjob (_job : job_t) : job_t :=
  { pid := 0, jid := 0, state := UNDEF, cmdline := "" }

/-- The zero-initialised global `struct job_t jobs[MAXJOBS]`. -/
def jobs0 : List job_t :=
  List.replicate MAXJOBS { pid := 0, jid := 0, state := 0, cmdline := "" }

/-- Function `initjobs`: `for (i = 0; i < MAXJOBS; i++) clearjob(&jobs[i])`. -/
def initjobs (jobs : List job_t) : List job_t :=
  jobs.map clearjob

/-! ## Slot search and slot update -/

/-- Index of the first slot satisfying `p`: the loop
`for (i = 0; i < MAXJOBS; i++) if (p(jobs[i])) return i`. -/
def findSlot (p : job_t → Bool) : List job_t → Option Nat
  | [] => none
  | j :: js => if p j then some 0 else (findSlot p js).map (· + 1)

/-- Write through a slot pointer: slot `i` becomes `f jobs[i]`. -/
def updSlot (f : job_t → job_t) : List job_t → Nat → List job_t
  | [], _ => []
  | j :: js, 0 => f j :: js
  | j :: js, n + 1 => j :: updSlot f js n

/-! ## freejid, addjob, deletejob -/

/-- First loop of `freejid`: `if (jobs[i].jid != 0) taken[jobs[i].jid] = 1`.
The array `taken` has `MAXJOBS + 1` cells; a jid outside `[0, MAXJOBS]` is an
out-of-bounds write in C and is a write that has no effect here. -/
def markTaken : List job_t → List Bool → List Bool
  | [], taken => taken
  | j :: js, taken =>
    markTaken js (if j.jid ≠ 0 then taken.set j.jid.toNat true else taken)

/-- Second loop of `freejid`: `for (i = 1; i <= MAXJOBS; i++) if (!taken[i]) return i;`
followed by `return 0`. -/
def firstUntaken (taken : List Bool) : List Nat → Int
  | [] => 0
  | i :: is => if taken.getD i false = false then (i : Int) else firstUntaken taken is

/-- Function `freejid`: returns smallest free job ID. -/
def freejid (jobs : List job_t) : Int :=
  firstUntaken (markTaken jobs (List.replicate (MAXJOBS + 1) false)) (List.range' 1 MAXJOBS)

/-- What `addjob` returns: the table, the return value, the text printed. -/
structure AddResult where
  jobs : List job_t
  ret : Int
  out : List String
deriving DecidableEq, Repr

/-- Function `addjob`: add a job to the job list. `verbose` is the global flag. -/
def addjob (verbose : Bool) (jobs : List job_t) (pid : Int) (state : Int)
    (cmdline : String) : AddResult :=
  if pid < 1 then { jobs := jobs, ret := 0, out := [] }
  else
    let free := freejid jobs
    if free = 0 then
      { jobs := jobs, ret := 0, out := ["Tried to create too many jobs\n"] }
    else
      match findSlot (fun j => j.pid = 0) jobs with
      | some i =>
        { jobs := updSlot (fun _ => { pid := pid, jid := free, state := state,
                                      cmdline := cmdline }) jobs i,
          ret := 1,
          out := if verbose then
                   ["Added job [" ++ toString free ++ "] " ++ toString pid ++ " "
                      ++ cmdline ++ "\n"]
                 else [] }
      | none => { jobs := jobs, ret := 0, out := [] }

/-- What `deletejob` returns: the table and the return value. -/
structure DelResult where
  jobs : List job_t
  ret : Int
deriving DecidableEq, Repr

/-- Function `deletejob`: delete a job whose PID=pid from the job list. -/
def deletejob (jobs : List job_t) (pid : Int) : DelResult :=
  if pid < 1 then { jobs := jobs, ret := 0 }
  else
    match findSlot (fun j => j.pid = pid) jobs with
    | some i => { jobs := updSlot clearjob jobs i, ret := 1 }
    | none => { jobs := jobs, ret := 0 }

/-! ## Lookups -/

/-- Function `fgpid`: PID of the current foreground job, 0 if no such job. -/
def fgpid (jobs : List job_t) : Int :=
  match findSlot (fun j => j.state = FG) jobs with
  | some i => (jobs.get? i).elim 0 (·.pid)
  | none => 0

/-- Function `getjobpid`: find a job (by PID) on the job list; the result is the slot index. -/
def getjobpid (jobs : List job_t) (pid : Int) : Option Nat :=
  if pid < 1 then none else findSlot (fun j => j.pid = pid) jobs

/-- Function `getjobjid`: find a job (by JID) on the job list; the result is the slot index. -/
def getjobjid (jobs : List job_t) (jid : Int) : Option Nat :=
  if jid < 1 then none else findSlot (fun j => j.jid = jid) jobs

/-- Function `pid2jid`: map process ID to job ID. -/
def pid2jid (jobs : List job_t) (pid : Int) : Int :=
  if pid < 1 then 0
  else
    match findSlot (fun j => j.pid = pid) jobs with
    | some i => (jobs.get? i).elim 0 (·.jid)
    | none => 0

/-- Loop of `listjobs` from slot `i` on: one entry per `printf` call. -/
def listjobsFrom : Nat → List job_t → List String
  | _, [] => []
  | i, j :: js =>
    (if j.pid ≠ 0 then
      ["[" ++ toString j.jid ++ "] (" ++ toString j.pid ++ ") ",
       (if j.state = BG then "Running "
        else if j.state = FG then "Foreground "
        else if j.state = ST then "Stopped "
        else "listjobs: Internal error: job[" ++ toString i ++ "].state="
               ++ toString j.state ++ " "),
       j.cmdline]
     else []) ++ listjobsFrom (i + 1) js

/-- Function `listjobs`: print the job list. -/
def listjobs (jobs : List job_t) : List String :=
  listjobsFrom 0 jobs

/-- The slot a pointer `&jobs[i]` designates. -/
def slot (jobs : List job_t) (i : Nat) : job_t :=
  jobs.getD i { pid := 0, jid := 0, state := 0, cmdline := "" }

/-! ## The child-status handler -/

/-- The wait status `waitpid(-1, &state, WNOHANG | WUNTRACED)` stores for a
reaped child: it exited, it was terminated by a signal, or it was stopped by a
signal. -/
inductive WStatus where
  | exited (code : Nat)
  | signaled (sig : Nat)
  | stopped (sig : Nat)
deriving DecidableEq, Repr

/-- Macro `WIFSTOPPED(state)`. -/
def WIFSTOPPED : WStatus → Bool
  | .stopped _ => true
  | _ => false

/-- Macro `WIFEXITED(state)`. -/
def WIFEXITED : WStatus → Bool
  | .exited _ => true
  | _ => false

/-- Macro `WIFSIGNALED(state)`. -/
def WIFSIGNALED : WStatus → Bool
  | .signaled _ => true
  | _ => false

/-- Macro `WTERMSIG(state)`. -/
def WTERMSIG : WStatus → Nat
  | .signaled sig => sig
  | _ => 0

/-- Macro `WSTOPSIG(state)`. -/
def WSTOPSIG : WStatus → Nat
  | .stopped sig => sig
  | .exited code => code
  | .signaled _ => 0

/-- A table together with the text printed. -/
structure ReapResult where
  jobs : List job_t
  out : List String
deriving DecidableEq, Repr

/-- Body of the loop of `sigchld_handler` for one `tracking_pid > 0`. -/
def sigchld_reap (jobs : List job_t) (tracking_pid : Int) (state : WStatus) : ReapResult :=
  match getjobpid jobs tracking_pid with
  | none => { jobs := jobs, out := [] }
  | some placement =>
    if !WIFSTOPPED state then
      { jobs := (deletejob jobs tracking_pid).jobs,
        out := if WIFSIGNALED state then
                 ["Job [" ++ toString (pid2jid jobs tracking_pid) ++ "] ("
                    ++ toString tracking_pid
                    ++ ") was terminated due to the following  signal "
                    ++ toString (WTERMSIG state) ++ "\n"]
               else [] }
    else
      let jobs1 := updSlot (fun j => { j with state := ST }) jobs placement
      { jobs := jobs1,
        out := ["Job [" ++ toString (pid2jid jobs1 tracking_pid) ++ "] ("
                  ++ toString tracking_pid
                  ++ ") was halted due to the following signal "
                  ++ toString (WSTOPSIG state) ++ "\n"] }

/-- Function `sigchld_handler`: the `do ... while (!(tracking_pid <= 0))` loop over the
successive results of `waitpid`; the end of the list is `waitpid` returning
`-1` (no child left). -/
def sigchld_handler (jobs : List job_t) : List (Int × WStatus) → ReapResult
  | [] => { jobs := jobs, out := [] }
  | (tracking_pid, state) :: rest =>
    if tracking_pid > 0 then
      let r := sigchld_reap jobs tracking_pid state
      let r2 := sigchld_handler r.jobs rest
      { jobs := r2.jobs, out := r.out ++ r2.out }
    else { jobs := jobs, out := [] }

/-- Loop test of `waitfg`: the job of `pid` exists and has state `FG`; the
loop suspends while this holds and `waitfg` returns as soon as it fails. -/
def waitfg_blocks (jobs : List job_t) (pid : Int) : Bool :=
  match getjobpid jobs pid with
  | none => false
  | some placement => (slot jobs placement).state = FG

/-! ## bg and fg -/

/-- Signal number of `SIGCONT` (Linux). -/
def SIGCONT : Int := 18

/-- Function `isdigit` in the C locale. -/
def isdigit (c : Char) : Bool :=
  decide ('0' ≤ c ∧ c ≤ '9')

/-- Function `isspace` in the C locale. -/
def isspace (c : Char) : Bool :=
  c = ' ' || c = '\t' || c = '\n' || c = '\x0b' || c = '\x0c' || c = '\r'

/-- Digit loop of `atoi`. -/
def atoiDigits : List Char → Int → Int
  | [], acc => acc
  | c :: cs, acc =>
    if isdigit c then atoiDigits cs (acc * 10 + ((c.toNat - '0'.toNat : Nat) : Int)) else acc

/-- Constant `LONG_MAX` of a platform whose `long` has 64 bits. -/
def LONG_MAX : Int := 9223372036854775807

/-- Constant `LONG_MIN` of a platform whose `long` has 64 bits. -/
def LONG_MIN : Int := -9223372036854775808

/-- Constant `INT_MAX`: `int`, and with it `pid_t`, has 32 bits. -/
def INT_MAX : Int := 2147483647

/-- Function `strtol(s, NULL, 10)` of the C library on the characters of a
string: leading white space, an optional sign, then decimal digits; a value
outside the range of `long` is replaced by `LONG_MAX` or `LONG_MIN`. -/
def strtol (s : List Char) : Int :=
  let v : Int :=
    match s.dropWhile isspace with
    | '-' :: cs => - atoiDigits cs 0
    | '+' :: cs => atoiDigits cs 0
    | cs => atoiDigits cs 0
  if v > LONG_MAX then LONG_MAX else if v < LONG_MIN then LONG_MIN else v

/-- The conversion `(int) v` of a `long`: the low 32 bits of `v` read as a
two's-complement number. -/
def longToInt (v : Int) : Int :=
  (v + 2147483648) % 4294967296 - 2147483648

/-- Function `atoi` of the C library, which is `(int) strtol(s, NULL, 10)`: the
number the digits denote when it fits an `int`; a larger one loses its high
bits, so that `4294967307` is read as `11`. (The C standard leaves that case
open; this is what the library of the platform does.) -/
def atoi (s : List Char) : Int :=
  longToInt (strtol s)

/-- Function `checkingType`: resolve a `bg`/`fg` target to a slot. -/
def checkingType (arg : String) (total_job : List job_t) : Option Nat :=
  if arg.data.head? = some '%' then
    getjobjid total_job (atoi arg.data.tail)
  else if (arg.data.head?.map isdigit).getD false then
    getjobpid total_job (atoi arg.data)
  else none

/-- What `do_bgfg` does: table, text printed, `kill(pid, sig)` calls, and the
pid handed to `waitfg` when it is called. -/
structure BgfgResult where
  jobs : List job_t
  out : List String
  kills : List (Int × Int)
  waitfg : Option Int
deriving DecidableEq, Repr

/-- Function `do_bgfg`: execute the builtin bg and fg commands. `argv[0]` is never NULL
when it is called, so the empty vector does nothing. -/
def do_bgfg (jobs : List job_t) (argv : List String) : BgfgResult :=
  match argv with
  | [] => { jobs := jobs, out := [], kills := [], waitfg := none }
  | [argv0] =>
    { jobs := jobs, out := [argv0 ++ " PID is needed for such %jobid argument\n"],
      kills := [], waitfg := none }
  | argv0 :: argv1 :: _ =>
    match checkingType argv1 jobs with
    | none =>
      { jobs := jobs,
        out := if argv1.data.head? = some '%' then [argv1 ++ ":Job was not found\n"]
               else if (argv1.data.head?.map isdigit).getD false then
                 [argv1 ++ ": Given process was not encountered\n"]
               else [argv1 ++ ": The given argument needs to be a PID or a given %jobid\n"],
        kills := [], waitfg := none }
    | some placement =>
      let kills := [(-(slot jobs placement).pid, SIGCONT)]
      if argv0 = "bg" then
        let jobs1 := updSlot (fun j => { j with state := BG }) jobs placement
        { jobs := jobs1,
          out := ["[" ++ toString (slot jobs1 placement).jid ++ "] ("
                    ++ toString (slot jobs1 placement).pid ++ ") "
                    ++ (slot jobs1 placement).cmdline],
          kills := kills, waitfg := none }
      else if argv0 = "fg" then
        let jobs1 := updSlot (fun j => { j with state := FG }) jobs placement
        { jobs := jobs1, out := [], kills := kills,
          waitfg := some (slot jobs1 placement).pid }
      else { jobs := jobs, out := [], kills := kills, waitfg := none }

/-! ## The pipeline builder -/

/-- An array of `char *`: the cell at each index, `none` for NULL. -/
abbrev ArgBuf := Nat → Option String

/-- The argument vector a NULL-terminated array holds: the cells before the
first NULL, reading at most `fuel` cells from index `i`. -/
def readArgv (buf : ArgBuf) : Nat → Nat → List String
  | 0, _ => []
  | fuel + 1, i =>
    match buf i with
    | none => []
    | some a => a :: readArgv buf fuel (i + 1)

/-- Local variables of `sectioning_pipe` and the cells it writes. -/
structure SecState where
  argv_sec : ArgBuf
  file_inpt : Int
  file_opt : Int
  checking : Int
  position_idx : Nat
  placement_arg : Nat
  condition_1 : Bool

/-- How the loop of `sectioning_pipe` ends: it runs to its end, or `fopen`
fails and the process calls `exit(1)` after `perror`, or a redirection token is
the last token and `fopen` is handed the NULL terminator. -/
inductive SecLoop where
  | fin (s : SecState)
  | exit1
  | nullpath

/-- The `while (condition_1 && *argv && checking >= 0)` loop of
`sectioning_pipe`. `fopen path mode` is the descriptor of the stream opened, or
`none` when the file cannot be opened. -/
def sectioning_loop (fopen : String → String → Option Int) (index : Nat) :
    List String → SecState → SecLoop
  | [], s => .fin s
  | a :: rest, s =>
    if s.condition_1 = true ∧ s.checking ≥ 0 then
      if a = "|" then
        if s.position_idx ≠ index then
          sectioning_loop fopen index rest
            { s with position_idx := s.position_idx + 1, placement_arg := 0 }
        else
          sectioning_loop fopen index rest { s with condition_1 := false }
      else if s.position_idx = index then
        if a = "<" then
          match rest with
          | [] => .nullpath
          | path :: rest2 =>
            match fopen path "r" with
            | none => .exit1
            | some fd =>
              sectioning_loop fopen index rest2
                { s with checking := s.checking + 1, file_inpt := fd }
        else if a = ">" then
          match rest with
          | [] => .nullpath
          | path :: rest2 =>
            match fopen path "w" with
            | none => .exit1
            | some fd =>
              sectioning_loop fopen index rest2
                { s with checking := s.checking + 1, file_opt := fd }
        else
          sectioning_loop fopen index rest
            { s with argv_sec := Function.update s.argv_sec s.placement_arg (some a),
                     placement_arg := if s.placement_arg ≥ 0 then s.placement_arg + 1
                                      else s.placement_arg }
      else sectioning_loop fopen index rest s
    else .fin s

/-- Result of `sectioning_pipe`: the cells of `argv_sec` and the two
descriptors, or one of the two abnormal ends of the loop. -/
inductive SecResult where
  | done (argv_sec : ArgBuf) (file_inpt : Int) (file_opt : Int)
  | exit1
  | nullpath

/-- Function `sectioning_pipe`: the argument vector and the redirections of stage
`index`. `argv_sec` is the caller's array as it is on entry. -/
def sectioning_pipe (fopen : String → String → Option Int) (argv : List String)
    (argv_sec : ArgBuf) (index : Nat) (pipe_count : Nat) : SecResult :=
  match sectioning_loop fopen index argv
      { argv_sec := argv_sec, file_inpt := -1, file_opt := -1, checking := pipe_count,
        position_idx := 0, placement_arg := 0, condition_1 := true } with
  | .fin s => .done (Function.update s.argv_sec s.placement_arg none) s.file_inpt s.file_opt
  | .exit1 => .exit1
  | .nullpath => .nullpath

/-- Function `total_num_pipes`: number of tokens equal to `|`. It is called on a
non-empty vector only (on an empty one the C code reads through NULL). -/
def total_num_pipes : List String → Nat
  | [] => 0
  | a :: rest => (if a = "|" then 1 else 0) + total_num_pipes rest

/-- A descriptor operation of a child. -/
inductive FdOp where
  | dup2 (oldfd : Int) (newfd : Int)
  | close (fd : Int)
deriving DecidableEq, Repr

/-- Descriptor `STDIN_FILENO`. -/
def STDIN_FILENO : Int := 0

/-- Descriptor `STDOUT_FILENO`. -/
def STDOUT_FILENO : Int := 1

/-- Index `(i2 - 1) * 2` of the pipe end a stage reads from. -/
def stdinPipeIndex (i2 : Nat) : Nat := (i2 - 1) * 2

/-- Index `i2 * 2 + 1` of the pipe end a stage writes to. -/
def stdoutPipeIndex (i2 : Nat) : Nat := i2 * 2 + 1

/-- Function `getting_redirect`: the `dup2` and `close` calls of a stage, in order. -/
def getting_redirect (fl_input fl_output : Int) (i2 pipe_counter : Nat)
    (pipefds : List Int) : List FdOp :=
  (if fl_input ≠ -1 then [FdOp.dup2 fl_input STDIN_FILENO, FdOp.close fl_input]
   else if i2 > 0 then [FdOp.dup2 (pipefds.getD (stdinPipeIndex i2) 0) STDIN_FILENO]
   else [])
  ++
  (if fl_output ≠ -1 then [FdOp.dup2 fl_output STDOUT_FILENO, FdOp.close fl_output]
   else if i2 < pipe_counter then [FdOp.dup2 (pipefds.getD (stdoutPipeIndex i2) 0) STDOUT_FILENO]
   else [])

/-! ## eval -/

/-- What one run of `eval` gets from the operating system. -/
structure Env where
  /-- The global `verbose`. -/
  verbose : Bool
  /-- The descriptor `fopen path mode` yields, `none` when it fails. -/
  fopen : String → String → Option Int
  /-- The two descriptors the `i`-th `pipe` call yields, `none` when it fails. -/
  pipe : Nat → Option (Int × Int)
  /-- What `fork` returns in the shell for stage `i2`: the child's pid, or a
  negative value when it fails. -/
  fork : Nat → Int
  /-- The cells of the uninitialised local array `part_argv` at stage `i2`. -/
  garbage : Nat → ArgBuf
  /-- The text of `strerror(errno)`. -/
  errtext : String

/-- How the shell process stops inside `eval`. -/
inductive Halt where
  | exit (status : Int)
  | undefined
deriving DecidableEq, Repr

/-- A child created by `fork`: its stage, its pid, its descriptor operations
and the argument vector it hands to `execvp`. -/
structure Child where
  stage : Nat
  pid : Int
  fdops : List FdOp
  args : List String
deriving DecidableEq, Repr

/-- What the builtin dispatcher does: its return value, and the effects. -/
structure BuiltinResult where
  final : Int
  jobs : List job_t
  out : List String
  kills : List (Int × Int)
  waitfg : Option Int
  quit : Bool
deriving DecidableEq, Repr

/-- Function `builtin_cmd`: run a builtin command at once; `quit` is `exit(0)`. -/
def builtin_cmd (jobs : List job_t) (argv : List String) : BuiltinResult :=
  match argv with
  | [] => { final := 1, jobs := jobs, out := [], kills := [], waitfg := none, quit := false }
  | argv0 :: _ =>
    if argv0 = "quit" then
      { final := 0, jobs := jobs, out := [], kills := [], waitfg := none, quit := true }
    else if argv0 = "jobs" then
      { final := 1, jobs := jobs, out := listjobs jobs, kills := [], waitfg := none,
        quit := false }
    else if argv0 = "bg" ∨ argv0 = "fg" then
      let r := do_bgfg jobs argv
      { final := 1, jobs := r.jobs, out := r.out, kills := r.kills, waitfg := r.waitfg,
        quit := false }
    else
      { final := 0, jobs := jobs, out := [], kills := [], waitfg := none, quit := false }

/-- The `while (i < pipe_counter)` loop of `eval` that creates the pipes:
the array `pipefds`, or `none` when a `pipe` call fails. -/
def create_pipes (pipe : Nat → Option (Int × Int)) : List Nat → Option (List Int)
  | [] => some []
  | i :: is =>
    match pipe i with
    | none => none
    | some (r, w) => (create_pipes pipe is).map (fun l => r :: w :: l)

/-- Variables of the stage loop of `eval`. -/
structure LoopState where
  jobs : List job_t
  out : List String
  children : List Child
  pids : List Int
  halt : Option Halt

/-- The `while (i2 <= pipe_counter)` loop of `eval`, with `n` stages left
from stage `i2`. The value of `fork` in the shell is never 0; the child it
creates is recorded with what it does up to `execvp`. -/
def eval_stages (env : Env) (argv : List String) (argc : Nat) (command_bg : Bool)
    (cmdline : String) (pipe_counter : Nat) (pipefds : List Int) :
    Nat → Nat → LoopState → LoopState
  | 0, _, st => st
  | n + 1, i2, st =>
    match sectioning_pipe env.fopen argv (env.garbage i2) i2 pipe_counter with
    | .exit1 =>
      { st with out := st.out ++ ["given fopen error: " ++ env.errtext ++ "\n"],
                halt := some (.exit 1) }
    | .nullpath => { st with halt := some .undefined }
    | .done part_argv fl_input fl_output =>
      let current_pid := env.fork i2
      if current_pid < 0 then
        { st with out := st.out ++ ["Encountered a Fork error: " ++ env.errtext ++ "\n"],
                  halt := some (.exit 1) }
      else
        let child : Child :=
          { stage := i2, pid := current_pid,
            fdops := getting_redirect fl_input fl_output i2 pipe_counter pipefds
                       ++ pipefds.map FdOp.close,
            args := readArgv (if command_bg then Function.update part_argv (argc - 1) none
                              else part_argv) MAXARGS 0 }
        let a : AddResult :=
          if i2 = 0 then
            addjob env.verbose st.jobs current_pid (if command_bg then BG else FG) cmdline
          else { jobs := st.jobs, ret := 0, out := [] }
        eval_stages env argv argc command_bg cmdline pipe_counter pipefds n (i2 + 1)
          { jobs := a.jobs, out := st.out ++ a.out, children := st.children ++ [child],
            pids := st.pids ++ [current_pid], halt := none }

/-- What `eval` does up to its foreground wait: the table, the text printed,
the children created, the `kill` calls, the pids it passes to `waitfg` in
order, and how the shell process stopped if it did. -/
structure EvalResult where
  jobs : List job_t
  out : List String
  children : List Child
  kills : List (Int × Int)
  waits : List Int
  halt : Option Halt
deriving DecidableEq, Repr

/-- Variable `command_bg` of `eval`: the first character of the last argument is `&`. -/
def command_bg (argv : List String) : Bool :=
  if argv.length > 0 then decide ((argv.getLast?.bind (fun a => a.data.head?)) = some '&')
  else false

/-- Function `eval`: evaluate the command line. `argv` is the vector `parseline`
stored for `cmdline`. -/
def eval (env : Env) (jobs : List job_t) (cmdline : String) (argv : List String) :
    EvalResult :=
  match argv with
  | [] => { jobs := jobs, out := [], children := [], kills := [], waits := [], halt := none }
  | _ :: _ =>
    let b := builtin_cmd jobs argv
    if b.quit then
      { jobs := jobs, out := [], children := [], kills := [], waits := [],
        halt := some (.exit 0) }
    else if b.final ≠ 0 then
      { jobs := b.jobs, out := b.out, children := [], kills := b.kills,
        waits := b.waitfg.toList, halt := none }
    else
      let pipe_counter := total_num_pipes argv
      match create_pipes env.pipe (List.range pipe_counter) with
      | none =>
        { jobs := jobs, out := ["Issue caused by pipe error: " ++ env.errtext ++ "\n"],
          children := [], kills := [], waits := [], halt := some (.exit 1) }
      | some pipefds =>
        let st := eval_stages env argv argv.length (command_bg argv) cmdline pipe_counter
                    pipefds (pipe_counter + 1) 0
                    { jobs := jobs, out := [], children := [], pids := [], halt := none }
        match st.halt with
        | some h =>
          { jobs := st.jobs, out := st.out, children := st.children, kills := [],
            waits := [], halt := some h }
        | none =>
          if !command_bg argv then
            { jobs := st.jobs, out := st.out, children := st.children, kills := [],
              waits := st.pids, halt := none }
          else
            { jobs := st.jobs,
              out := st.out ++ ["[" ++ toString (pid2jid st.jobs (st.pids.headD 0)) ++ "] ("
                                  ++ toString (st.pids.headD 0) ++ ") " ++ cmdline],
              children := st.children, kills := [], waits := [], halt := none }

/-! ## The shell as a transition system -/

/-- State of the shell between two operations: the job table and the pids the
running `eval` still has to pass to `waitfg` (none at the prompt). -/
structure Shell where
  jobs : List job_t
  waits : List Int
deriving DecidableEq, Repr

/-- One operation of the shell. Each is taken as a whole: `eval` of a line read
at the prompt (a builtin, or a launch in which `fork` gives the first child a
pid that no table entry holds), the return of a `waitfg` call whose loop test
fails, and one run of `sigchld_handler`, which can come between any two of the
others and during the foreground wait. -/
inductive Step : Shell → Shell → Prop where
  | eval (env : Env) (cmdline : String) (argv : List String) (s : Shell) :
      s.waits = [] → (∀ j ∈ s.jobs, j.pid ≠ env.fork 0) →
      (eval env s.jobs cmdline argv).halt = none →
      Step s { jobs := (eval env s.jobs cmdline argv).jobs,
               waits := (eval env s.jobs cmdline argv).waits }
  | waitfg_return (s : Shell) (pid : Int) (rest : List Int) :
      s.waits = pid :: rest → waitfg_blocks s.jobs pid = false →
      Step s { jobs := s.jobs, waits := rest }
  | sigchld (s : Shell) (reaped : List (Int × WStatus)) :
      Step s { jobs := (sigchld_handler s.jobs reaped).jobs, waits := s.waits }

/-- States the shell reaches from the table `main` initialises. -/
inductive Reachable : Shell → Prop where
  | init : Reachable { jobs := initjobs jobs0, waits := [] }
  | step (s t : Shell) : Reachable s → Step s t → Reachable t

end Tsh

namespace Tsh

/-! ## Well-formed tables -/

/-- A slot is cleared, or it holds a job: a pid of at least 1, a job ID in
`[1, MAXJOBS]` and one of the states `FG`, `BG`, `ST`. -/
def SlotOK (j : job_t) : Prop :=
  (j.pid = 0 ∧ j.jid = 0 ∧ j.state = UNDEF) ∨
  (1 ≤ j.pid ∧ 1 ≤ j.jid ∧ j.jid ≤ MAXJOBS ∧ (j.state = FG ∨ j.state = BG ∨ j.state = ST))

/-- No two slots share a non-zero value of `key` (the pid, or the job ID). -/
def DistinctKey (key : job_t → Int) (jobs : List job_t) : Prop :=
  jobs.Pairwise (fun a b => key a ≠ 0 → key a ≠ key b)

/-- The table has `MAXJOBS` slots, each is cleared or holds a job, and no two
jobs share a job ID. -/
def TableOK (jobs : List job_t) : Prop :=
  jobs.length = MAXJOBS ∧ (∀ j ∈ jobs, SlotOK j) ∧ DistinctKey (fun j => j.jid) jobs

/-- Job tables the table operations of the shell produce from the initial
one: `addjob` as `eval` calls it (state `FG` or `BG`), `deletejob`, and the
state changes of `do_bgfg` and of the child-status handler. -/
inductive TableReach : List job_t → Prop where
  | init : TableReach (initjobs jobs0)
  | addjob (verbose : Bool) (jobs : List job_t) (pid state : Int) (cmdline : String) :
      TableReach jobs → (state = FG ∨ state = BG) →
      TableReach (addjob verbose jobs pid state cmdline).jobs
  | deletejob (jobs : List job_t) (pid : Int) :
      TableReach jobs → TableReach (deletejob jobs pid).jobs
  | do_bgfg (jobs : List job_t) (argv : List String) :
      TableReach jobs → TableReach (do_bgfg jobs argv).jobs
  | sigchld_reap (jobs : List job_t) (pid : Int) (status : WStatus) :
      TableReach jobs → TableReach (sigchld_reap jobs pid status).jobs

end Tsh

namespace Tsh

/-! ## Sample tables -/

/-- A table with two jobs, of job IDs 1 and 3, in slots 0 and 1. -/
def sampleJobs : List job_t :=
  { pid := 10, jid := 1, state := BG, cmdline := "sleep 5 &\n" } ::
  { pid := 11, jid := 3, state := ST, cmdline := "cat\n" } ::
  List.replicate 14 { pid := 0, jid := 0, state := UNDEF, cmdline := "" }

end Tsh

namespace Tsh

/-- Invariant of the shell: the table is well-formed, live pids are distinct,
and a job in state `FG` is the job the running `eval` waits for first. -/
def ShellInv (s : Shell) : Prop :=
  TableOK s.jobs ∧ DistinctKey (fun j => j.pid) s.jobs ∧
  ∀ j ∈ s.jobs, j.state = FG → s.waits.head? = some j.pid

/-- The environment of the sample runs: no file can be opened, stage `i` gets
pid `100 + i`, pipe `i` gets descriptors `3 + 2 i` and `4 + 2 i`. -/
def sampleEnv : Env :=
  { verbose := false, fopen := fun _ _ => none,
    pipe := fun i => some ((3 + 2 * i : Nat), (4 + 2 * i : Nat)),
    fork := fun i => (100 + i : Nat), garbage := fun _ _ => none,
    errtext := "No such file or directory" }

end Tsh

namespace Tsh

/-- The state after `eval` of the line `sleep 5` at the first prompt. -/
def sampleShell : Shell :=
  { jobs := (eval sampleEnv (initjobs jobs0) "sleep 5\n" ["sleep", "5"]).jobs,
    waits := (eval sampleEnv (initjobs jobs0) "sleep 5\n" ["sleep", "5"]).waits }

end Tsh

namespace Tsh

/-- The number a string of decimal digits denotes. -/
def decimalValue (ds : List Char) : Nat :=
  ds.foldl (fun n c => n * 10 + (c.toNat - '0'.toNat)) 0

end Tsh

namespace Tsh

/-! ## The stage of a pipeline, in the words of the specification -/

/-- Tokens of segment `i` of the vector when it is cut at its `|` tokens. -/
def specSegment : List String → Nat → List String
  | [], _ => []
  | a :: rest, 0 => if a = "|" then [] else a :: specSegment rest 0
  | a :: rest, i + 1 => if a = "|" then specSegment rest i else specSegment rest (i + 1)

/-- The plain arguments of a stage: reading it from the left, each `<` or `>`
token and the path token that follows it are left out. -/
def specPlainArgs : List String → List String
  | [] => []
  | [a] => if a = "<" ∨ a = ">" then [] else [a]
  | a :: b :: rest =>
    if a = "<" ∨ a = ">" then specPlainArgs rest else a :: specPlainArgs (b :: rest)

/-- Every `<` of the stage is followed by a path token that opens for reading
and every `>` by a path token that opens for writing. -/
def redirsOpenable (fopen : String → String → Option Int) : List String → Bool
  | [] => true
  | [a] => !(decide (a = "<" ∨ a = ">"))
  | a :: b :: rest =>
    if a = "<" then (fopen b "r").isSome && redirsOpenable fopen rest
    else if a = ">" then (fopen b "w").isSome && redirsOpenable fopen rest
    else redirsOpenable fopen (b :: rest)

/-- The array after the strings `xs` are stored from index `n` on. -/
def writeArgs (buf : ArgBuf) (n : Nat) : List String → ArgBuf
  | [] => buf
  | a :: as => writeArgs (Function.update buf n (some a)) (n + 1) as

end Tsh

namespace Tsh

/-- A line of two stages with one redirection each. -/
def sampleArgv : List String :=
  ["sort", "-r", "<", "in.txt", "|", "uniq", ">", "out.txt"]

end Tsh

namespace Tsh

/-- A full table: sixteen background jobs, pids and job IDs 1 to 16. -/
def fullJobs : List job_t :=
  (List.range MAXJOBS).map
    (fun k => { pid := (k + 1 : Nat), jid := (k + 1 : Nat), state := BG,
                cmdline := "sleep 100 &\n" })

end Tsh

namespace Tsh

/-- Job tables that sequences of `addjob` and `deletejob` calls, with any
arguments, produce from the empty table. -/
inductive AddDelReach : List job_t → Prop where
  | init : AddDelReach (initjobs jobs0)
  | addjob (verbose : Bool) (jobs : List job_t) (pid state : Int) (cmdline : String) :
      AddDelReach jobs → AddDelReach (addjob verbose jobs pid state cmdline).jobs
  | deletejob (jobs : List job_t) (pid : Int) :
      AddDelReach jobs → AddDelReach (deletejob jobs pid).jobs

/-- The table has `MAXJOBS` slots, a slot has pid 0 and job ID 0 or a pid of at
least 1 and a job ID in `[1, MAXJOBS]`, and no two jobs share a job ID. -/
def IdsOK (jobs : List job_t) : Prop :=
  jobs.length = MAXJOBS ∧
  (∀ j ∈ jobs, (j.pid = 0 ∧ j.jid = 0) ∨ (1 ≤ j.pid ∧ 1 ≤ j.jid ∧ j.jid ≤ MAXJOBS)) ∧
  DistinctKey (fun j => j.jid) jobs

end Tsh

namespace Tsh

/-! ## parseline -/

/-- The loop `while (*buf && (*buf == ' ')) buf++` of `parseline`. -/
def skipSpaces (buf : List Char) : List Char :=
  buf.dropWhile (fun c => c = ' ')

end Tsh

namespace Tsh

/-! ## The signal mask around fork -/

/-- Signal number of `SIGCHLD` (Linux). -/
def SIGCHLD : Int := 17

/-- The call `sigprocmask(SIG_BLOCK, set, oldset)` on a process whose mask is
`mask`: the new mask, which adds the signals of `set`, and the value stored in
`oldset`. A signal set is the list of the signals in it. -/
def sigprocmask_BLOCK (mask set : List Int) : List Int × List Int :=
  (mask ++ set, mask)

/-- The call `sigprocmask(SIG_SETMASK, set, NULL)`: the new mask. -/
def sigprocmask_SETMASK (_mask set : List Int) : List Int :=
  set

/-- The signal mask of the shell during one turn of the stage loop of `eval`:
when it calls `fork`, when it calls `addjob`, and after the turn. -/
structure StageMasks where
  atFork : List Int
  atAddjob : List Int
  afterTurn : List Int
deriving DecidableEq, Repr

/-- One turn of the stage loop of `eval` as far as the signal mask goes:
`sigprocmask(SIG_BLOCK, &initial_maks, &old_mask)`, then `fork` and `addjob`,
then `sigprocmask(SIG_SETMASK, &old_mask, NULL)`. `initial_maks` is the content
of the local variable of that name, which `eval` declares and never fills
(no `sigemptyset`, no `sigaddset`). -/
def eval_stage_masks (mask initial_maks : List Int) : StageMasks :=
  let r := sigprocmask_BLOCK mask initial_maks
  { atFork := r.1, atAddjob := r.1, afterTurn := sigprocmask_SETMASK r.1 r.2 }

/-- The signal mask of the shell in `waitfg` after `sigemptyset(&initial_mask)`,
`sigaddset(&initial_mask, SIGCHLD)` and
`sigprocmask(SIG_BLOCK, &initial_mask, &old_mask)`. -/
def waitfg_mask (mask : List Int) : List Int :=
  (sigprocmask_BLOCK mask [SIGCHLD]).1

end Tsh

namespace Tsh

/-! ## Splitting a line into stages and joining it again -/

/-- The test `*argv[0] == '|' && argv[0][1] == '\0'` of `total_num_pipes` on the
characters of a token, whose end is its NUL terminator. On the empty token the
first comparison fails and the second character is not read. -/
def isPipeToken (tok : String) : Bool :=
  match tok.data with
  | [] => false
  | c :: cs => c == '|' && cs.isEmpty

/-- The loop of `total_num_pipes` as the C code runs it, `tracker` being the
count so far: a token is tested before the terminator is looked for, so on an
empty vector the first test reads through NULL and there is no result. -/
def total_num_pipes_loop : List String → Nat → Option Nat
  | [], _ => none
  | [a], tracker => some (if isPipeToken a then tracker + 1 else tracker)
  | a :: b :: rest, tracker =>
    total_num_pipes_loop (b :: rest) (if isPipeToken a then tracker + 1 else tracker)

/-- The vector the caller reads from `argv_sec` after `sectioning_pipe` returns
for stage `index`; `none` when it does not return. -/
def stageVector (fopen : String → String → Option Int) (argv : List String)
    (argv_sec : ArgBuf) (index pipe_count : Nat) : Option (List String) :=
  match sectioning_pipe fopen argv argv_sec index pipe_count with
  | .done buf _ _ => some (readArgv buf MAXARGS 0)
  | .exit1 => none
  | .nullpath => none

/-- The stage vectors joined with a single `|` token between consecutive ones. -/
def joinStages (stages : List (List String)) : List String :=
  List.intercalate ["|"] stages

/-- A line of three stages without redirection, the middle one empty. -/
def pipedArgv : List String := ["ls", "-l", "|", "|", "wc", "-l"]

end Tsh

namespace Tsh

/-- The table after `sleep 5 &` is launched from the initial one as pid 10. -/
def oneJob : List job_t :=
  (addjob false (initjobs jobs0) 10 BG "sleep 5 &\n").jobs

end Tsh

namespace Tsh

/-- The table after `n` background jobs, of pids 1 to `n`, were added to the
empty table one after the other. -/
def filledJobs : Nat → List job_t
  | 0 => initjobs jobs0
  | n + 1 => (addjob false (filledJobs n) ((n + 1 : Nat) : Int) BG "sleep 100 &\n").jobs

end Tsh

namespace Tsh

/-! ## A child-status notification inside do_bgfg -/

/-- What `do_bgfg` does after `placement = checkingType(argv[1], jobs)`, for the
value `placement` of that call, on the table as it is when these statements
run: the error message for NULL, else `kill`, the state write and the
acknowledgment or the foreground wait. -/
def do_bgfg_after (jobs : List job_t) (argv0 argv1 : String) : Option Nat → BgfgResult
  | none =>
    { jobs := jobs,
      out := if argv1.data.head? = some '%' then [argv1 ++ ":Job was not found\n"]
             else if (argv1.data.head?.map isdigit).getD false then
               [argv1 ++ ": Given process was not encountered\n"]
             else [argv1 ++ ": The given argument needs to be a PID or a given %jobid\n"],
      kills := [], waitfg := none }
  | some placement =>
    let kills := [(-(slot jobs placement).pid, SIGCONT)]
    if argv0 = "bg" then
      let jobs1 := updSlot (fun j => { j with state := BG }) jobs placement
      { jobs := jobs1,
        out := ["[" ++ toString (slot jobs1 placement).jid ++ "] ("
                  ++ toString (slot jobs1 placement).pid ++ ") "
                  ++ (slot jobs1 placement).cmdline],
        kills := kills, waitfg := none }
    else if argv0 = "fg" then
      let jobs1 := updSlot (fun j => { j with state := FG }) jobs placement
      { jobs := jobs1, out := [], kills := kills,
        waitfg := some (slot jobs1 placement).pid }
    else { jobs := jobs, out := [], kills := kills, waitfg := none }

/-- A run of `do_bgfg` during which `SIGCHLD` is delivered once, right after
`checkingType` has returned: `do_bgfg` does not block the signal, so
`sigchld_handler` runs there, `reaped` being what its `waitpid` calls return,
and `do_bgfg` then goes on with the pointer it already holds. -/
def do_bgfg_interrupted (jobs : List job_t) (argv : List String)
    (reaped : List (Int × WStatus)) : BgfgResult :=
  match argv with
  | argv0 :: argv1 :: _ =>
    let placement := checkingType argv1 jobs
    let h := sigchld_handler jobs reaped
    let r := do_bgfg_after h.jobs argv0 argv1 placement
    { jobs := r.jobs, out := h.out ++ r.out, kills := r.kills, waitfg := r.waitfg }
  | _ => do_bgfg jobs argv

/-- One operation of the shell as in `Step`, or `eval` of a `bg` or `fg` line
at the prompt during which the handler runs once inside `do_bgfg`. -/
inductive StepAsync : Shell → Shell → Prop where
  | step (s t : Shell) : Step s t → StepAsync s t
  | bgfg_interrupted (s : Shell) (argv0 argv1 : String) (rest : List String)
      (reaped : List (Int × WStatus)) :
      s.waits = [] → (argv0 = "bg" ∨ argv0 = "fg") →
      StepAsync s
        { jobs := (do_bgfg_interrupted s.jobs (argv0 :: argv1 :: rest) reaped).jobs,
          waits := (do_bgfg_interrupted s.jobs (argv0 :: argv1 :: rest) reaped).waitfg.toList }

/-- States the shell reaches from the table `main` initialises when the
handler may also run inside `do_bgfg`. -/
inductive ReachableAsync : Shell → Prop where
  | init : ReachableAsync { jobs := initjobs jobs0, waits := [] }
  | step (s t : Shell) : ReachableAsync s → StepAsync s t → ReachableAsync t

/-- The sample environment with `fork` giving the first child the pid `pid`. -/
def forkEnv (pid : Nat) : Env :=
  { sampleEnv with fork := fun i => ((pid + i : Nat) : Int) }

/-- The state after `eval env` of a line read in state `s`. -/
def afterEval (env : Env) (cmdline : String) (argv : List String) (s : Shell) : Shell :=
  { jobs := (eval env s.jobs cmdline argv).jobs,
    waits := (eval env s.jobs cmdline argv).waits }

/-- The state after `sleep 1 &` is launched at the first prompt as pid 100. -/
def raceOne : Shell :=
  afterEval (forkEnv 100) "sleep 1 &\n" ["sleep", "1", "&"] { jobs := initjobs jobs0, waits := [] }

/-- Then `sleep 2 &` is launched as pid 101, and child 100 exits and is reaped:
slot 0 is cleared, slot 1 holds job 2. -/
def raceTwo : Shell :=
  { jobs := (sigchld_handler
      (afterEval (forkEnv 101) "sleep 2 &\n" ["sleep", "2", "&"] raceOne).jobs
      [(100, .exited 0)]).jobs,
    waits := [] }

/-- Then `fg %2` is typed, and child 101 exits after `checkingType` has found
its job in slot 1: the handler clears slot 1, `do_bgfg` writes `FG` into it and
calls `waitfg(0)`. -/
def raceThree : Shell :=
  { jobs := (do_bgfg_interrupted raceTwo.jobs ["fg", "%2"] [(101, .exited 0)]).jobs,
    waits := (do_bgfg_interrupted raceTwo.jobs ["fg", "%2"] [(101, .exited 0)]).waitfg.toList }

/-- Then `waitfg(0)` returns and `sleep 3` is launched in the foreground as
pid 102. -/
def raceFour : Shell :=
  afterEval (forkEnv 102) "sleep 3\n" ["sleep", "3"] { jobs := raceThree.jobs, waits := [] }

/-- After `sleep 1 &` at the first prompt, `bg %1` is typed, and child 100
exits after `checkingType` has found its job in slot 0. -/
def raceBg : Shell :=
  { jobs := (do_bgfg_interrupted raceOne.jobs ["bg", "%1"] [(100, .exited 0)]).jobs,
    waits := (do_bgfg_interrupted raceOne.jobs ["bg", "%1"] [(100, .exited 0)]).waitfg.toList }

end Tsh

namespace Tsh

end Tsh

/-! # Theorems -/

namespace Tsh

/-! ## Slot search and slot update: basic facts -/

theorem findSlot_eq_none {p : job_t → Bool} {l : List job_t} :
    findSlot p l = none ↔ ∀ j ∈ l, p j = false := by
  induction l with
  | nil => simp [findSlot]
  | cons a l ih =>
    by_cases ha : p a = true
    · simp [findSlot, ha]
    · simp only [Bool.not_eq_true] at ha
      simp [findSlot, ha, ih]

theorem findSlot_eq_some {p : job_t → Bool} {l : List job_t} {i : Nat}
    (h : findSlot p l = some i) :
    ∃ j, l[i]? = some j ∧ p j = true ∧ ∀ k, k < i → ∀ b, l[k]? = some b → p b = false := by
  induction l generalizing i with
  | nil => simp [findSlot] at h
  | cons a l ih =>
    by_cases ha : p a = true
    · simp only [findSlot, ha, if_true, Option.some.injEq] at h
      subst h
      exact ⟨a, by simp, ha, fun k hk => absurd hk (Nat.not_lt_zero k)⟩
    · simp only [findSlot, ha, Bool.false_eq_true, if_false, Option.map_eq_some'] at h
      obtain ⟨i0, hi0, rfl⟩ := h
      obtain ⟨j, hj, hpj, hlt⟩ := ih hi0
      refine ⟨j, by simpa using hj, hpj, ?_⟩
      intro k hk b hb
      cases k with
      | zero =>
        simp only [List.getElem?_cons_zero, Option.some.injEq] at hb
        subst hb
        simpa using ha
      | succ k =>
        simp only [List.getElem?_cons_succ] at hb
        exact hlt k (by omega) b hb

theorem findSlot_lt {p : job_t → Bool} {l : List job_t} {i : Nat}
    (h : findSlot p l = some i) : i < l.length := by
  obtain ⟨j, hj, _⟩ := findSlot_eq_some h
  exact (List.getElem?_eq_some.mp hj).1

theorem updSlot_eq_set (f : job_t → job_t) (l : List job_t) (i : Nat) (j : job_t)
    (h : l[i]? = some j) : updSlot f l i = l.set i (f j) := by
  induction l generalizing i with
  | nil => simp at h
  | cons a l ih =>
    cases i with
    | zero =>
      simp only [List.getElem?_cons_zero, Option.some.injEq] at h
      subst h
      rfl
    | succ i =>
      simp only [List.getElem?_cons_succ] at h
      simp [updSlot, ih i h]

theorem slot_eq {l : List job_t} {i : Nat} {j : job_t} (h : l[i]? = some j) :
    slot l i = j := by
  simp [slot, List.getD, h]

theorem slot_updSlot (f : job_t → job_t) {l : List job_t} {i : Nat} {j : job_t}
    (h : l[i]? = some j) : slot (updSlot f l i) i = f j := by
  rw [updSlot_eq_set f l i j h]
  have hi := (List.getElem?_eq_some.mp h).1
  exact slot_eq (by simp [List.getElem?_set, hi])

theorem length_updSlot (f : job_t → job_t) (l : List job_t) (i : Nat) :
    (updSlot f l i).length = l.length := by
  induction l generalizing i with
  | nil => rfl
  | cons a l ih => cases i <;> simp [updSlot, ih]

end Tsh

namespace Tsh

/-! ## freejid -/

theorem length_markTaken (js : List job_t) (taken : List Bool) :
    (markTaken js taken).length = taken.length := by
  induction js generalizing taken with
  | nil => rfl
  | cons a js ih =>
    simp only [markTaken]
    split <;> simp [ih]

theorem markTaken_getD (js : List job_t) (taken : List Bool) (k : Nat)
    (hk : k < taken.length)
    (hr : ∀ j ∈ js, 0 ≤ j.jid ∧ j.jid ≤ MAXJOBS) :
    (markTaken js taken).getD k false = true ↔
      (taken.getD k false = true ∨ ∃ j ∈ js, j.jid ≠ 0 ∧ j.jid = (k : Int)) := by
  induction js generalizing taken with
  | nil => simp [markTaken]
  | cons a js ih =>
    have hra := hr a (List.mem_cons_self _ _)
    have hrs : ∀ j ∈ js, 0 ≤ j.jid ∧ j.jid ≤ MAXJOBS :=
      fun j hj => hr j (List.mem_cons_of_mem _ hj)
    simp only [markTaken]
    by_cases h0 : a.jid = 0
    · simp only [h0, ne_eq, not_true_eq_false, if_false]
      rw [ih taken hk hrs]
      constructor
      · rintro (h | ⟨j, hj, hne, he⟩)
        · exact Or.inl h
        · exact Or.inr ⟨j, List.mem_cons_of_mem _ hj, hne, he⟩
      · rintro (h | ⟨j, hj, hne, he⟩)
        · exact Or.inl h
        · rcases List.mem_cons.mp hj with rfl | hj
          · exact absurd h0 hne
          · exact Or.inr ⟨j, hj, hne, he⟩
    · simp only [ne_eq, h0, not_false_eq_true, if_true]
      rw [ih (taken.set a.jid.toNat true) (by simpa using hk) hrs]
      have hset : (taken.set a.jid.toNat true).getD k false = true ↔
          (taken.getD k false = true ∨ a.jid = (k : Int)) := by
        simp only [List.getD_eq_getElem?_getD, List.getElem?_set]
        by_cases hak : a.jid.toNat = k
        · have : a.jid = (k : Int) := by omega
          simp [hak, hk, this]
        · have : a.jid ≠ (k : Int) := by omega
          simp [hak, this]
      rw [hset]
      constructor
      · rintro ((h | h) | ⟨j, hj, hne, he⟩)
        · exact Or.inl h
        · exact Or.inr ⟨a, List.mem_cons_self _ _, h0, h⟩
        · exact Or.inr ⟨j, List.mem_cons_of_mem _ hj, hne, he⟩
      · rintro (h | ⟨j, hj, hne, he⟩)
        · exact Or.inl (Or.inl h)
        · rcases List.mem_cons.mp hj with rfl | hj
          · exact Or.inl (Or.inr he)
          · exact Or.inr ⟨j, hj, hne, he⟩

theorem firstUntaken_range (taken : List Bool) (n s : Nat) :
    (firstUntaken taken (List.range' s n) = 0 ∧
        ∀ i, s ≤ i → i < s + n → taken.getD i false = true) ∨
    (∃ r : Nat, firstUntaken taken (List.range' s n) = (r : Int) ∧ s ≤ r ∧ r < s + n ∧
        taken.getD r false = false ∧ ∀ i, s ≤ i → i < r → taken.getD i false = true) := by
  induction n generalizing s with
  | zero =>
    left
    exact ⟨rfl, fun i h1 h2 => by omega⟩
  | succ n ih =>
    simp only [List.range'_succ, firstUntaken]
    by_cases hs : taken.getD s false = false
    · right
      exact ⟨s, by rw [if_pos hs], le_refl _, by omega, hs, fun i h1 h2 => by omega⟩
    · have hs1 : taken.getD s false = true := by simpa using hs
      simp only [hs, if_false]
      rcases ih (s + 1) with ⟨h0, hall⟩ | ⟨r, hr, h1, h2, h3, h4⟩
      · left
        refine ⟨h0, fun i h1 h2 => ?_⟩
        rcases Nat.eq_or_lt_of_le h1 with rfl | hlt
        · exact hs1
        · exact hall i hlt (by omega)
      · right
        refine ⟨r, hr, by omega, by omega, h3, fun i hi1 hi2 => ?_⟩
        rcases Nat.eq_or_lt_of_le hi1 with rfl | hlt
        · exact hs1
        · exact h4 i hlt hi2

/-- Characterisation of `freejid` on a table whose job IDs lie in `[0, MAXJOBS]`. -/
theorem freejid_cases (jobs : List job_t)
    (hr : ∀ j ∈ jobs, 0 ≤ j.jid ∧ j.jid ≤ MAXJOBS) :
    (freejid jobs = 0 ∧ ∀ k : Int, 1 ≤ k → k ≤ MAXJOBS → ∃ j ∈ jobs, j.jid = k) ∨
    (1 ≤ freejid jobs ∧ freejid jobs ≤ MAXJOBS ∧ (∀ j ∈ jobs, j.jid ≠ freejid jobs) ∧
      ∀ k : Int, 1 ≤ k → k < freejid jobs → ∃ j ∈ jobs, j.jid = k) := by
  have hlen : (List.replicate (MAXJOBS + 1) false).length = MAXJOBS + 1 := by simp
  have key : ∀ k : Nat, 1 ≤ k → k ≤ MAXJOBS →
      ((markTaken jobs (List.replicate (MAXJOBS + 1) false)).getD k false = true ↔
        ∃ j ∈ jobs, j.jid = (k : Int)) := by
    intro k hk1 hk2
    rw [markTaken_getD jobs _ k (by rw [hlen]; omega) hr]
    constructor
    · rintro (h | ⟨j, hj, _, he⟩)
      · simp only [List.getD_eq_getElem?_getD, List.getElem?_replicate] at h
        split at h <;> simp at h
      · exact ⟨j, hj, he⟩
    · rintro ⟨j, hj, he⟩
      exact Or.inr ⟨j, hj, by omega, he⟩
  unfold freejid
  rcases firstUntaken_range (markTaken jobs (List.replicate (MAXJOBS + 1) false)) MAXJOBS 1
    with ⟨h0, hall⟩ | ⟨r, hr0, h1, h2, h3, h4⟩
  · left
    refine ⟨h0, fun k hk1 hk2 => ?_⟩
    obtain ⟨n, rfl⟩ := Int.eq_ofNat_of_zero_le (by omega : 0 ≤ k)
    exact (key n (by omega) (by omega)).mp (hall n (by omega) (by omega))
  · right
    rw [hr0]
    refine ⟨by omega, by omega, ?_, ?_⟩
    · intro j hj he
      have := (key r h1 (by omega)).mpr ⟨j, hj, he⟩
      rw [h3] at this
      exact absurd this (by simp)
    · intro k hk1 hk2
      obtain ⟨n, rfl⟩ := Int.eq_ofNat_of_zero_le (by omega : 0 ≤ k)
      exact (key n (by omega) (by omega)).mp (h4 n (by omega) (by omega))

end Tsh

namespace Tsh

/-! ## Shape of the tables the operations return -/

theorem mem_updSlot {f : job_t → job_t} {l : List job_t} {i : Nat} {b : job_t}
    (h : b ∈ updSlot f l i) : b ∈ l ∨ ∃ o, l[i]? = some o ∧ b = f o := by
  induction l generalizing i with
  | nil => simp [updSlot] at h
  | cons a l ih =>
    cases i with
    | zero =>
      simp only [updSlot, List.mem_cons] at h
      rcases h with rfl | h
      · exact Or.inr ⟨a, by simp, rfl⟩
      · exact Or.inl (List.mem_cons_of_mem _ h)
    | succ n =>
      simp only [updSlot, List.mem_cons] at h
      rcases h with rfl | h
      · exact Or.inl (List.mem_cons_self _ _)
      · rcases ih h with h | ⟨o, ho, rfl⟩
        · exact Or.inl (List.mem_cons_of_mem _ h)
        · exact Or.inr ⟨o, by simpa using ho, rfl⟩

theorem addjob_cases (verbose : Bool) (jobs : List job_t) (pid state : Int)
    (cmdline : String) :
    ((addjob verbose jobs pid state cmdline).ret = 0 ∧
        (addjob verbose jobs pid state cmdline).jobs = jobs ∧
        (pid < 1 ∨ freejid jobs = 0 ∨ findSlot (fun j => j.pid = 0) jobs = none)) ∨
    (∃ i, (addjob verbose jobs pid state cmdline).ret = 1 ∧ 1 ≤ pid ∧ freejid jobs ≠ 0 ∧
        findSlot (fun j => j.pid = 0) jobs = some i ∧
        (addjob verbose jobs pid state cmdline).jobs =
          updSlot (fun _ => { pid := pid, jid := freejid jobs, state := state,
                              cmdline := cmdline }) jobs i) := by
  unfold addjob
  by_cases hp : pid < 1
  · left
    simp [hp]
  · by_cases hf : freejid jobs = 0
    · left
      simp [hp, hf]
    · cases hs : findSlot (fun j => decide (j.pid = 0)) jobs with
      | none =>
        left
        simp [hp, hf, hs]
      | some i =>
        right
        exact ⟨i, by simp [hp, hf, hs], by omega, hf, rfl, by simp [hp, hf, hs]⟩

theorem deletejob_cases (jobs : List job_t) (pid : Int) :
    ((deletejob jobs pid).ret = 0 ∧ (deletejob jobs pid).jobs = jobs ∧
        (pid < 1 ∨ findSlot (fun j => j.pid = pid) jobs = none)) ∨
    (∃ i, (deletejob jobs pid).ret = 1 ∧ 1 ≤ pid ∧
        findSlot (fun j => j.pid = pid) jobs = some i ∧
        (deletejob jobs pid).jobs = updSlot clearjob jobs i) := by
  unfold deletejob
  by_cases hp : pid < 1
  · left
    simp [hp]
  · cases hs : findSlot (fun j => decide (j.pid = pid)) jobs with
    | none =>
      left
      simp [hp, hs]
    | some i =>
      right
      exact ⟨i, by simp [hp, hs], by omega, rfl, by simp [hp, hs]⟩

theorem getjobpid_eq_some {jobs : List job_t} {pid : Int} {i : Nat}
    (h : getjobpid jobs pid = some i) :
    1 ≤ pid ∧ findSlot (fun j => j.pid = pid) jobs = some i := by
  unfold getjobpid at h
  by_cases hp : pid < 1
  · simp [hp] at h
  · simp only [hp, if_false] at h
    exact ⟨by omega, h⟩

theorem getjobjid_eq_some {jobs : List job_t} {jid : Int} {i : Nat}
    (h : getjobjid jobs jid = some i) :
    1 ≤ jid ∧ findSlot (fun j => j.jid = jid) jobs = some i := by
  unfold getjobjid at h
  by_cases hp : jid < 1
  · simp [hp] at h
  · simp only [hp, if_false] at h
    exact ⟨by omega, h⟩

/-- The slot `checkingType` resolves a target to holds a job whose pid or jid
is at least 1. -/
theorem checkingType_eq_some {arg : String} {jobs : List job_t} {i : Nat}
    (h : checkingType arg jobs = some i) :
    ∃ j, jobs[i]? = some j ∧ (1 ≤ j.pid ∨ 1 ≤ j.jid) := by
  unfold checkingType at h
  split at h
  · obtain ⟨h1, h2⟩ := getjobjid_eq_some h
    obtain ⟨j, hj, hp, _⟩ := findSlot_eq_some h2
    exact ⟨j, hj, Or.inr (by simp at hp; omega)⟩
  · split at h
    · obtain ⟨h1, h2⟩ := getjobpid_eq_some h
      obtain ⟨j, hj, hp, _⟩ := findSlot_eq_some h2
      exact ⟨j, hj, Or.inl (by simp at hp; omega)⟩
    · simp at h

theorem do_bgfg_cases (jobs : List job_t) (argv : List String) :
    ((do_bgfg jobs argv).jobs = jobs ∧ (do_bgfg jobs argv).waitfg = none) ∨
    ∃ i j st, jobs[i]? = some j ∧ (1 ≤ j.pid ∨ 1 ≤ j.jid) ∧ (st = BG ∨ st = FG) ∧
      (do_bgfg jobs argv).jobs = updSlot (fun j => { j with state := st }) jobs i ∧
      (do_bgfg jobs argv).waitfg = (if st = FG then some j.pid else none) := by
  unfold do_bgfg
  match argv with
  | [] => exact Or.inl ⟨rfl, rfl⟩
  | [_] => exact Or.inl ⟨rfl, rfl⟩
  | argv0 :: argv1 :: _ =>
    simp only
    cases hc : checkingType argv1 jobs with
    | none => exact Or.inl ⟨rfl, rfl⟩
    | some i =>
      obtain ⟨j, hj, hlive⟩ := checkingType_eq_some hc
      simp only
      by_cases hbg : argv0 = "bg"
      · right
        refine ⟨i, j, BG, hj, hlive, Or.inl rfl, by simp [hbg], ?_⟩
        rw [if_pos hbg, if_neg (by decide)]
      · by_cases hfg : argv0 = "fg"
        · right
          refine ⟨i, j, FG, hj, hlive, Or.inr rfl, by simp [hbg, hfg], ?_⟩
          rw [if_neg hbg, if_pos hfg, if_pos rfl]
          simp only
          rw [slot_updSlot _ hj]
        · left
          simp [hbg, hfg]

theorem sigchld_reap_cases (jobs : List job_t) (pid : Int) (status : WStatus) :
    (sigchld_reap jobs pid status).jobs = jobs ∨
    (sigchld_reap jobs pid status).jobs = (deletejob jobs pid).jobs ∨
    ∃ i j, jobs[i]? = some j ∧ 1 ≤ j.pid ∧ j.pid = pid ∧
      (sigchld_reap jobs pid status).jobs = updSlot (fun j => { j with state := ST }) jobs i := by
  unfold sigchld_reap
  cases hg : getjobpid jobs pid with
  | none => exact Or.inl rfl
  | some i =>
    simp only
    by_cases hs : WIFSTOPPED status = true
    · right; right
      obtain ⟨h1, h2⟩ := getjobpid_eq_some hg
      obtain ⟨j, hj, hp, _⟩ := findSlot_eq_some h2
      exact ⟨i, j, hj, by simp at hp; omega, by simpa using hp, by simp [hs]⟩
    · right; left
      simp [hs]

end Tsh

namespace Tsh

/-! ## Invariants of the job table -/

theorem distinctKey_updSlot (key : job_t → Int) (f : job_t → job_t) (l : List job_t)
    (i : Nat) (hd : DistinctKey key l)
    (hf : ∀ o, l[i]? = some o →
      key (f o) = 0 ∨ key (f o) = key o ∨ ∀ b ∈ l, key b ≠ key (f o)) :
    DistinctKey key (updSlot f l i) := by
  unfold DistinctKey at *
  induction l generalizing i with
  | nil => simp [updSlot]
  | cons a l ih =>
    rw [List.pairwise_cons] at hd
    obtain ⟨ha, hl⟩ := hd
    cases i with
    | zero =>
      simp only [updSlot, List.pairwise_cons]
      refine ⟨fun b hb hne => ?_, hl⟩
      rcases hf a (by simp) with h0 | hk | hfresh
      · exact absurd h0 hne
      · rw [hk]
        exact ha b hb (by rwa [hk] at hne)
      · exact fun he => hfresh b (List.mem_cons_of_mem _ hb) he.symm
    | succ n =>
      simp only [updSlot, List.pairwise_cons]
      refine ⟨fun b hb hne => ?_, ih n hl ?_⟩
      · rcases mem_updSlot hb with hb | ⟨o, ho, rfl⟩
        · exact ha b hb hne
        · rcases hf o (by simpa using ho) with h0 | hk | hfresh
          · rw [h0]
            exact hne
          · rw [hk]
            exact ha o (List.getElem?_mem ho) hne
          · exact hfresh a (List.mem_cons_self _ _)
      · intro o ho
        rcases hf o (by simpa using ho) with h0 | hk | hfresh
        · exact Or.inl h0
        · exact Or.inr (Or.inl hk)
        · exact Or.inr (Or.inr fun b hb => hfresh b (List.mem_cons_of_mem _ hb))

theorem distinctKey_eq (key : job_t → Int) {l : List job_t} (hd : DistinctKey key l)
    {a b : job_t} (ha : a ∈ l) (hb : b ∈ l) (hne : key a ≠ 0) (he : key a = key b) :
    a = b := by
  unfold DistinctKey at hd
  induction l with
  | nil => simp at ha
  | cons x l ih =>
    rw [List.pairwise_cons] at hd
    obtain ⟨hx, hl⟩ := hd
    rcases List.mem_cons.mp ha with hax | hal
    · rcases List.mem_cons.mp hb with hbx | hbl
      · rw [hax, hbx]
      · subst hax
        exact absurd he (hx b hbl hne)
    · rcases List.mem_cons.mp hb with hbx | hbl
      · subst hbx
        exact absurd he.symm (hx a hal (by rwa [← he]))
      · exact ih hl hal hbl

theorem slotOK_updSlot (f : job_t → job_t) (l : List job_t) (i : Nat)
    (hl : ∀ j ∈ l, SlotOK j) (hf : ∀ o, l[i]? = some o → SlotOK (f o)) :
    ∀ j ∈ updSlot f l i, SlotOK j := by
  intro j hj
  rcases mem_updSlot hj with hj | ⟨o, ho, rfl⟩
  · exact hl j hj
  · exact hf o ho

theorem slotOK_live {j : job_t} (h : SlotOK j) (hl : 1 ≤ j.pid ∨ 1 ≤ j.jid) :
    1 ≤ j.pid ∧ 1 ≤ j.jid ∧ j.jid ≤ MAXJOBS ∧ (j.state = FG ∨ j.state = BG ∨ j.state = ST) := by
  rcases h with ⟨h1, h2, _⟩ | h
  · omega
  · exact h

theorem tableOK_jid_range {jobs : List job_t} (h : TableOK jobs) :
    ∀ j ∈ jobs, 0 ≤ j.jid ∧ j.jid ≤ MAXJOBS := by
  intro j hj
  rcases h.2.1 j hj with ⟨_, h2, _⟩ | ⟨_, h2, h3, _⟩
  · rw [h2]; exact ⟨le_refl _, by simp⟩
  · exact ⟨by omega, h3⟩

theorem tableOK_set_state {jobs : List job_t} (h : TableOK jobs) {i : Nat} {j : job_t}
    (hj : jobs[i]? = some j) (hlive : 1 ≤ j.pid ∨ 1 ≤ j.jid) (st : Int)
    (hst : st = FG ∨ st = BG ∨ st = ST) :
    TableOK (updSlot (fun j => { j with state := st }) jobs i) := by
  refine ⟨by rw [length_updSlot]; exact h.1, ?_, ?_⟩
  · apply slotOK_updSlot _ _ _ h.2.1
    intro o ho
    rw [hj] at ho
    obtain rfl := Option.some.inj ho
    obtain ⟨h1, h2, h3, _⟩ := slotOK_live (h.2.1 _ (List.getElem?_mem hj)) hlive
    exact Or.inr ⟨h1, h2, h3, hst⟩
  · exact distinctKey_updSlot _ _ _ _ h.2.2 (fun o _ => Or.inr (Or.inl rfl))

theorem tableOK_clear {jobs : List job_t} (h : TableOK jobs) (i : Nat) :
    TableOK (updSlot clearjob jobs i) := by
  refine ⟨by rw [length_updSlot]; exact h.1, ?_, ?_⟩
  · apply slotOK_updSlot _ _ _ h.2.1
    intro o _
    exact Or.inl ⟨rfl, rfl, rfl⟩
  · exact distinctKey_updSlot _ _ _ _ h.2.2 (fun o _ => Or.inl rfl)

theorem tableOK_deletejob {jobs : List job_t} (h : TableOK jobs) (pid : Int) :
    TableOK (deletejob jobs pid).jobs := by
  rcases deletejob_cases jobs pid with ⟨_, he, _⟩ | ⟨i, _, _, _, he⟩
  · rw [he]; exact h
  · rw [he]; exact tableOK_clear h i

theorem tableOK_addjob {jobs : List job_t} (h : TableOK jobs) (verbose : Bool)
    (pid state : Int) (cmdline : String) (hst : state = FG ∨ state = BG) :
    TableOK (addjob verbose jobs pid state cmdline).jobs := by
  rcases addjob_cases verbose jobs pid state cmdline with ⟨_, he, _⟩ | ⟨i, _, hp, hf, hs, he⟩
  · rw [he]; exact h
  · rw [he]
    rcases freejid_cases jobs (tableOK_jid_range h) with ⟨h0, _⟩ | ⟨h1, h2, h3, _⟩
    · exact absurd h0 hf
    · refine ⟨by rw [length_updSlot]; exact h.1, ?_, ?_⟩
      · apply slotOK_updSlot _ _ _ h.2.1
        intro o _
        refine Or.inr ⟨hp, h1, h2, ?_⟩
        rcases hst with hst | hst
        · exact Or.inl hst
        · exact Or.inr (Or.inl hst)
      · exact distinctKey_updSlot _ _ _ _ h.2.2 (fun o _ => Or.inr (Or.inr h3))

theorem tableOK_do_bgfg {jobs : List job_t} (h : TableOK jobs) (argv : List String) :
    TableOK (do_bgfg jobs argv).jobs := by
  rcases do_bgfg_cases jobs argv with ⟨he, _⟩ | ⟨i, j, st, hj, hlive, hst, he, _⟩
  · rw [he]; exact h
  · rw [he]
    refine tableOK_set_state h hj hlive st ?_
    rcases hst with hst | hst
    · exact Or.inr (Or.inl hst)
    · exact Or.inl hst

theorem tableOK_sigchld_reap {jobs : List job_t} (h : TableOK jobs) (pid : Int)
    (status : WStatus) : TableOK (sigchld_reap jobs pid status).jobs := by
  rcases sigchld_reap_cases jobs pid status with he | he | ⟨i, j, hj, hlive, _, he⟩
  · rw [he]; exact h
  · rw [he]; exact tableOK_deletejob h pid
  · rw [he]
    exact tableOK_set_state h hj (Or.inl hlive) ST (Or.inr (Or.inr rfl))

theorem tableOK_init : TableOK (initjobs jobs0) := by
  refine ⟨by decide, ?_, ?_⟩
  · intro j hj
    simp only [initjobs, jobs0, List.map_replicate, List.mem_replicate] at hj
    rw [hj.2]
    exact Or.inl ⟨rfl, rfl, rfl⟩
  · unfold DistinctKey
    simp only [initjobs, jobs0, List.map_replicate]
    rw [List.pairwise_replicate]
    right
    intro h
    exact absurd rfl h

theorem tableOK_of_reach {jobs : List job_t} (h : TableReach jobs) : TableOK jobs := by
  induction h with
  | init => exact tableOK_init
  | addjob verbose jobs pid state cmdline _ hst ih => exact tableOK_addjob ih _ _ _ _ hst
  | deletejob jobs pid _ ih => exact tableOK_deletejob ih pid
  | do_bgfg jobs argv _ ih => exact tableOK_do_bgfg ih argv
  | sigchld_reap jobs pid status _ ih => exact tableOK_sigchld_reap ih pid status

end Tsh

namespace Tsh

/-! ## More on slot search -/

theorem findSlot_of_first {p : job_t → Bool} {l : List job_t} {i : Nat} {j : job_t}
    (hj : l[i]? = some j) (hp : p j = true)
    (hlt : ∀ k b, k < i → l[k]? = some b → p b = false) : findSlot p l = some i := by
  induction l generalizing i with
  | nil => simp at hj
  | cons a l ih =>
    cases i with
    | zero =>
      simp only [List.getElem?_cons_zero, Option.some.injEq] at hj
      subst hj
      simp [findSlot, hp]
    | succ n =>
      have ha : p a = false := hlt 0 a (Nat.succ_pos n) (by simp)
      simp only [List.getElem?_cons_succ] at hj
      have := ih hj (fun k b hk hb => hlt (k + 1) b (by omega) (by simpa using hb))
      simp [findSlot, ha, this]

theorem findSlot_isSome_of_mem {p : job_t → Bool} {l : List job_t} {j : job_t}
    (hj : j ∈ l) (hp : p j = true) : ∃ i, findSlot p l = some i := by
  cases h : findSlot p l with
  | none =>
    have := findSlot_eq_none.mp h j hj
    rw [hp] at this
    exact absurd this (by simp)
  | some i => exact ⟨i, rfl⟩

theorem map_eq_self (g : job_t → job_t) (l : List job_t) (h : ∀ b ∈ l, g b = b) :
    l.map g = l := by
  induction l with
  | nil => rfl
  | cons a l ih =>
    rw [List.map_cons, h a (List.mem_cons_self _ _),
      ih (fun b hb => h b (List.mem_cons_of_mem _ hb))]

/-- With distinct pids, writing through the first slot of pid `p` is writing
through every slot of pid `p`. -/
theorem updSlot_eq_map_of_distinct (f : job_t → job_t) (p : Int) (hp : p ≠ 0)
    (l : List job_t) (hd : DistinctKey (fun j => j.pid) l) (i : Nat)
    (hs : findSlot (fun j => j.pid = p) l = some i) :
    updSlot f l i = l.map (fun j => if j.pid = p then f j else j) := by
  unfold DistinctKey at hd
  induction l generalizing i with
  | nil => simp [findSlot] at hs
  | cons a l ih =>
    rw [List.pairwise_cons] at hd
    obtain ⟨ha, hl⟩ := hd
    by_cases hap : a.pid = p
    · have h0 : i = 0 := by
        simp only [findSlot, hap, decide_True, if_true, Option.some.injEq] at hs
        exact hs.symm
      subst h0
      simp only [updSlot, List.map_cons, hap, if_true, List.cons.injEq, true_and]
      symm
      apply map_eq_self
      intro b hb
      have hne : a.pid ≠ b.pid := ha b hb (by show a.pid ≠ 0; rw [hap]; exact hp)
      rw [hap] at hne
      rw [if_neg (fun h => hne h.symm)]
    · simp only [findSlot, hap, decide_False, Bool.false_eq_true, if_false,
        Option.map_eq_some'] at hs
      obtain ⟨n, hn, rfl⟩ := hs
      simp only [updSlot, List.map_cons, hap, if_false, List.cons.injEq, true_and]
      exact ih hl n hn

theorem map_eq_self_of_absent (f : job_t → job_t) (p : Int) (l : List job_t)
    (h : ∀ j ∈ l, j.pid ≠ p) : l.map (fun j => if j.pid = p then f j else j) = l := by
  apply map_eq_self
  intro b hb
  rw [if_neg (h b hb)]

/-- The table `deletejob` leaves, slot by slot, when live pids are distinct. -/
theorem deletejob_eq_map (jobs : List job_t) (pid : Int)
    (hd : DistinctKey (fun j => j.pid) jobs) :
    (deletejob jobs pid).jobs =
      jobs.map (fun j => if 1 ≤ pid ∧ j.pid = pid then clearjob j else j) := by
  rcases deletejob_cases jobs pid with ⟨_, he, hp | hn⟩ | ⟨i, _, hp, hs, he⟩
  · rw [he]
    symm
    apply map_eq_self
    intro b _
    rw [if_neg (fun h => by omega)]
  · rw [he]
    have := findSlot_eq_none.mp hn
    symm
    apply map_eq_self
    intro b hb
    have hb2 := this b hb
    simp only [decide_eq_false_iff_not] at hb2
    rw [if_neg (fun h => hb2 h.2)]
  · rw [he, updSlot_eq_map_of_distinct clearjob pid (by omega) jobs hd i hs]
    apply List.map_congr_left
    intro b _
    simp [hp]

theorem deletejob_absent (jobs : List job_t) (pid : Int) (h : ∀ j ∈ jobs, j.pid ≠ pid) :
    deletejob jobs pid = { jobs := jobs, ret := 0 } := by
  unfold deletejob
  split
  · rfl
  · have : findSlot (fun j => decide (j.pid = pid)) jobs = none :=
      findSlot_eq_none.mpr (fun j hj => by simpa using h j hj)
    rw [this]

theorem getjobpid_absent (jobs : List job_t) (pid : Int) (h : ∀ j ∈ jobs, j.pid ≠ pid) :
    getjobpid jobs pid = none := by
  unfold getjobpid
  split
  · rfl
  · exact findSlot_eq_none.mpr (fun j hj => by simpa using h j hj)

theorem absent_after_deletejob (jobs : List job_t) (pid : Int)
    (hd : DistinctKey (fun j => j.pid) jobs) (hp : 1 ≤ pid) :
    ∀ j ∈ (deletejob jobs pid).jobs, j.pid ≠ pid := by
  rw [deletejob_eq_map jobs pid hd]
  intro j hj
  rw [List.mem_map] at hj
  obtain ⟨b, _, rfl⟩ := hj
  by_cases hb : b.pid = pid
  · simp only [hp, hb, and_self, if_true, clearjob]
    omega
  · simp only [hb, and_false, if_false]
    exact hb

end Tsh

namespace Tsh

/-! ## A free job ID means a cleared slot -/

theorem exists_cleared_of_free {jobs : List job_t} (h : TableOK jobs)
    (hf : freejid jobs ≠ 0) : ∃ i, findSlot (fun j => j.pid = 0) jobs = some i := by
  cases hs : findSlot (fun j => decide (j.pid = 0)) jobs with
  | some i => exact ⟨i, rfl⟩
  | none =>
    exfalso
    have hlive : ∀ j ∈ jobs, j.pid ≠ 0 := fun j hj => by
      simpa using findSlot_eq_none.mp hs j hj
    have hjid : ∀ j ∈ jobs, 1 ≤ j.jid ∧ j.jid ≤ MAXJOBS := fun j hj => by
      rcases h.2.1 j hj with ⟨h0, _⟩ | ⟨_, h1, h2, _⟩
      · exact absurd h0 (hlive j hj)
      · exact ⟨h1, h2⟩
    have hnd : (jobs.map (fun j => j.jid)).Nodup := by
      unfold List.Nodup
      rw [List.pairwise_map]
      exact h.2.2.imp_of_mem (fun {a b} ha _ hab => hab (by have := (hjid a ha).1; show a.jid ≠ 0; omega))
    have hsub : (jobs.map (fun j => j.jid)).toFinset ⊆ Finset.Icc (1 : Int) MAXJOBS := by
      intro x hx
      rw [List.mem_toFinset, List.mem_map] at hx
      obtain ⟨j, hj, rfl⟩ := hx
      exact Finset.mem_Icc.mpr (hjid j hj)
    have hcard : (Finset.Icc (1 : Int) MAXJOBS).card ≤ (jobs.map (fun j => j.jid)).toFinset.card := by
      rw [List.toFinset_card_of_nodup hnd, List.length_map, h.1, Int.card_Icc]
      simp [MAXJOBS]
    have heq := Finset.eq_of_subset_of_card_le hsub hcard
    rcases freejid_cases jobs (tableOK_jid_range h) with ⟨h0, _⟩ | ⟨h1, h2, h3, _⟩
    · exact hf h0
    · have hmem : freejid jobs ∈ (jobs.map (fun j => j.jid)).toFinset := by
        rw [heq]
        exact Finset.mem_Icc.mpr ⟨h1, h2⟩
      rw [List.mem_toFinset, List.mem_map] at hmem
      obtain ⟨j, hj, he⟩ := hmem
      exact h3 j hj he

end Tsh

namespace Tsh

/-! ## Claims on the job table -/

/-- C2. On a table whose job IDs all lie in `[0, MAXJOBS]`, `freejid` returns 0
exactly when every value of `[1, MAXJOBS]` is the job ID of some slot, otherwise
it returns the smallest value of `[1, MAXJOBS]` that no slot has as its job ID;
and an `addjob` that returns 1 has written exactly that value as the job ID of
the slot it filled, a slot whose pid was 0. -/
theorem freejid_smallest_unused (jobs : List job_t)
    (hr : ∀ j ∈ jobs, 0 ≤ j.jid ∧ j.jid ≤ MAXJOBS) :
    (freejid jobs = 0 ↔ ∀ k : Int, 1 ≤ k → k ≤ MAXJOBS → ∃ j ∈ jobs, j.jid = k) ∧
    (freejid jobs ≠ 0 →
      1 ≤ freejid jobs ∧ freejid jobs ≤ MAXJOBS ∧ (∀ j ∈ jobs, j.jid ≠ freejid jobs) ∧
      ∀ k : Int, 1 ≤ k → k < freejid jobs → ∃ j ∈ jobs, j.jid = k) ∧
    (∀ (verbose : Bool) (pid state : Int) (cmdline : String),
      (addjob verbose jobs pid state cmdline).ret = 1 →
      freejid jobs ≠ 0 ∧
      ∃ i old, jobs[i]? = some old ∧ old.pid = 0 ∧
        (addjob verbose jobs pid state cmdline).jobs =
          jobs.set i { pid := pid, jid := freejid jobs, state := state, cmdline := cmdline }) := by
  refine ⟨?_, ?_, ?_⟩
  · rcases freejid_cases jobs hr with ⟨h0, hall⟩ | ⟨h1, h2, h3, _⟩
    · exact ⟨fun _ => hall, fun _ => h0⟩
    · constructor
      · intro h0
        omega
      · intro hall
        obtain ⟨j, hj, he⟩ := hall (freejid jobs) h1 h2
        exact absurd he (h3 j hj)
  · intro hne
    rcases freejid_cases jobs hr with ⟨h0, _⟩ | h
    · exact absurd h0 hne
    · exact h
  · intro verbose pid state cmdline hret
    rcases addjob_cases verbose jobs pid state cmdline with ⟨h0, _⟩ | ⟨i, _, _, hf, hs, he⟩
    · rw [h0] at hret
      exact absurd hret (by decide)
    · obtain ⟨old, hold, hp, _⟩ := findSlot_eq_some hs
      refine ⟨hf, i, old, hold, by simpa using hp, ?_⟩
      rw [he, updSlot_eq_set _ _ _ _ hold]

/-- C2, witness: the table `sampleJobs` (job IDs 1 and 3 in use) has its job
IDs in range, and there `freejid` is the smallest unused ID. -/
theorem freejid_smallest_unused_witness :
    (∀ j ∈ sampleJobs, 0 ≤ j.jid ∧ j.jid ≤ MAXJOBS) ∧
    (freejid sampleJobs ≠ 0 →
      1 ≤ freejid sampleJobs ∧ freejid sampleJobs ≤ MAXJOBS ∧
      (∀ j ∈ sampleJobs, j.jid ≠ freejid sampleJobs) ∧
      ∀ k : Int, 1 ≤ k → k < freejid sampleJobs → ∃ j ∈ sampleJobs, j.jid = k) :=
  ⟨by decide, (freejid_smallest_unused sampleJobs (by decide)).2.1⟩

/-- C3. On every table reachable from `initjobs`, `addjob` returns 0 exactly
when `pid < 1` or every job ID of `[1, MAXJOBS]` is in use, and then the table
is unchanged; otherwise it returns 1 and the table is the old one with
`pid`, `state`, the smallest free job ID and `cmdline` written into the
lowest-indexed slot whose pid is 0, every other slot being as before. -/
theorem addjob_on_reachable (jobs : List job_t) (h : TableReach jobs) (verbose : Bool)
    (pid state : Int) (cmdline : String) :
    ((addjob verbose jobs pid state cmdline).ret = 0 ↔
      (pid < 1 ∨ ∀ k : Int, 1 ≤ k → k ≤ MAXJOBS → ∃ j ∈ jobs, j.jid = k)) ∧
    ((addjob verbose jobs pid state cmdline).ret = 0 →
      (addjob verbose jobs pid state cmdline).jobs = jobs) ∧
    ((addjob verbose jobs pid state cmdline).ret ≠ 0 →
      (addjob verbose jobs pid state cmdline).ret = 1 ∧
      1 ≤ freejid jobs ∧ freejid jobs ≤ MAXJOBS ∧ (∀ j ∈ jobs, j.jid ≠ freejid jobs) ∧
      (∀ k : Int, 1 ≤ k → k < freejid jobs → ∃ j ∈ jobs, j.jid = k) ∧
      ∃ i old, jobs[i]? = some old ∧ old.pid = 0 ∧
        (∀ k b, k < i → jobs[k]? = some b → b.pid ≠ 0) ∧
        (addjob verbose jobs pid state cmdline).jobs =
          jobs.set i { pid := pid, jid := freejid jobs, state := state, cmdline := cmdline }) := by
  have hok := tableOK_of_reach h
  have hr := tableOK_jid_range hok
  rcases addjob_cases verbose jobs pid state cmdline with
    ⟨h0, he, hwhy⟩ | ⟨i, h1, hp, hf, hs, he⟩
  · have hcause : pid < 1 ∨ ∀ k : Int, 1 ≤ k → k ≤ MAXJOBS → ∃ j ∈ jobs, j.jid = k := by
      rcases hwhy with hp | hf | hn
      · exact Or.inl hp
      · rcases freejid_cases jobs hr with ⟨_, hall⟩ | ⟨h1, _⟩
        · exact Or.inr hall
        · omega
      · by_cases hf : freejid jobs = 0
        · rcases freejid_cases jobs hr with ⟨_, hall⟩ | ⟨h1, _⟩
          · exact Or.inr hall
          · omega
        · obtain ⟨i, hi⟩ := exists_cleared_of_free hok hf
          rw [hi] at hn
          exact absurd hn (by simp)
    refine ⟨⟨fun _ => hcause, fun _ => h0⟩, fun _ => he, fun hne => absurd h0 hne⟩
  · obtain ⟨old, hold, hpo, hlt⟩ := findSlot_eq_some hs
    rcases freejid_cases jobs hr with ⟨h0, _⟩ | ⟨hf1, hf2, hf3, hf4⟩
    · exact absurd h0 hf
    · refine ⟨⟨fun h0 => ?_, fun hc => ?_⟩, fun h0 => ?_, fun _ => ?_⟩
      · rw [h1] at h0
        exact absurd h0 (by decide)
      · rcases hc with hc | hc
        · omega
        · obtain ⟨j, hj, hje⟩ := hc (freejid jobs) hf1 hf2
          exact absurd hje (hf3 j hj)
      · rw [h1] at h0
        exact absurd h0 (by decide)
      · refine ⟨h1, hf1, hf2, hf3, hf4, i, old, hold, by simpa using hpo, ?_, ?_⟩
        · intro k b hk hb
          simpa using hlt k hk b hb
        · rw [he, updSlot_eq_set _ _ _ _ hold]

/-- C3, witness: on the initial table, which is reachable, `addjob` behaves as
stated for the job `(100, FG, "sleep 5\n")`. -/
theorem addjob_on_reachable_witness :
    TableReach (initjobs jobs0) ∧
    ((addjob false (initjobs jobs0) 100 FG "sleep 5\n").ret = 0 ↔
      ((100 : Int) < 1 ∨
        ∀ k : Int, 1 ≤ k → k ≤ MAXJOBS → ∃ j ∈ initjobs jobs0, j.jid = k)) :=
  ⟨TableReach.init,
   (addjob_on_reachable (initjobs jobs0) TableReach.init false 100 FG "sleep 5\n").1⟩

end Tsh

namespace Tsh

theorem sigchld_reap_of_none (jobs : List job_t) (pid : Int) (status : WStatus)
    (h : getjobpid jobs pid = none) :
    sigchld_reap jobs pid status = { jobs := jobs, out := [] } := by
  unfold sigchld_reap
  rw [h]

theorem sigchld_reap_exited_jobs (jobs : List job_t) (pid : Int) (code : Nat) :
    (sigchld_reap jobs pid (.exited code)).jobs = (deletejob jobs pid).jobs := by
  cases hg : getjobpid jobs pid with
  | none =>
    rw [sigchld_reap_of_none jobs pid _ hg]
    unfold getjobpid at hg
    unfold deletejob
    by_cases hp : pid < 1
    · simp [hp]
    · rw [if_neg hp] at hg
      simp [hp, hg]
  | some i =>
    unfold sigchld_reap
    rw [hg]
    rfl

theorem getjobpid_after_deletejob (jobs : List job_t) (pid : Int)
    (hd : DistinctKey (fun j => j.pid) jobs) :
    getjobpid (deletejob jobs pid).jobs pid = none := by
  by_cases hp : 1 ≤ pid
  · exact getjobpid_absent _ _ (absent_after_deletejob jobs pid hd hp)
  · unfold getjobpid
    rw [if_pos (by omega)]

/-- C4. Reaping is idempotent. On a table whose live entries have pairwise
distinct pids, `deletejob(pid)` clears the slot holding `pid` and leaves every
other slot as it was, returning 1 when `pid >= 1` is held by a slot and 0
otherwise; a second `deletejob(pid)` returns 0 and changes nothing; and after
the handler has processed an exit notification for `pid`, a second
notification for `pid` finds no job, prints nothing and changes nothing, so
that handling the notification twice gives the table of handling it once. -/
theorem reaping_idempotent (jobs : List job_t) (pid : Int)
    (hd : jobs.Pairwise (fun a b => a.pid ≠ 0 → a.pid ≠ b.pid)) :
    (deletejob jobs pid).jobs =
        jobs.map (fun j => if 1 ≤ pid ∧ j.pid = pid then clearjob j else j) ∧
    ((1 ≤ pid ∧ ∃ j ∈ jobs, j.pid = pid) → (deletejob jobs pid).ret = 1) ∧
    (¬ (1 ≤ pid ∧ ∃ j ∈ jobs, j.pid = pid) → (deletejob jobs pid).ret = 0) ∧
    deletejob (deletejob jobs pid).jobs pid =
        { jobs := (deletejob jobs pid).jobs, ret := 0 } ∧
    (∀ (code : Nat) (status : WStatus),
      sigchld_reap (sigchld_reap jobs pid (.exited code)).jobs pid status =
        { jobs := (sigchld_reap jobs pid (.exited code)).jobs, out := [] }) ∧
    (∀ (code : Nat) (status : WStatus),
      (sigchld_handler jobs [(pid, .exited code), (pid, status)]).jobs =
        (sigchld_handler jobs [(pid, .exited code)]).jobs) := by
  have hd2 : DistinctKey (fun j => j.pid) jobs := hd
  have hreap2 : ∀ (code : Nat) (status : WStatus),
      sigchld_reap (sigchld_reap jobs pid (.exited code)).jobs pid status =
        { jobs := (sigchld_reap jobs pid (.exited code)).jobs, out := [] } := by
    intro code status
    apply sigchld_reap_of_none
    rw [sigchld_reap_exited_jobs]
    exact getjobpid_after_deletejob jobs pid hd2
  refine ⟨deletejob_eq_map jobs pid hd2, ?_, ?_, ?_, hreap2, ?_⟩
  · rintro ⟨hp, j, hj, hje⟩
    rcases deletejob_cases jobs pid with ⟨_, _, hlt | hn⟩ | ⟨i, h1, _⟩
    · omega
    · have := findSlot_eq_none.mp hn j hj
      simp [hje] at this
    · exact h1
  · intro hno
    rcases deletejob_cases jobs pid with ⟨h0, _⟩ | ⟨i, _, hp, hs, _⟩
    · exact h0
    · obtain ⟨j, hj, hpj, _⟩ := findSlot_eq_some hs
      exact absurd ⟨hp, j, List.getElem?_mem hj, by simpa using hpj⟩ hno
  · by_cases hp : 1 ≤ pid
    · exact deletejob_absent _ _ (absent_after_deletejob jobs pid hd2 hp)
    · unfold deletejob
      simp [show pid < 1 by omega]
  · intro code status
    by_cases hp : pid > 0
    · simp only [sigchld_handler, hp, if_true]
      rw [hreap2 code status]
    · simp only [sigchld_handler, hp, if_false]

/-- C4, witness: the pids of `sampleJobs` are distinct; deleting pid 10 twice
is deleting it once. -/
theorem reaping_idempotent_witness :
    sampleJobs.Pairwise (fun a b => a.pid ≠ 0 → a.pid ≠ b.pid) ∧
    deletejob (deletejob sampleJobs 10).jobs 10 =
      { jobs := (deletejob sampleJobs 10).jobs, ret := 0 } :=
  ⟨by decide, (reaping_idempotent sampleJobs 10 (by decide)).2.2.2.1⟩

end Tsh

namespace Tsh

end Tsh

namespace Tsh

/-! ## What eval leaves when the shell goes on -/

theorem eval_stages_ok (env : Env) (argv : List String) (argc : Nat) (bg : Bool)
    (cmdline : String) (pc : Nat) (pipefds : List Int) :
    ∀ (n i2 : Nat) (st : LoopState),
      (eval_stages env argv argc bg cmdline pc pipefds n i2 st).halt = none →
      (eval_stages env argv argc bg cmdline pc pipefds n i2 st).jobs =
        (if i2 = 0 ∧ 0 < n then
          (addjob env.verbose st.jobs (env.fork 0) (if bg then BG else FG) cmdline).jobs
         else st.jobs) ∧
      (eval_stages env argv argc bg cmdline pc pipefds n i2 st).pids =
        st.pids ++ (List.range' i2 n).map env.fork := by
  intro n
  induction n with
  | zero =>
    intro i2 st _
    simp [eval_stages]
  | succ n ih =>
    intro i2 st h
    unfold eval_stages at h ⊢
    split at h
    · simp at h
    · simp at h
    · rename_i part_argv fl_input fl_output hsec
      simp only at h ⊢
      by_cases hf : env.fork i2 < 0
      · rw [if_pos hf] at h
        simp at h
      · rw [if_neg hf] at h ⊢
        obtain ⟨h1, h2⟩ := ih _ _ h
        rw [h1, h2]
        constructor
        · by_cases h0 : i2 = 0
          · subst h0
            simp
          · simp [h0]
        · simp [List.range'_succ]

end Tsh
namespace Tsh

theorem eval_cases (env : Env) (jobs : List job_t) (cmdline : String) (argv : List String)
    (h : (eval env jobs cmdline argv).halt = none) :
    ((eval env jobs cmdline argv).jobs = jobs ∧ (eval env jobs cmdline argv).waits = []) ∨
    ((eval env jobs cmdline argv).jobs = (do_bgfg jobs argv).jobs ∧
      (eval env jobs cmdline argv).waits = (do_bgfg jobs argv).waitfg.toList) ∨
    (∃ rest, (eval env jobs cmdline argv).jobs =
        (addjob env.verbose jobs (env.fork 0) (if command_bg argv then BG else FG) cmdline).jobs ∧
      (eval env jobs cmdline argv).waits =
        if command_bg argv then [] else env.fork 0 :: rest) := by
  unfold eval at h ⊢
  match argv with
  | [] => exact Or.inl ⟨rfl, rfl⟩
  | argv0 :: tl =>
    simp only at h ⊢
    by_cases hq : (builtin_cmd jobs (argv0 :: tl)).quit = true
    · rw [if_pos hq] at h
      simp at h
    · rw [if_neg hq] at h ⊢
      by_cases hfin : (builtin_cmd jobs (argv0 :: tl)).final ≠ 0
      · rw [if_pos hfin]
        simp only
        unfold builtin_cmd at hfin ⊢
        simp only at hfin ⊢
        by_cases h1 : argv0 = "quit"
        · simp [h1] at hfin
        · rw [if_neg h1] at hfin ⊢
          by_cases h2 : argv0 = "jobs"
          · rw [if_pos h2]
            exact Or.inl ⟨rfl, rfl⟩
          · rw [if_neg h2] at hfin ⊢
            by_cases h3 : argv0 = "bg" ∨ argv0 = "fg"
            · rw [if_pos h3]
              exact Or.inr (Or.inl ⟨rfl, rfl⟩)
            · rw [if_neg h3] at hfin
              simp at hfin
      · rw [if_neg hfin] at h ⊢
        cases hp : create_pipes env.pipe (List.range (total_num_pipes (argv0 :: tl))) with
        | none =>
          rw [hp] at h
          simp at h
        | some pipefds =>
          rw [hp] at h
          simp only at h ⊢
          have hok := eval_stages_ok env (argv0 :: tl) (argv0 :: tl).length
              (command_bg (argv0 :: tl)) cmdline (total_num_pipes (argv0 :: tl)) pipefds
              (total_num_pipes (argv0 :: tl) + 1) 0
              { jobs := jobs, out := [], children := [], pids := [], halt := none }
          generalize eval_stages env (argv0 :: tl) (argv0 :: tl).length
              (command_bg (argv0 :: tl)) cmdline (total_num_pipes (argv0 :: tl)) pipefds
              (total_num_pipes (argv0 :: tl) + 1) 0
              { jobs := jobs, out := [], children := [], pids := [], halt := none } = st
              at h hok ⊢
          cases hh : st.halt with
          | some hv =>
            rw [hh] at h
            simp at h
          | none =>
            obtain ⟨hj, hpids⟩ := hok hh
            have hj2 : st.jobs = (addjob env.verbose jobs (env.fork 0)
                (if command_bg (argv0 :: tl) then BG else FG) cmdline).jobs := by
              rw [hj]; simp
            have hpids2 : st.pids = env.fork 0 ::
                (List.range' 1 (total_num_pipes (argv0 :: tl))).map env.fork := by
              rw [hpids]; simp [List.range'_succ]
            right; right
            refine ⟨(List.range' 1 (total_num_pipes (argv0 :: tl))).map env.fork, ?_⟩
            simp only
            by_cases hbg : command_bg (argv0 :: tl) = true
            · constructor
              · simpa [hbg] using hj2
              · simp [hbg]
            · constructor
              · simpa [hbg] using hj2
              · simpa [hbg] using hpids2

end Tsh
namespace Tsh

/-! ## The invariant of the shell -/

theorem distinct_pid_deletejob {jobs : List job_t} (h : DistinctKey (fun j => j.pid) jobs)
    (pid : Int) : DistinctKey (fun j => j.pid) (deletejob jobs pid).jobs := by
  rcases deletejob_cases jobs pid with ⟨_, he, _⟩ | ⟨i, _, _, _, he⟩
  · rw [he]; exact h
  · rw [he]
    exact distinctKey_updSlot _ _ _ _ h (fun o _ => Or.inl rfl)

theorem distinct_pid_sigchld_reap {jobs : List job_t} (h : DistinctKey (fun j => j.pid) jobs)
    (pid : Int) (status : WStatus) :
    DistinctKey (fun j => j.pid) (sigchld_reap jobs pid status).jobs := by
  rcases sigchld_reap_cases jobs pid status with he | he | ⟨i, j, _, _, _, he⟩
  · rw [he]; exact h
  · rw [he]; exact distinct_pid_deletejob h pid
  · rw [he]
    exact distinctKey_updSlot _ _ _ _ h (fun o _ => Or.inr (Or.inl rfl))

theorem fg_mem_of_sigchld_reap {jobs : List job_t} {pid : Int} {status : WStatus}
    {j : job_t} (hj : j ∈ (sigchld_reap jobs pid status).jobs) (hfg : j.state = FG) :
    j ∈ jobs := by
  rcases sigchld_reap_cases jobs pid status with he | he | ⟨i, o, _, _, _, he⟩
  · rwa [he] at hj
  · rw [he] at hj
    rcases deletejob_cases jobs pid with ⟨_, he2, _⟩ | ⟨i, _, _, _, he2⟩
    · rwa [he2] at hj
    · rw [he2] at hj
      rcases mem_updSlot hj with hj | ⟨o, _, rfl⟩
      · exact hj
      · exact absurd (show UNDEF = FG from hfg) (by decide)
  · rw [he] at hj
    rcases mem_updSlot hj with hj | ⟨o, _, rfl⟩
    · exact hj
    · exact absurd (show ST = FG from hfg) (by decide)

theorem shellInv_sigchld (jobs : List job_t) (waits : List Int)
    (reaped : List (Int × WStatus)) (h : ShellInv { jobs := jobs, waits := waits }) :
    ShellInv { jobs := (sigchld_handler jobs reaped).jobs, waits := waits } := by
  induction reaped generalizing jobs with
  | nil => exact h
  | cons r rest ih =>
    obtain ⟨pid, status⟩ := r
    by_cases hp : pid > 0
    · simp only [sigchld_handler, hp, if_true]
      apply ih
      obtain ⟨h1, h2, h3⟩ := h
      exact ⟨tableOK_sigchld_reap h1 pid status, distinct_pid_sigchld_reap h2 pid status,
        fun j hj hfg => h3 j (fg_mem_of_sigchld_reap hj hfg) hfg⟩
    · simp only [sigchld_handler, hp, if_false]
      exact h

theorem shellInv_init : ShellInv { jobs := initjobs jobs0, waits := [] } := by
  refine ⟨tableOK_init, ?_, ?_⟩
  · unfold DistinctKey
    simp only [initjobs, jobs0, List.map_replicate]
    rw [List.pairwise_replicate]
    right
    intro h
    exact absurd rfl h
  · intro j hj hfg
    simp only [initjobs, jobs0, List.map_replicate, List.mem_replicate] at hj
    rw [hj.2] at hfg
    exact absurd hfg (by decide)

theorem shellInv_step {s t : Shell} (h : ShellInv s) (hst : Step s t) : ShellInv t := by
  cases hst with
  | eval env cmdline argv _ hw hfresh hhalt =>
    obtain ⟨h1, h2, h3⟩ := h
    have hnofg : ∀ j ∈ s.jobs, j.state ≠ FG := by
      intro j hj hfg
      have := h3 j hj hfg
      rw [hw] at this
      simp at this
    rcases eval_cases env s.jobs cmdline argv hhalt with ⟨hj, hws⟩ | ⟨hj, hws⟩ | ⟨rest, hj, hws⟩
    · rw [hj, hws]
      exact ⟨h1, h2, fun j hj hfg => absurd hfg (hnofg j hj)⟩
    · rw [hj, hws]
      rcases do_bgfg_cases s.jobs argv with ⟨he, hwf⟩ | ⟨i, o, st, ho, hlive, hstv, he, hwf⟩
      · rw [he, hwf]
        exact ⟨h1, h2, fun j hj hfg => absurd hfg (hnofg j hj)⟩
      · rw [he, hwf]
        refine ⟨tableOK_set_state h1 ho hlive st ?_, ?_, ?_⟩
        · rcases hstv with hstv | hstv
          · exact Or.inr (Or.inl hstv)
          · exact Or.inl hstv
        · exact distinctKey_updSlot _ _ _ _ h2 (fun o _ => Or.inr (Or.inl rfl))
        · intro j hj hfg
          rcases mem_updSlot hj with hj | ⟨o2, ho2, rfl⟩
          · exact absurd hfg (hnofg j hj)
          · rw [ho] at ho2
            obtain rfl := Option.some.inj ho2
            have hst2 : st = FG := hfg
            simp [hst2]
    · rw [hj, hws]
      have hok := tableOK_addjob h1 env.verbose (env.fork 0)
        (if command_bg argv then BG else FG) cmdline
        (by by_cases hb : command_bg argv = true
            · exact Or.inr (by simp [hb])
            · exact Or.inl (by simp [hb]))
      rcases addjob_cases env.verbose s.jobs (env.fork 0)
          (if command_bg argv then BG else FG) cmdline with ⟨_, he, _⟩ | ⟨i, _, hp, _, _, he⟩
      · rw [he]
        exact ⟨h1, h2, fun j hj hfg => absurd hfg (hnofg j hj)⟩
      · refine ⟨hok, ?_, ?_⟩
        · rw [he]
          exact distinctKey_updSlot _ _ _ _ h2
            (fun o _ => Or.inr (Or.inr (fun b hb => hfresh b hb)))
        · rw [he]
          intro j hj hfg
          rcases mem_updSlot hj with hj | ⟨o2, _, rfl⟩
          · exact absurd hfg (hnofg j hj)
          · by_cases hb : command_bg argv = true
            · simp only [hb, if_true] at hfg
              exact absurd hfg (by decide)
            · simp [hb]
  | waitfg_return _ pid rest hw hblocks =>
    obtain ⟨h1, h2, h3⟩ := h
    refine ⟨h1, h2, ?_⟩
    intro j hj hfg
    exfalso
    have hjp := h3 j hj hfg
    rw [hw] at hjp
    simp only [List.head?_cons, Option.some.injEq] at hjp
    have hlive : 1 ≤ j.pid := by
      rcases h1.2.1 j hj with ⟨_, _, hu⟩ | ⟨hl, _⟩
      · rw [hfg] at hu
        exact absurd hu (by decide)
      · exact hl
    obtain ⟨i, hi⟩ := findSlot_isSome_of_mem (p := fun b => decide (b.pid = pid)) hj
      (by simpa using hjp.symm)
    obtain ⟨o, ho, hpo, _⟩ := findSlot_eq_some hi
    have hoj : o = j := distinctKey_eq (fun j => j.pid) h2 (List.getElem?_mem ho) hj
      (by show o.pid ≠ 0; have : o.pid = pid := by simpa using hpo
          omega)
      (by show o.pid = j.pid; have : o.pid = pid := by simpa using hpo
          omega)
    unfold waitfg_blocks getjobpid at hblocks
    rw [if_neg (by omega), hi] at hblocks
    simp only [slot_eq ho, hoj, hfg, decide_True] at hblocks
    exact absurd hblocks (by decide)
  | sigchld _ reaped => exact shellInv_sigchld s.jobs s.waits reaped h

theorem shellInv_of_reachable {s : Shell} (h : Reachable s) : ShellInv s := by
  induction h with
  | init => exact shellInv_init
  | step s t _ hst ih => exact shellInv_step ih hst

theorem filter_fg_le_one (p : Int) (hp : p ≠ 0) (l : List job_t)
    (hd : DistinctKey (fun j => j.pid) l) (hfg : ∀ j ∈ l, j.state = FG → j.pid = p) :
    (l.filter (fun j => j.state = FG)).length ≤ 1 := by
  unfold DistinctKey at hd
  induction l with
  | nil => simp
  | cons a l ih =>
    rw [List.pairwise_cons] at hd
    obtain ⟨ha, hl⟩ := hd
    have ih2 := ih hl (fun j hj => hfg j (List.mem_cons_of_mem _ hj))
    by_cases hafg : a.state = FG
    · have hap := hfg a (List.mem_cons_self _ _) hafg
      have hnone : l.filter (fun j => decide (j.state = FG)) = [] := by
        rw [List.filter_eq_nil_iff]
        intro b hb
        simp only [decide_eq_true_eq]
        intro hbfg
        have hbp := hfg b (List.mem_cons_of_mem _ hb) hbfg
        exact ha b hb (by show a.pid ≠ 0; omega) (by show a.pid = b.pid; omega)
      simp [List.filter_cons, hafg, hnone]
    · simp only [List.filter_cons, hafg, decide_False, Bool.false_eq_true, if_false]
      exact ih2

/-- With every operation taken as a whole, the handler running between two
operations only and never inside `do_bgfg`: in every state the shell reaches
from the initialised table (`eval` of a line at the prompt, builtin or launch,
with the returns of its `waitfg` calls, and runs of the SIGCHLD handler between
them), at most one slot of the job table has state `FG`. -/
theorem at_most_one_foreground (s : Shell) (h : Reachable s) :
    (s.jobs.filter (fun j => j.state = FG)).length ≤ 1 := by
  obtain ⟨h1, h2, h3⟩ := shellInv_of_reachable h
  cases hw : s.waits with
  | nil =>
    have : s.jobs.filter (fun j => decide (j.state = FG)) = [] := by
      rw [List.filter_eq_nil_iff]
      intro b hb
      simp only [decide_eq_true_eq]
      intro hbfg
      have := h3 b hb hbfg
      rw [hw] at this
      simp at this
    rw [this]
    exact Nat.zero_le _
  | cons p rest =>
    by_cases hp : p = 0
    · have : s.jobs.filter (fun j => decide (j.state = FG)) = [] := by
        rw [List.filter_eq_nil_iff]
        intro b hb
        simp only [decide_eq_true_eq]
        intro hbfg
        have hbp := h3 b hb hbfg
        rw [hw] at hbp
        simp only [List.head?_cons, Option.some.injEq] at hbp
        rcases h1.2.1 b hb with ⟨_, _, hu⟩ | ⟨hl, _⟩
        · rw [hbfg] at hu
          exact absurd hu (by decide)
        · omega
      rw [this]
      exact Nat.zero_le _
    · apply filter_fg_le_one p hp s.jobs h2
      intro j hj hfg
      have := h3 j hj hfg
      rw [hw] at this
      simp only [List.head?_cons, Option.some.injEq] at this
      exact this.symm

end Tsh
namespace Tsh

/-- The state after `eval` of `sleep 5` at the first prompt is reachable; it
has the one foreground job of pid 100. -/
theorem at_most_one_foreground_witness :
    Reachable sampleShell ∧ (sampleShell.jobs.filter (fun j => j.state = FG)).length ≤ 1 :=
  ⟨Reachable.step _ _ Reachable.init
      (Step.eval sampleEnv "sleep 5\n" ["sleep", "5"] { jobs := initjobs jobs0, waits := [] }
        rfl (by decide) (by decide)),
   at_most_one_foreground sampleShell
     (Reachable.step _ _ Reachable.init
       (Step.eval sampleEnv "sleep 5\n" ["sleep", "5"] { jobs := initjobs jobs0, waits := [] }
         rfl (by decide) (by decide)))⟩

/-- C6, the code at a failing input. For the background line `echo hi | cat &`
the vector handed to `execvp` by the last stage is `cat &`: the `&` is not
removed, whatever the uninitialised array `part_argv` holds. -/
theorem trailing_amp_kept_in_pipeline (g : Nat → ArgBuf) :
    (eval { sampleEnv with garbage := g } (initjobs jobs0) "echo hi | cat &\n"
        ["echo", "hi", "|", "cat", "&"]).children.map (fun c => c.args)
      = [["echo", "hi"], ["cat", "&"]] := by
  rfl

end Tsh

namespace Tsh

/-! ## Targets of bg and fg -/

theorem isdigit_not_space {c : Char} (h : isdigit c = true) : isspace c = false := by
  unfold isspace
  simp only [Bool.or_eq_false_iff, decide_eq_false_iff_not]
  refine ⟨⟨⟨⟨⟨?_, ?_⟩, ?_⟩, ?_⟩, ?_⟩, ?_⟩ <;>
  · rintro rfl
    revert h
    decide

theorem isdigit_not_sign {c : Char} (h : isdigit c = true) : c ≠ '-' ∧ c ≠ '+' ∧ c ≠ '%' := by
  refine ⟨?_, ?_, ?_⟩ <;>
  · rintro rfl
    revert h
    decide

theorem atoiDigits_eq (ds : List Char) (hd : ∀ c ∈ ds, isdigit c = true) (acc : Nat) :
    atoiDigits ds (acc : Int) =
      ((ds.foldl (fun n c => n * 10 + (c.toNat - '0'.toNat)) acc : Nat) : Int) := by
  induction ds generalizing acc with
  | nil => rfl
  | cons c cs ih =>
    simp only [atoiDigits, hd c (List.mem_cons_self _ _), if_true, List.foldl_cons]
    rw [← ih (fun d hd2 => hd d (List.mem_cons_of_mem _ hd2))]
    congr 1

/-- On a non-empty string of decimal digits `strtol` is the number it denotes,
or `LONG_MAX` when that is larger. -/
theorem strtol_digits (ds : List Char) (hne : ds ≠ []) (hd : ∀ c ∈ ds, isdigit c = true) :
    strtol ds = if (decimalValue ds : Int) > LONG_MAX then LONG_MAX
                else (decimalValue ds : Int) := by
  cases ds with
  | nil => exact absurd rfl hne
  | cons c cs =>
    have hc := hd c (List.mem_cons_self _ _)
    have hsp := isdigit_not_space hc
    obtain ⟨hm, hp, _⟩ := isdigit_not_sign hc
    have hv := atoiDigits_eq (c :: cs) hd 0
    have hdv : (decimalValue (c :: cs) : Int) = atoiDigits (c :: cs) 0 := by
      unfold decimalValue
      exact hv.symm
    have hnn : (0 : Int) ≤ (decimalValue (c :: cs) : Int) := Int.ofNat_nonneg _
    unfold strtol
    rw [List.dropWhile_cons_of_neg (by simp [hsp])]
    have hmatch : (match c :: cs with
        | '-' :: cs => - atoiDigits cs 0
        | '+' :: cs => atoiDigits cs 0
        | cs => atoiDigits cs 0) = atoiDigits (c :: cs) 0 := by
      split
      · rename_i heq
        simp only [List.cons.injEq] at heq
        exact absurd heq.1 hm
      · rename_i heq
        simp only [List.cons.injEq] at heq
        exact absurd heq.1 hp
      · rfl
    simp only [hmatch, ← hdv]
    by_cases hbig : (decimalValue (c :: cs) : Int) > LONG_MAX
    · rw [if_pos hbig, if_pos hbig]
    · rw [if_neg hbig, if_neg hbig, if_neg]
      unfold LONG_MIN
      omega

/-- On a non-empty string of decimal digits whose number fits an `int`, `atoi`
is that number. -/
theorem atoi_digits (ds : List Char) (hne : ds ≠ []) (hd : ∀ c ∈ ds, isdigit c = true)
    (hfit : (decimalValue ds : Int) ≤ INT_MAX) :
    atoi ds = (decimalValue ds : Int) := by
  unfold atoi
  rw [strtol_digits ds hne hd]
  unfold INT_MAX at hfit
  have hnn : (0 : Int) ≤ (decimalValue ds : Int) := Int.ofNat_nonneg _
  rw [if_neg (by unfold LONG_MAX; omega)]
  unfold longToInt
  omega

theorem atoi_nil : atoi [] = 0 := by
  rfl

end Tsh
namespace Tsh

/-- C9, the claim fails. The target `%abc` gets the job-not-found message, not
the malformed-target one; and the target `11abc`, on a table that holds a
stopped job of pid 11, is taken as pid 11: `SIGCONT` is sent to its group and
its state changes. -/
theorem malformed_target_counterexample :
    (do_bgfg (initjobs jobs0) ["bg", "%abc"]).out = ["%abc:Job was not found\n"] ∧
    (do_bgfg (initjobs jobs0) ["bg", "%abc"]).out
      ≠ ["%abc: The given argument needs to be a PID or a given %jobid\n"] ∧
    (do_bgfg sampleJobs ["bg", "11abc"]).kills = [(-11, SIGCONT)] ∧
    (do_bgfg sampleJobs ["bg", "11abc"]).jobs ≠ sampleJobs := by
  decide

/-- C9, amended. For every target whose first character is neither `%` nor a
decimal digit (the empty target included), `do_bgfg` prints the
malformed-target message (the argument must be a PID or %jobid), sends no
signal and leaves the job table as it is, whatever jobs the table holds. -/
theorem malformed_target (jobs : List job_t) (argv0 target : String) (rest : List String)
    (h1 : target.data.head? ≠ some '%')
    (h2 : ∀ c, target.data.head? = some c → isdigit c = false) :
    do_bgfg jobs (argv0 :: target :: rest) =
      { jobs := jobs,
        out := [target ++ ": The given argument needs to be a PID or a given %jobid\n"],
        kills := [], waitfg := none } := by
  have h3 : (target.data.head?.map isdigit).getD false = false := by
    cases hh : target.data.head? with
    | none => rfl
    | some c => simpa using h2 c hh
  have hc : checkingType target jobs = none := by
    unfold checkingType
    rw [if_neg h1, h3]
    rfl
  unfold do_bgfg
  simp only [hc, h1, h3, if_false, Bool.false_eq_true]

/-- C9, witness: the target `abc` on the table `sampleJobs`. -/
theorem malformed_target_witness :
    "abc".data.head? ≠ some '%' ∧
    (∀ c, "abc".data.head? = some c → isdigit c = false) ∧
    do_bgfg sampleJobs ["fg", "abc"] =
      { jobs := sampleJobs,
        out := ["abc: The given argument needs to be a PID or a given %jobid\n"],
        kills := [], waitfg := none } :=
  ⟨by decide, by decide,
   malformed_target sampleJobs "fg" "abc" [] (by decide) (by decide)⟩

end Tsh

namespace Tsh

/-! ## A redirection file that cannot be opened -/

theorem eval_stages_fopen_fail (env : Env) (argv : List String) (argc : Nat) (bg : Bool)
    (cmdline : String) (pc : Nat) (pipefds : List Int) (k : Nat)
    (hk : sectioning_pipe env.fopen argv (env.garbage k) k pc = .exit1) :
    ∀ (n i2 : Nat) (st : LoopState), i2 ≤ k → k < i2 + n →
      (∀ i, i2 ≤ i → i < k →
        (∃ b fi fo, sectioning_pipe env.fopen argv (env.garbage i) i pc = .done b fi fo) ∧
        0 ≤ env.fork i) →
      (eval_stages env argv argc bg cmdline pc pipefds n i2 st).halt = some (.exit 1) ∧
      (eval_stages env argv argc bg cmdline pc pipefds n i2 st).out.getLast? =
        some ("given fopen error: " ++ env.errtext ++ "\n") ∧
      (eval_stages env argv argc bg cmdline pc pipefds n i2 st).children.map (fun c => c.stage) =
        st.children.map (fun c => c.stage) ++ List.range' i2 (k - i2) ∧
      (k = i2 → (eval_stages env argv argc bg cmdline pc pipefds n i2 st).jobs = st.jobs) := by
  intro n
  induction n with
  | zero =>
    intro i2 st h1 h2
    omega
  | succ n ih =>
    intro i2 st h1 h2 hok
    by_cases he : i2 = k
    · subst he
      unfold eval_stages
      rw [hk]
      simp
    · have hlt : i2 < k := by omega
      obtain ⟨⟨b, fi, fo, hdone⟩, hfork⟩ := hok i2 (le_refl _) hlt
      unfold eval_stages
      rw [hdone]
      simp only
      rw [if_neg (by omega)]
      obtain ⟨r1, r2, r3, _⟩ := ih (i2 + 1) _ (by omega) (by omega)
        (fun i hi1 hi2 => hok i (by omega) hi2)
      refine ⟨r1, r2, ?_, fun h => by omega⟩
      rw [r3]
      have : k - i2 = (k - (i2 + 1)) + 1 := by omega
      rw [this, List.range'_succ]
      simp

end Tsh

namespace Tsh

/-- C8, the claim fails. With no file that can be opened, `eval` of
`cmd < nonexistent_file` ends in `exit(1)` of the shell process itself; and on
`echo hi | cat < nonexistent_file` the first stage has been forked and its job
added before the shell exits. -/
theorem redirect_failure_counterexample :
    (eval sampleEnv (initjobs jobs0) "cmd < nonexistent_file\n"
        ["cmd", "<", "nonexistent_file"]).halt = some (Halt.exit 1) ∧
    (eval sampleEnv (initjobs jobs0) "echo hi | cat < nonexistent_file\n"
        ["echo", "hi", "|", "cat", "<", "nonexistent_file"]).halt = some (Halt.exit 1) ∧
    (eval sampleEnv (initjobs jobs0) "echo hi | cat < nonexistent_file\n"
        ["echo", "hi", "|", "cat", "<", "nonexistent_file"]).children.map (fun c => c.args)
      = [["echo", "hi"]] ∧
    (eval sampleEnv (initjobs jobs0) "echo hi | cat < nonexistent_file\n"
        ["echo", "hi", "|", "cat", "<", "nonexistent_file"]).jobs ≠ initjobs jobs0 := by
  decide

/-- C8, amended. When, on a line that is not a builtin, the redirection file of
stage `k` cannot be opened (the stages before it were set up and forked), the
error is reported and the shell process itself calls `exit(1)`, which ends the
main loop: exactly the stages before `k` have been given a process, none is
created for stage `k` or a later one, no `waitfg` follows; and when `k` is the
first stage no process is created at all and the job table is unchanged. -/
theorem redirect_open_failure (env : Env) (jobs : List job_t) (cmdline : String)
    (argv0 : String) (tl : List String) (k : Nat)
    (hq : argv0 ≠ "quit") (hj : argv0 ≠ "jobs") (hb : argv0 ≠ "bg") (hf : argv0 ≠ "fg")
    (hpipes : (create_pipes env.pipe (List.range (total_num_pipes (argv0 :: tl)))).isSome)
    (hk : k ≤ total_num_pipes (argv0 :: tl))
    (hfail : sectioning_pipe env.fopen (argv0 :: tl) (env.garbage k) k
        (total_num_pipes (argv0 :: tl)) = .exit1)
    (hprev : ∀ i, i < k →
      (∃ b fi fo, sectioning_pipe env.fopen (argv0 :: tl) (env.garbage i) i
          (total_num_pipes (argv0 :: tl)) = .done b fi fo) ∧ 0 ≤ env.fork i) :
    (eval env jobs cmdline (argv0 :: tl)).halt = some (Halt.exit 1) ∧
    (eval env jobs cmdline (argv0 :: tl)).out.getLast? =
      some ("given fopen error: " ++ env.errtext ++ "\n") ∧
    (eval env jobs cmdline (argv0 :: tl)).children.map (fun c => c.stage) = List.range k ∧
    (eval env jobs cmdline (argv0 :: tl)).waits = [] ∧
    (k = 0 → (eval env jobs cmdline (argv0 :: tl)).children = [] ∧
      (eval env jobs cmdline (argv0 :: tl)).jobs = jobs) := by
  obtain ⟨pipefds, hp⟩ := Option.isSome_iff_exists.mp hpipes
  have hbi : builtin_cmd jobs (argv0 :: tl) =
      { final := 0, jobs := jobs, out := [], kills := [], waitfg := none, quit := false } := by
    unfold builtin_cmd
    simp [hq, hj, hb, hf]
  obtain ⟨r1, r2, r3, r4⟩ := eval_stages_fopen_fail env (argv0 :: tl) (argv0 :: tl).length
    (command_bg (argv0 :: tl)) cmdline (total_num_pipes (argv0 :: tl)) pipefds k hfail
    (total_num_pipes (argv0 :: tl) + 1) 0
    { jobs := jobs, out := [], children := [], pids := [], halt := none }
    (Nat.zero_le _) (by omega) (fun i _ hi => hprev i hi)
  unfold eval
  simp only [hbi, hp]
  generalize eval_stages env (argv0 :: tl) (argv0 :: tl).length
    (command_bg (argv0 :: tl)) cmdline (total_num_pipes (argv0 :: tl)) pipefds
    (total_num_pipes (argv0 :: tl) + 1) 0
    { jobs := jobs, out := [], children := [], pids := [], halt := none } = st
    at r1 r2 r3 r4 ⊢
  simp only [r1]
  simp only [List.map_nil, List.nil_append, Nat.sub_zero] at r3
  refine ⟨by simp, by simpa using r2, ?_, by simp, ?_⟩
  · simp only [Bool.false_eq_true, if_false, ne_eq, not_true_eq_false]
    rw [r3, List.range_eq_range']
  · intro h0
    subst h0
    simp only [Bool.false_eq_true, if_false, ne_eq, not_true_eq_false]
    refine ⟨?_, r4 rfl⟩
    simpa using r3

/-- C8, witness: the line `cmd < nonexistent_file` when no file can be opened. -/
theorem redirect_open_failure_witness :
    sectioning_pipe sampleEnv.fopen ["cmd", "<", "nonexistent_file"] (sampleEnv.garbage 0) 0
        (total_num_pipes ["cmd", "<", "nonexistent_file"]) = .exit1 ∧
    (eval sampleEnv sampleJobs "cmd < nonexistent_file\n"
        ["cmd", "<", "nonexistent_file"]).halt = some (Halt.exit 1) ∧
    (eval sampleEnv sampleJobs "cmd < nonexistent_file\n"
        ["cmd", "<", "nonexistent_file"]).waits = [] :=
  ⟨rfl,
   (redirect_open_failure sampleEnv sampleJobs "cmd < nonexistent_file\n" "cmd"
      ["<", "nonexistent_file"] 0 (by decide) (by decide) (by decide) (by decide)
      rfl (Nat.zero_le _) rfl (fun i hi => absurd hi (Nat.not_lt_zero i))).1,
   (redirect_open_failure sampleEnv sampleJobs "cmd < nonexistent_file\n" "cmd"
      ["<", "nonexistent_file"] 0 (by decide) (by decide) (by decide) (by decide)
      rfl (Nat.zero_le _) rfl (fun i hi => absurd hi (Nat.not_lt_zero i))).2.2.2.1⟩

end Tsh

namespace Tsh

/-! ## sectioning_pipe and the segments of the line -/

theorem specPlainArgs_cons_plain (a : String) (l : List String) (h1 : a ≠ "<")
    (h2 : a ≠ ">") : specPlainArgs (a :: l) = a :: specPlainArgs l := by
  cases l with
  | nil => simp [specPlainArgs, h1, h2]
  | cons b rest => simp [specPlainArgs, h1, h2]

theorem redirsOpenable_cons_plain (fopen : String → String → Option Int) (a : String)
    (l : List String) (h1 : a ≠ "<") (h2 : a ≠ ">") :
    redirsOpenable fopen (a :: l) = redirsOpenable fopen l := by
  cases l with
  | nil => simp [redirsOpenable, h1, h2]
  | cons b rest => simp [redirsOpenable, h1, h2]

theorem sectioning_loop_stopped (fopen : String → String → Option Int) (index : Nat)
    (argv : List String) (s : SecState) (h : s.condition_1 = false) :
    sectioning_loop fopen index argv s = .fin s := by
  cases argv with
  | nil => rfl
  | cons a rest =>
    unfold sectioning_loop
    simp [h]

theorem writeArgs_apply (xs : List String) (buf : ArgBuf) (n k : Nat) :
    writeArgs buf n xs k = if n ≤ k ∧ k < n + xs.length then xs[k - n]? else buf k := by
  induction xs generalizing buf n with
  | nil =>
    simp only [writeArgs, List.length_nil, Nat.add_zero]
    rw [if_neg (by omega)]
  | cons a as ih =>
    simp only [writeArgs, List.length_cons]
    rw [ih]
    by_cases h1 : n + 1 ≤ k ∧ k < n + 1 + as.length
    · rw [if_pos h1, if_pos (by omega)]
      have : k - n = (k - (n + 1)) + 1 := by omega
      rw [this, List.getElem?_cons_succ]
    · rw [if_neg h1]
      by_cases h2 : k = n
      · subst h2
        rw [if_pos (by omega)]
        simp
      · rw [if_neg (by omega)]
        exact Function.update_noteq h2 _ _

theorem readArgv_of_cells (buf : ArgBuf) (xs : List String) :
    ∀ (fuel i : Nat), (∀ k, k < xs.length → buf (i + k) = xs[k]?) →
      buf (i + xs.length) = none → xs.length < fuel → readArgv buf fuel i = xs := by
  induction xs with
  | nil =>
    intro fuel i _ hn hf
    cases fuel with
    | zero => omega
    | succ f =>
      simp only [List.length_nil, Nat.add_zero] at hn
      simp [readArgv, hn]
  | cons a as ih =>
    intro fuel i hc hn hf
    cases fuel with
    | zero => simp at hf
    | succ f =>
      have h0 := hc 0 (by simp)
      simp only [Nat.add_zero, List.getElem?_cons_zero] at h0
      simp only [readArgv, h0, List.cons.injEq, true_and]
      apply ih
      · intro k hk
        have := hc (k + 1) (by simpa using hk)
        simpa [Nat.add_assoc, Nat.add_comm 1 k] using this
      · simpa [Nat.add_assoc, Nat.add_comm 1] using hn
      · simpa using hf

theorem sectioning_loop_spec (fopen : String → String → Option Int) (index : Nat) :
    ∀ (len : Nat) (argv : List String) (s : SecState), argv.length = len →
      s.condition_1 = true → 0 ≤ s.checking → s.position_idx ≤ index →
      (s.position_idx < index → s.placement_arg = 0) →
      redirsOpenable fopen (specSegment argv (index - s.position_idx)) = true →
      ∃ s2, sectioning_loop fopen index argv s = .fin s2 ∧
        s2.argv_sec = writeArgs s.argv_sec s.placement_arg
          (specPlainArgs (specSegment argv (index - s.position_idx))) ∧
        s2.placement_arg = s.placement_arg +
          (specPlainArgs (specSegment argv (index - s.position_idx))).length := by
  intro len
  induction len using Nat.strong_induction_on with
  | _ len ih =>
    intro argv s hlen hc hchk hpos hpl hro
    cases argv with
    | nil => exact ⟨s, rfl, by simp [specSegment, specPlainArgs, writeArgs], by simp [specSegment, specPlainArgs]⟩
    | cons a rest =>
      simp only [List.length_cons] at hlen
      unfold sectioning_loop
      rw [if_pos ⟨hc, hchk⟩]
      by_cases hbar : a = "|"
      · rw [if_pos hbar]
        by_cases hp : s.position_idx = index
        · rw [if_neg (by simpa using hp)]
          rw [sectioning_loop_stopped _ _ _ _ rfl]
          refine ⟨_, rfl, ?_, ?_⟩
          · simp [hp, specSegment, hbar, specPlainArgs, writeArgs]
          · simp [hp, specSegment, hbar, specPlainArgs]
        · rw [if_pos hp]
          have hlt : s.position_idx < index := by omega
          have hd : index - s.position_idx = (index - (s.position_idx + 1)) + 1 := by omega
          rw [hd] at hro ⊢
          simp only [specSegment, hbar, if_true] at hro ⊢
          obtain ⟨s2, h1, h2, h3⟩ := ih rest.length (by omega) rest
            { s with position_idx := s.position_idx + 1, placement_arg := 0 } rfl hc hchk
            (by simpa using hlt) (fun _ => rfl) hro
          refine ⟨s2, h1, ?_, ?_⟩
          · rw [h2, hpl hlt]
          · rw [h3, hpl hlt]
      · rw [if_neg hbar]
        by_cases hp : s.position_idx = index
        · rw [if_pos hp]
          have hd : index - s.position_idx = 0 := by omega
          rw [hd] at hro ⊢
          simp only [specSegment, hbar, if_false] at hro ⊢
          by_cases hin : a = "<"
          · rw [if_pos hin]
            subst hin
            cases rest with
            | nil => simp [specSegment, redirsOpenable] at hro
            | cons path rest2 =>
              by_cases hpb : path = "|"
              · simp [specSegment, hpb, redirsOpenable] at hro
              · simp only [specSegment, hpb, if_false, redirsOpenable, if_true,
                  Bool.and_eq_true] at hro
                obtain ⟨fd, hfd⟩ := Option.isSome_iff_exists.mp hro.1
                simp only [hfd]
                obtain ⟨s2, h1, h2, h3⟩ := ih rest2.length (by simp at hlen; omega) rest2
                  { s with checking := s.checking + 1, file_inpt := fd } rfl hc
                  (by show 0 ≤ s.checking + 1; omega) hpos hpl (by rw [hd]; exact hro.2)
                rw [hd] at h2 h3
                refine ⟨s2, h1, ?_, ?_⟩
                · rw [h2]
                  simp [specSegment, hpb, specPlainArgs]
                · rw [h3]
                  simp [specSegment, hpb, specPlainArgs]
          · rw [if_neg hin]
            by_cases hout : a = ">"
            · rw [if_pos hout]
              subst hout
              cases rest with
              | nil => simp [specSegment, redirsOpenable] at hro
              | cons path rest2 =>
                by_cases hpb : path = "|"
                · simp [specSegment, hpb, redirsOpenable] at hro
                · simp only [specSegment, hpb, if_false, redirsOpenable, hin,
                    if_true, Bool.and_eq_true] at hro
                  obtain ⟨fd, hfd⟩ := Option.isSome_iff_exists.mp hro.1
                  simp only [hfd]
                  obtain ⟨s2, h1, h2, h3⟩ := ih rest2.length (by simp at hlen; omega) rest2
                    { s with checking := s.checking + 1, file_opt := fd } rfl hc
                    (by show 0 ≤ s.checking + 1; omega) hpos hpl (by rw [hd]; exact hro.2)
                  rw [hd] at h2 h3
                  refine ⟨s2, h1, ?_, ?_⟩
                  · rw [h2]
                    simp [specSegment, hpb, specPlainArgs]
                  · rw [h3]
                    simp [specSegment, hpb, specPlainArgs]
            · rw [if_neg hout]
              rw [redirsOpenable_cons_plain _ _ _ hin hout] at hro
              rw [specPlainArgs_cons_plain _ _ hin hout]
              obtain ⟨s2, h1, h2, h3⟩ := ih rest.length (by omega) rest
                { s with argv_sec := Function.update s.argv_sec s.placement_arg (some a),
                         placement_arg := if s.placement_arg ≥ 0 then s.placement_arg + 1
                                          else s.placement_arg } rfl hc hchk hpos
                (fun h => by simp only at h; omega) (by rw [hd]; exact hro)
              rw [hd] at h2 h3
              simp only [ge_iff_le, Nat.zero_le, if_true] at h2 h3
              refine ⟨s2, h1, ?_, ?_⟩
              · rw [h2]
                rfl
              · rw [h3]
                simp only [List.length_cons]
                omega
        · rw [if_neg hp]
          have hlt : s.position_idx < index := by omega
          have hd : index - s.position_idx = (index - (s.position_idx + 1)) + 1 := by omega
          obtain ⟨s2, h1, h2, h3⟩ := ih rest.length (by omega) rest s rfl hc hchk hpos hpl
            (by rw [hd] at hro ⊢; simpa [specSegment, hbar] using hro)
          refine ⟨s2, h1, ?_, ?_⟩
          · rw [h2, hd]
            simp [specSegment, hbar]
          · rw [h3, hd]
            simp [specSegment, hbar]

end Tsh

namespace Tsh

/-- C7. For every argument vector and stage index `i` (in particular
`0 <= i <= N`, `N` the number of `|` tokens), if in segment `i` every `<` and
`>` is followed by a path token that can be opened, `sectioning_pipe` returns
with `argv_sec` holding exactly the tokens of segment `i` in their order, less
each `<`, `>` and the path token after it, then the NULL terminator; the cells
past the terminator are as they were on entry, so that the vector read from
`argv_sec` is the stage's plain arguments and no token of another segment. -/
theorem sectioning_pipe_stage (fopen : String → String → Option Int) (argv : List String)
    (argv_sec : ArgBuf) (index pipe_count : Nat)
    (hro : redirsOpenable fopen (specSegment argv index) = true) :
    ∃ buf fi fo, sectioning_pipe fopen argv argv_sec index pipe_count = .done buf fi fo ∧
      (∀ k, k < (specPlainArgs (specSegment argv index)).length →
        buf k = (specPlainArgs (specSegment argv index))[k]?) ∧
      buf (specPlainArgs (specSegment argv index)).length = none ∧
      (∀ k, (specPlainArgs (specSegment argv index)).length < k → buf k = argv_sec k) ∧
      ((specPlainArgs (specSegment argv index)).length < MAXARGS →
        readArgv buf MAXARGS 0 = specPlainArgs (specSegment argv index)) := by
  obtain ⟨s2, h1, h2, h3⟩ := sectioning_loop_spec fopen index argv.length argv
    { argv_sec := argv_sec, file_inpt := -1, file_opt := -1, checking := pipe_count,
      position_idx := 0, placement_arg := 0, condition_1 := true } rfl rfl
    (by show (0 : Int) ≤ (pipe_count : Int); omega) (Nat.zero_le _) (fun _ => rfl)
    (by simpa using hro)
  simp only [Nat.sub_zero, Nat.zero_add] at h2 h3
  have hcells : ∀ k, k < (specPlainArgs (specSegment argv index)).length →
      Function.update s2.argv_sec s2.placement_arg none k =
        (specPlainArgs (specSegment argv index))[k]? := by
    intro k hk
    rw [Function.update_noteq (by omega), h2, writeArgs_apply, if_pos ⟨Nat.zero_le _, by omega⟩]
    rfl
  have hnull : Function.update s2.argv_sec s2.placement_arg none
      (specPlainArgs (specSegment argv index)).length = none := by
    rw [← h3]
    exact Function.update_same _ _ _
  refine ⟨Function.update s2.argv_sec s2.placement_arg none, s2.file_inpt, s2.file_opt,
    ?_, hcells, hnull, ?_, ?_⟩
  · unfold sectioning_pipe
    rw [h1]
  · intro k hk
    rw [Function.update_noteq (by omega), h2, writeArgs_apply, if_neg (by omega)]
  · intro hlen
    apply readArgv_of_cells
    · intro k hk
      rw [Nat.zero_add]
      exact hcells k hk
    · rw [Nat.zero_add]
      exact hnull
    · exact hlen

/-- C7, witness: stage 1 of `sort -r < in.txt | uniq > out.txt`, every file
opening on descriptor 7, is the vector `uniq`. -/
theorem sectioning_pipe_stage_witness :
    redirsOpenable (fun _ _ => some 7) (specSegment sampleArgv 1) = true ∧
    ∃ buf fi fo,
      sectioning_pipe (fun _ _ => some 7) sampleArgv (fun _ => none) 1 1 = .done buf fi fo ∧
      readArgv buf MAXARGS 0 = ["uniq"] :=
  ⟨rfl,
   (sectioning_pipe_stage (fun _ _ => some 7) sampleArgv (fun _ => none) 1 1 rfl).imp
     (fun _ h => h.imp (fun _ h => h.imp (fun _ h => ⟨h.1, h.2.2.2.2 (by decide)⟩)))⟩

end Tsh

namespace Tsh

/-! ## bg and fg on a job of the table -/

theorem checkingType_pid (jobs : List job_t) (i : Nat) (J : job_t) (ds : List Char)
    (hJ : jobs[i]? = some J) (hne : ds ≠ []) (hds : ∀ c ∈ ds, isdigit c = true)
    (hpos : 1 ≤ decimalValue ds) (hfit : (decimalValue ds : Int) ≤ INT_MAX)
    (hpid : J.pid = (decimalValue ds : Int))
    (hfirst : ∀ (k : Nat) (b : job_t), k < i → jobs[k]? = some b → b.pid ≠ J.pid) :
    checkingType (String.mk ds) jobs = some i := by
  obtain ⟨c, cs, rfl⟩ := List.exists_cons_of_ne_nil hne
  have hcd := hds c (List.mem_cons_self _ _)
  have hnp : c ≠ '%' := (isdigit_not_sign hcd).2.2
  have hhead : (String.mk (c :: cs)).data.head? ≠ some '%' := by
    simp only [List.head?_cons, ne_eq, Option.some.injEq]
    exact hnp
  have hdig : (((String.mk (c :: cs)).data.head?).map isdigit).getD false = true := by
    simp [hcd]
  unfold checkingType
  rw [if_neg hhead, if_pos hdig]
  show getjobpid jobs (atoi (c :: cs)) = some i
  rw [atoi_digits (c :: cs) hne hds hfit]
  unfold getjobpid
  rw [if_neg (by omega)]
  exact findSlot_of_first hJ (by simpa using hpid)
    (fun k b hk hb => by simpa [← hpid] using hfirst k b hk hb)

theorem checkingType_jid (jobs : List job_t) (i : Nat) (J : job_t) (ds : List Char)
    (hJ : jobs[i]? = some J) (hne : ds ≠ []) (hds : ∀ c ∈ ds, isdigit c = true)
    (hpos : 1 ≤ decimalValue ds) (hfit : (decimalValue ds : Int) ≤ INT_MAX)
    (hjid : J.jid = (decimalValue ds : Int))
    (hfirst : ∀ (k : Nat) (b : job_t), k < i → jobs[k]? = some b → b.jid ≠ J.jid) :
    checkingType (String.mk ('%' :: ds)) jobs = some i := by
  unfold checkingType
  simp only [List.head?_cons, if_true, List.tail_cons]
  rw [atoi_digits ds hne hds hfit]
  unfold getjobjid
  rw [if_neg (by omega)]
  exact findSlot_of_first hJ (by simpa using hjid)
    (fun k b hk hb => by simpa [← hjid] using hfirst k b hk hb)

theorem do_bgfg_of_slot (jobs : List job_t) (i : Nat) (J : job_t) (target : String)
    (rest : List String) (hJ : jobs[i]? = some J) (hc : checkingType target jobs = some i) :
    do_bgfg jobs ("bg" :: target :: rest) =
      { jobs := jobs.set i { J with state := BG },
        out := ["[" ++ toString J.jid ++ "] (" ++ toString J.pid ++ ") " ++ J.cmdline],
        kills := [(-J.pid, SIGCONT)], waitfg := none } ∧
    do_bgfg jobs ("fg" :: target :: rest) =
      { jobs := jobs.set i { J with state := FG }, out := [],
        kills := [(-J.pid, SIGCONT)], waitfg := some J.pid } := by
  constructor
  · unfold do_bgfg
    simp only [hc, if_true]
    rw [slot_updSlot _ hJ, slot_eq hJ, updSlot_eq_set _ _ _ _ hJ]
  · unfold do_bgfg
    simp only [hc]
    rw [if_neg (by decide)]
    simp only [if_true]
    rw [slot_updSlot _ hJ, slot_eq hJ, updSlot_eq_set _ _ _ _ hJ]

/-- C11. For every job table and every target that resolves to the job `J` of
slot `i` (digits whose number is `J.pid`, or `%` and digits whose number is
`J.jid`, `J` being the first slot with that pid or job ID; the number is at
most `INT_MAX`, as every pid and job ID of the table is): `SIGCONT` is sent
to the process group `-J.pid`; `bg` then sets the state of slot `i` to `BG` and
prints the acknowledgment, `fg` sets it to `FG` and calls `waitfg` on `J.pid`;
pid, jid and cmdline of `J` and every other slot are as before. The same holds
for any target that `checkingType` resolves to slot `i`. -/
theorem bgfg_resume (jobs : List job_t) (i : Nat) (J : job_t) (ds : List Char)
    (rest : List String) (hJ : jobs[i]? = some J) (hne : ds ≠ [])
    (hds : ∀ c ∈ ds, isdigit c = true) (hpos : 1 ≤ decimalValue ds)
    (hfit : (decimalValue ds : Int) ≤ INT_MAX) :
    ((J.pid = (decimalValue ds : Int) ∧
        ∀ (k : Nat) (b : job_t), k < i → jobs[k]? = some b → b.pid ≠ J.pid) →
      do_bgfg jobs ("bg" :: String.mk ds :: rest) =
        { jobs := jobs.set i { J with state := BG },
          out := ["[" ++ toString J.jid ++ "] (" ++ toString J.pid ++ ") " ++ J.cmdline],
          kills := [(-J.pid, SIGCONT)], waitfg := none } ∧
      do_bgfg jobs ("fg" :: String.mk ds :: rest) =
        { jobs := jobs.set i { J with state := FG }, out := [],
          kills := [(-J.pid, SIGCONT)], waitfg := some J.pid }) ∧
    ((J.jid = (decimalValue ds : Int) ∧
        ∀ (k : Nat) (b : job_t), k < i → jobs[k]? = some b → b.jid ≠ J.jid) →
      do_bgfg jobs ("bg" :: String.mk ('%' :: ds) :: rest) =
        { jobs := jobs.set i { J with state := BG },
          out := ["[" ++ toString J.jid ++ "] (" ++ toString J.pid ++ ") " ++ J.cmdline],
          kills := [(-J.pid, SIGCONT)], waitfg := none } ∧
      do_bgfg jobs ("fg" :: String.mk ('%' :: ds) :: rest) =
        { jobs := jobs.set i { J with state := FG }, out := [],
          kills := [(-J.pid, SIGCONT)], waitfg := some J.pid }) ∧
    (∀ target : String, checkingType target jobs = some i →
      do_bgfg jobs ("bg" :: target :: rest) =
        { jobs := jobs.set i { J with state := BG },
          out := ["[" ++ toString J.jid ++ "] (" ++ toString J.pid ++ ") " ++ J.cmdline],
          kills := [(-J.pid, SIGCONT)], waitfg := none } ∧
      do_bgfg jobs ("fg" :: target :: rest) =
        { jobs := jobs.set i { J with state := FG }, out := [],
          kills := [(-J.pid, SIGCONT)], waitfg := some J.pid }) := by
  refine ⟨?_, ?_, ?_⟩
  · rintro ⟨hpid, hfirst⟩
    exact do_bgfg_of_slot jobs i J _ rest hJ
      (checkingType_pid jobs i J ds hJ hne hds hpos hfit hpid hfirst)
  · rintro ⟨hjid, hfirst⟩
    exact do_bgfg_of_slot jobs i J _ rest hJ
      (checkingType_jid jobs i J ds hJ hne hds hpos hfit hjid hfirst)
  · intro target hc
    exact do_bgfg_of_slot jobs i J target rest hJ hc

/-- C11, witness: on `sampleJobs`, `fg %3` resumes the stopped job of pid 11
in slot 1. -/
theorem bgfg_resume_witness :
    sampleJobs[1]? = some { pid := 11, jid := 3, state := ST, cmdline := "cat\n" } ∧
    do_bgfg sampleJobs ["fg", "%3"] =
      { jobs := sampleJobs.set 1 { pid := 11, jid := 3, state := FG, cmdline := "cat\n" },
        out := [], kills := [(-11, SIGCONT)], waitfg := some 11 } :=
  ⟨rfl,
   ((bgfg_resume sampleJobs 1 { pid := 11, jid := 3, state := ST, cmdline := "cat\n" }
      ['3'] [] rfl (by decide) (by decide) (by decide) (by decide)).2.1
      ⟨by decide, fun k b hk hb => by
        obtain rfl : k = 0 := by omega
        have hb2 : ({ pid := 10, jid := 1, state := BG, cmdline := "sleep 5 &\n" } : job_t) = b :=
          Option.some.inj hb
        subst hb2
        decide⟩).2⟩

end Tsh

namespace Tsh

/-! ## A background launch followed by bg -/

theorem pid2jid_of_first (jobs : List job_t) (i : Nat) (J : job_t) (hJ : jobs[i]? = some J)
    (hp : 1 ≤ J.pid)
    (hfirst : ∀ (k : Nat) (b : job_t), k < i → jobs[k]? = some b → b.pid ≠ J.pid) :
    pid2jid jobs J.pid = J.jid := by
  unfold pid2jid
  rw [if_neg (by omega)]
  rw [findSlot_of_first (p := fun j => decide (j.pid = J.pid)) hJ (by simp)
    (fun k b hk hb => by simpa using hfirst k b hk hb)]
  simp [hJ]

end Tsh

namespace Tsh

end Tsh

namespace Tsh

/-! ## The job eval registers -/

theorem filledJobs_addDelReach (n : Nat) : AddDelReach (filledJobs n) := by
  induction n with
  | zero => exact AddDelReach.init
  | succ n ih => exact AddDelReach.addjob _ _ _ _ _ ih

theorem filledJobs_full : filledJobs MAXJOBS = fullJobs := by
  decide

end Tsh

namespace Tsh

/-! ## Well-formedness and capacity of reachable tables -/

/-- With every operation taken as a whole, the handler never running inside
`do_bgfg`: in every table reachable from `initjobs` through `addjob` (as `eval`
calls it), `deletejob` and the state changes of `do_bgfg` and of the
child-status handler, a slot has pid 0 iff it has job ID 0 iff its state is
`UNDEF`; a live slot has a job ID in `[1, MAXJOBS]` and a state among `FG`,
`BG`, `ST`; and two different live slots have different job IDs. -/
theorem reachable_table_wellformed (jobs : List job_t) (h : TableReach jobs) :
    (∀ j ∈ jobs, (j.pid = 0 ↔ j.jid = 0) ∧ (j.jid = 0 ↔ j.state = UNDEF)) ∧
    (∀ j ∈ jobs, j.pid ≠ 0 →
      1 ≤ j.jid ∧ j.jid ≤ MAXJOBS ∧ (j.state = FG ∨ j.state = BG ∨ j.state = ST)) ∧
    (∀ (a b : Nat) (ja jb : job_t), a ≠ b → jobs[a]? = some ja → jobs[b]? = some jb →
      ja.pid ≠ 0 → jb.pid ≠ 0 → ja.jid ≠ jb.jid) := by
  obtain ⟨_, hslots, hdist⟩ := tableOK_of_reach h
  refine ⟨?_, ?_, ?_⟩
  · intro j hj
    rcases hslots j hj with ⟨h1, h2, h3⟩ | ⟨h1, h2, _, h4⟩
    · exact ⟨⟨fun _ => h2, fun _ => h1⟩, ⟨fun _ => h3, fun _ => h2⟩⟩
    · refine ⟨⟨fun h0 => by omega, fun h0 => by omega⟩, ⟨fun h0 => by omega, fun hu => ?_⟩⟩
      rw [hu] at h4
      rcases h4 with h4 | h4 | h4 <;> exact absurd h4 (by decide)
  · intro j hj hlive
    rcases hslots j hj with ⟨h1, _⟩ | ⟨_, h2, h3, h4⟩
    · exact absurd h1 hlive
    · exact ⟨h2, h3, h4⟩
  · intro a b ja jb hab ha hb hla hlb
    have hja : 1 ≤ ja.jid := by
      rcases hslots ja (List.getElem?_mem ha) with ⟨h1, _⟩ | ⟨_, h2, _⟩
      · exact absurd h1 hla
      · exact h2
    have hjb : 1 ≤ jb.jid := by
      rcases hslots jb (List.getElem?_mem hb) with ⟨h1, _⟩ | ⟨_, h2, _⟩
      · exact absurd h1 hlb
      · exact h2
    unfold DistinctKey at hdist
    rw [List.pairwise_iff_getElem] at hdist
    obtain ⟨ha1, ha2⟩ := List.getElem?_eq_some.mp ha
    obtain ⟨hb1, hb2⟩ := List.getElem?_eq_some.mp hb
    rcases Nat.lt_or_gt_of_ne hab with hlt | hgt
    · have := hdist a b ha1 hb1 hlt
      rw [ha2, hb2] at this
      exact this (show ja.jid ≠ 0 by omega)
    · have := hdist b a hb1 ha1 hgt
      rw [ha2, hb2] at this
      exact fun he => this (show jb.jid ≠ 0 by omega) he.symm

/-- The initial table is reachable and well-formed. -/
theorem reachable_table_wellformed_witness :
    TableReach (initjobs jobs0) ∧
    (∀ j ∈ initjobs jobs0, (j.pid = 0 ↔ j.jid = 0) ∧ (j.jid = 0 ↔ j.state = UNDEF)) :=
  ⟨TableReach.init, (reachable_table_wellformed (initjobs jobs0) TableReach.init).1⟩

end Tsh
namespace Tsh

theorem idsOK_jid_range {jobs : List job_t} (h : IdsOK jobs) :
    ∀ j ∈ jobs, 0 ≤ j.jid ∧ j.jid ≤ MAXJOBS := by
  intro j hj
  rcases h.2.1 j hj with ⟨_, h2⟩ | ⟨_, h2, h3⟩
  · rw [h2]; exact ⟨le_refl _, by simp⟩
  · exact ⟨by omega, h3⟩

theorem idsOK_init : IdsOK (initjobs jobs0) := by
  refine ⟨tableOK_init.1, ?_, tableOK_init.2.2⟩
  intro j hj
  rcases tableOK_init.2.1 j hj with ⟨h1, h2, _⟩ | ⟨h1, h2, h3, _⟩
  · exact Or.inl ⟨h1, h2⟩
  · exact Or.inr ⟨h1, h2, h3⟩

theorem idsOK_deletejob {jobs : List job_t} (h : IdsOK jobs) (pid : Int) :
    IdsOK (deletejob jobs pid).jobs := by
  rcases deletejob_cases jobs pid with ⟨_, he, _⟩ | ⟨i, _, _, _, he⟩
  · rw [he]; exact h
  · rw [he]
    refine ⟨by rw [length_updSlot]; exact h.1, ?_, ?_⟩
    · intro j hj
      rcases mem_updSlot hj with hj | ⟨o, _, rfl⟩
      · exact h.2.1 j hj
      · exact Or.inl ⟨rfl, rfl⟩
    · exact distinctKey_updSlot _ _ _ _ h.2.2 (fun o _ => Or.inl rfl)

theorem idsOK_addjob {jobs : List job_t} (h : IdsOK jobs) (verbose : Bool)
    (pid state : Int) (cmdline : String) :
    IdsOK (addjob verbose jobs pid state cmdline).jobs := by
  rcases addjob_cases verbose jobs pid state cmdline with ⟨_, he, _⟩ | ⟨i, _, hp, hf, hs, he⟩
  · rw [he]; exact h
  · rw [he]
    rcases freejid_cases jobs (idsOK_jid_range h) with ⟨h0, _⟩ | ⟨h1, h2, h3, _⟩
    · exact absurd h0 hf
    · refine ⟨by rw [length_updSlot]; exact h.1, ?_, ?_⟩
      · intro j hj
        rcases mem_updSlot hj with hj | ⟨o, _, rfl⟩
        · exact h.2.1 j hj
        · exact Or.inr ⟨hp, h1, h2⟩
      · exact distinctKey_updSlot _ _ _ _ h.2.2 (fun o _ => Or.inr (Or.inr h3))

theorem idsOK_of_reach {jobs : List job_t} (h : AddDelReach jobs) : IdsOK jobs := by
  induction h with
  | init => exact idsOK_init
  | addjob verbose jobs pid state cmdline _ ih => exact idsOK_addjob ih _ _ _ _
  | deletejob jobs pid _ ih => exact idsOK_deletejob ih pid

/-- On a table of `MAXJOBS` slots with distinct job IDs in range, a job ID is
free exactly when a slot is cleared. -/
theorem free_iff_cleared {jobs : List job_t} (h : IdsOK jobs) :
    freejid jobs ≠ 0 ↔ ∃ j ∈ jobs, j.pid = 0 := by
  constructor
  · intro hf
    by_contra hno
    have hlive : ∀ j ∈ jobs, j.pid ≠ 0 := fun j hj hp => hno ⟨j, hj, hp⟩
    have hjid : ∀ j ∈ jobs, 1 ≤ j.jid ∧ j.jid ≤ MAXJOBS := fun j hj => by
      rcases h.2.1 j hj with ⟨h0, _⟩ | ⟨_, h1, h2⟩
      · exact absurd h0 (hlive j hj)
      · exact ⟨h1, h2⟩
    have hnd : (jobs.map (fun j => j.jid)).Nodup := by
      unfold List.Nodup
      rw [List.pairwise_map]
      exact h.2.2.imp_of_mem
        (fun {a b} ha _ hab => hab (by have := (hjid a ha).1; show a.jid ≠ 0; omega))
    have hsub : (jobs.map (fun j => j.jid)).toFinset ⊆ Finset.Icc (1 : Int) MAXJOBS := by
      intro x hx
      rw [List.mem_toFinset, List.mem_map] at hx
      obtain ⟨j, hj, rfl⟩ := hx
      exact Finset.mem_Icc.mpr (hjid j hj)
    have hcard : (Finset.Icc (1 : Int) MAXJOBS).card ≤
        (jobs.map (fun j => j.jid)).toFinset.card := by
      rw [List.toFinset_card_of_nodup hnd, List.length_map, h.1, Int.card_Icc]
      simp [MAXJOBS]
    have heq := Finset.eq_of_subset_of_card_le hsub hcard
    rcases freejid_cases jobs (idsOK_jid_range h) with ⟨h0, _⟩ | ⟨h1, h2, h3, _⟩
    · exact hf h0
    · have hmem : freejid jobs ∈ (jobs.map (fun j => j.jid)).toFinset := by
        rw [heq]
        exact Finset.mem_Icc.mpr ⟨h1, h2⟩
      rw [List.mem_toFinset, List.mem_map] at hmem
      obtain ⟨j, hj, he⟩ := hmem
      exact h3 j hj he
  · rintro ⟨c, hc, hcp⟩ h0
    have hc0 : c.jid = 0 := by
      rcases h.2.1 c hc with ⟨_, h2⟩ | ⟨h1, _⟩
      · exact h2
      · omega
    rcases freejid_cases jobs (idsOK_jid_range h) with ⟨_, hall⟩ | ⟨h1, _⟩
    · have hsub : Finset.Icc (0 : Int) MAXJOBS ⊆ (jobs.map (fun j => j.jid)).toFinset := by
        intro x hx
        rw [Finset.mem_Icc] at hx
        rw [List.mem_toFinset, List.mem_map]
        by_cases hx0 : x = 0
        · exact ⟨c, hc, by rw [hc0, hx0]⟩
        · obtain ⟨j, hj, he⟩ := hall x (by omega) hx.2
          exact ⟨j, hj, he⟩
      have h1 := Finset.card_le_card hsub
      have h2 := List.toFinset_card_le (jobs.map (fun j => j.jid))
      rw [List.length_map, h.1] at h2
      rw [Int.card_Icc] at h1
      simp [MAXJOBS] at h1 h2
      omega
    · omega

theorem filter_live_lt_iff (jobs : List job_t) :
    (jobs.filter (fun j => j.pid ≠ 0)).length < jobs.length ↔ ∃ j ∈ jobs, j.pid = 0 := by
  rw [← List.countP_eq_length_filter]
  constructor
  · intro hlt
    by_contra hno
    have : List.countP (fun j => decide (j.pid ≠ 0)) jobs = jobs.length := by
      rw [List.countP_eq_length]
      intro a ha
      simp only [ne_eq, decide_not, Bool.not_eq_true', decide_eq_false_iff_not]
      exact fun hp => hno ⟨a, ha, hp⟩
    omega
  · rintro ⟨j, hj, hp⟩
    have hle := List.countP_le_length (fun j => decide (j.pid ≠ 0)) (l := jobs)
    have hne : List.countP (fun j => decide (j.pid ≠ 0)) jobs ≠ jobs.length := by
      intro he
      rw [List.countP_eq_length] at he
      have := he j hj
      simp [hp] at this
    omega

theorem countP_set_gain (p : job_t → Bool) (n : job_t) (hpn : p n = true) :
    ∀ (l : List job_t) (i : Nat) (o : job_t), l[i]? = some o → p o = false →
      (l.set i n).countP p = l.countP p + 1 := by
  intro l
  induction l with
  | nil =>
    intro i o ho
    simp at ho
  | cons a rest ih =>
    intro i o ho hpo
    cases i with
    | zero =>
      simp only [List.getElem?_cons_zero, Option.some.injEq] at ho
      subst ho
      simp [List.countP_cons, hpn, hpo]
    | succ k =>
      simp only [List.getElem?_cons_succ] at ho
      simp only [List.set_cons_succ, List.countP_cons]
      rw [ih k o ho hpo]
      omega

theorem countP_set_loss (p : job_t → Bool) (n : job_t) (hpn : p n = false) :
    ∀ (l : List job_t) (i : Nat) (o : job_t), l[i]? = some o → p o = true →
      (l.set i n).countP p + 1 = l.countP p := by
  intro l
  induction l with
  | nil =>
    intro i o ho
    simp at ho
  | cons a rest ih =>
    intro i o ho hpo
    cases i with
    | zero =>
      simp only [List.getElem?_cons_zero, Option.some.injEq] at ho
      subst ho
      simp [List.countP_cons, hpn, hpo]
    | succ k =>
      simp only [List.getElem?_cons_succ] at ho
      simp only [List.set_cons_succ, List.countP_cons]
      have := ih k o ho hpo
      omega

/-- C15. The job table has the fixed capacity `MAXJOBS`: on a table that a
sequence of `addjob` and `deletejob` calls produced from the empty one, at
most `MAXJOBS` slots are live; `addjob` with a pid of at least 1 returns 1 if
and only if fewer than `MAXJOBS` slots are live; on a full table it returns 0,
leaves the table as it is and (for a pid of at least 1) prints the message, so
the job is not tracked. When `addjob` returns 1 a cleared slot has received the
job and one more slot is live; otherwise it returns 0 and the table is
unchanged; and when `deletejob` returns 1 one slot fewer is live. -/
theorem table_capacity (jobs : List job_t) (h : AddDelReach jobs) (verbose : Bool)
    (pid state : Int) (cmdline : String) :
    (jobs.filter (fun j => j.pid ≠ 0)).length ≤ MAXJOBS ∧
    (1 ≤ pid →
      ((addjob verbose jobs pid state cmdline).ret = 1 ↔
        (jobs.filter (fun j => j.pid ≠ 0)).length < MAXJOBS)) ∧
    ((jobs.filter (fun j => j.pid ≠ 0)).length = MAXJOBS →
      (addjob verbose jobs pid state cmdline).ret = 0 ∧
      (addjob verbose jobs pid state cmdline).jobs = jobs ∧
      (1 ≤ pid →
        (addjob verbose jobs pid state cmdline).out = ["Tried to create too many jobs\n"])) ∧
    ((addjob verbose jobs pid state cmdline).ret = 1 →
      ((addjob verbose jobs pid state cmdline).jobs.filter (fun j => j.pid ≠ 0)).length =
        (jobs.filter (fun j => j.pid ≠ 0)).length + 1 ∧
      ∃ (i : Nat) (old : job_t), jobs[i]? = some old ∧ old.pid = 0 ∧
        (addjob verbose jobs pid state cmdline).jobs =
          jobs.set i (⟨pid, freejid jobs, state, cmdline⟩ : job_t)) ∧
    ((addjob verbose jobs pid state cmdline).ret ≠ 1 →
      (addjob verbose jobs pid state cmdline).ret = 0 ∧
      (addjob verbose jobs pid state cmdline).jobs = jobs) ∧
    ((deletejob jobs pid).ret = 1 →
      ((deletejob jobs pid).jobs.filter (fun j => j.pid ≠ 0)).length + 1 =
        (jobs.filter (fun j => j.pid ≠ 0)).length) := by
  have hok := idsOK_of_reach h
  have hlen := hok.1
  have hfc := free_iff_cleared hok
  have hlt := filter_live_lt_iff jobs
  rw [hlen] at hlt
  have hle : (jobs.filter (fun j => j.pid ≠ 0)).length ≤ MAXJOBS := by
    rw [← hlen]
    exact List.length_filter_le _ _
  have hret : 1 ≤ pid → ((addjob verbose jobs pid state cmdline).ret = 1 ↔
      (jobs.filter (fun j => j.pid ≠ 0)).length < MAXJOBS) := by
    intro hp
    rw [hlt, ← hfc]
    rcases addjob_cases verbose jobs pid state cmdline with
      ⟨h0, _, hlow | hz | hn⟩ | ⟨i, h1, _, hf, _, _⟩
    · omega
    · rw [h0]
      exact ⟨fun hx => absurd hx (by decide), fun hx => absurd hz hx⟩
    · rw [h0]
      refine ⟨fun hx => absurd hx (by decide), fun hx => ?_⟩
      obtain ⟨c, hc, hcp⟩ := hfc.mp hx
      have := findSlot_eq_none.mp hn c hc
      simp [hcp] at this
    · exact ⟨fun _ => hf, fun _ => h1⟩
  refine ⟨hle, hret, ?_, ?_, ?_, ?_⟩
  · intro hfull
    have hfree0 : freejid jobs = 0 := by
      by_contra hne
      have := hlt.mpr (hfc.mp hne)
      omega
    refine ⟨?_, ?_, ?_⟩
    · rcases addjob_cases verbose jobs pid state cmdline with ⟨h0, _, _⟩ | ⟨i, _, _, hf, _, _⟩
      · exact h0
      · exact absurd hfree0 hf
    · rcases addjob_cases verbose jobs pid state cmdline with ⟨_, he, _⟩ | ⟨i, _, _, hf, _, _⟩
      · exact he
      · exact absurd hfree0 hf
    · intro hp
      unfold addjob
      rw [if_neg (by omega)]
      simp only [hfree0, if_true]
  · intro hadd
    rcases addjob_cases verbose jobs pid state cmdline with ⟨h0, _, _⟩ | ⟨i, _, hp, _, hfs, hj⟩
    · rw [h0] at hadd
      exact absurd hadd (by decide)
    · obtain ⟨o, ho, hpo, _⟩ := findSlot_eq_some hfs
      have hopid : o.pid = 0 := by simpa using hpo
      have hset : (addjob verbose jobs pid state cmdline).jobs =
          jobs.set i (⟨pid, freejid jobs, state, cmdline⟩ : job_t) := by
        rw [hj, updSlot_eq_set _ _ _ _ ho]
      refine ⟨?_, i, o, ho, hopid, hset⟩
      rw [hset, ← List.countP_eq_length_filter, ← List.countP_eq_length_filter]
      apply countP_set_gain _ _ _ jobs i o ho
      · simp [hopid]
      · simp only [ne_eq, decide_not, Bool.not_eq_true', decide_eq_false_iff_not]
        show ¬ pid = 0
        omega
  · intro hadd
    rcases addjob_cases verbose jobs pid state cmdline with ⟨h0, he, _⟩ | ⟨i, h1, _, _, _, _⟩
    · exact ⟨h0, he⟩
    · exact absurd h1 hadd
  · intro hdel
    rcases deletejob_cases jobs pid with ⟨h0, _, _⟩ | ⟨i, _, hp, hfs, hj⟩
    · rw [h0] at hdel
      exact absurd hdel (by decide)
    · obtain ⟨o, ho, hpo, _⟩ := findSlot_eq_some hfs
      have hopid : o.pid = pid := by simpa using hpo
      rw [hj, updSlot_eq_set _ _ _ _ ho, ← List.countP_eq_length_filter,
        ← List.countP_eq_length_filter]
      apply countP_set_loss _ _ _ jobs i o ho
      · simp only [ne_eq, decide_not, Bool.not_eq_true', decide_eq_false_iff_not]
        rw [hopid]
        omega
      · simp [clearjob]

/-- C15, witness: the table filled by sixteen `addjob` calls is reachable and
has `MAXJOBS` live slots; `addjob` on it returns 0, stores nothing and prints
the message, and after `deletejob(3)` it succeeds again. -/
theorem table_capacity_witness :
    AddDelReach fullJobs ∧
    (fullJobs.filter (fun j => j.pid ≠ 0)).length = MAXJOBS ∧
    (addjob false fullJobs 100 FG "sleep 5\n").ret = 0 ∧
    (addjob false fullJobs 100 FG "sleep 5\n").jobs = fullJobs ∧
    (addjob false fullJobs 100 FG "sleep 5\n").out = ["Tried to create too many jobs\n"] ∧
    AddDelReach (deletejob fullJobs 3).jobs ∧
    (addjob false (deletejob fullJobs 3).jobs 100 FG "sleep 5\n").ret = 1 :=
  ⟨filledJobs_full ▸ filledJobs_addDelReach MAXJOBS, by decide,
   ((table_capacity fullJobs (filledJobs_full ▸ filledJobs_addDelReach MAXJOBS) false 100 FG
      "sleep 5\n").2.2.1 (by decide)).1,
   ((table_capacity fullJobs (filledJobs_full ▸ filledJobs_addDelReach MAXJOBS) false 100 FG
      "sleep 5\n").2.2.1 (by decide)).2.1,
   ((table_capacity fullJobs (filledJobs_full ▸ filledJobs_addDelReach MAXJOBS) false 100 FG
      "sleep 5\n").2.2.1 (by decide)).2.2 (by decide),
   AddDelReach.deletejob _ 3 (filledJobs_full ▸ filledJobs_addDelReach MAXJOBS),
   ((table_capacity (deletejob fullJobs 3).jobs
      (AddDelReach.deletejob _ 3 (filledJobs_full ▸ filledJobs_addDelReach MAXJOBS)) false 100 FG
      "sleep 5\n").2.1 (by decide)).2 (by decide)⟩

end Tsh

namespace Tsh

/-! ## Lookups -/

theorem findSlot_eq_some_iff (p : job_t → Bool) (l : List job_t) (i : Nat) :
    findSlot p l = some i ↔
      ∃ J, l[i]? = some J ∧ p J = true ∧
        ∀ (k : Nat) (b : job_t), k < i → l[k]? = some b → p b = false := by
  constructor
  · intro h
    obtain ⟨J, hJ, hp, hlt⟩ := findSlot_eq_some h
    exact ⟨J, hJ, hp, fun k b hk hb => hlt k hk b hb⟩
  · rintro ⟨J, hJ, hp, hlt⟩
    exact findSlot_of_first hJ hp hlt

/-- C16. For every job table: `getjobpid(pid)` and `getjobjid(jid)` are absent
when the argument is below 1 (the 0 of cleared slots is never matched) or when
no slot has that pid, respectively job ID, and otherwise they are the
lowest-indexed slot that has it; `pid2jid(pid)` is the job ID of the slot
`getjobpid(pid)` returns, and 0 when that is absent. -/
theorem lookups_spec (jobs : List job_t) (n : Int) :
    (getjobpid jobs n = none ↔ (n < 1 ∨ ∀ j ∈ jobs, j.pid ≠ n)) ∧
    (∀ i : Nat, getjobpid jobs n = some i ↔
      (1 ≤ n ∧ ∃ J, jobs[i]? = some J ∧ J.pid = n ∧
        ∀ (k : Nat) (b : job_t), k < i → jobs[k]? = some b → b.pid ≠ n)) ∧
    (getjobjid jobs n = none ↔ (n < 1 ∨ ∀ j ∈ jobs, j.jid ≠ n)) ∧
    (∀ i : Nat, getjobjid jobs n = some i ↔
      (1 ≤ n ∧ ∃ J, jobs[i]? = some J ∧ J.jid = n ∧
        ∀ (k : Nat) (b : job_t), k < i → jobs[k]? = some b → b.jid ≠ n)) ∧
    (getjobpid jobs n = none → pid2jid jobs n = 0) ∧
    (∀ (i : Nat) (J : job_t), getjobpid jobs n = some i → jobs[i]? = some J →
      pid2jid jobs n = J.jid) := by
  refine ⟨?_, ?_, ?_, ?_, ?_, ?_⟩
  · unfold getjobpid
    by_cases hn : n < 1
    · simp [hn]
    · rw [if_neg hn, findSlot_eq_none]
      simp [hn]
  · intro i
    unfold getjobpid
    by_cases hn : n < 1
    · rw [if_pos hn]
      constructor
      · intro h; simp at h
      · rintro ⟨h1, _⟩; omega
    · rw [if_neg hn, findSlot_eq_some_iff]
      simp only [decide_eq_true_eq, decide_eq_false_iff_not]
      exact ⟨fun h => ⟨by omega, h⟩, fun h => h.2⟩
  · unfold getjobjid
    by_cases hn : n < 1
    · simp [hn]
    · rw [if_neg hn, findSlot_eq_none]
      simp [hn]
  · intro i
    unfold getjobjid
    by_cases hn : n < 1
    · rw [if_pos hn]
      constructor
      · intro h; simp at h
      · rintro ⟨h1, _⟩; omega
    · rw [if_neg hn, findSlot_eq_some_iff]
      simp only [decide_eq_true_eq, decide_eq_false_iff_not]
      exact ⟨fun h => ⟨by omega, h⟩, fun h => h.2⟩
  · unfold getjobpid pid2jid
    by_cases hn : n < 1
    · simp [hn]
    · rw [if_neg hn, if_neg hn]
      intro h
      rw [h]
  · intro i J
    unfold getjobpid pid2jid
    by_cases hn : n < 1
    · simp [hn]
    · rw [if_neg hn, if_neg hn]
      intro h hJ
      rw [h]
      simp [hJ]

/-- C16, witness: in `sampleJobs` pid 11 is found in slot 1 and has job ID 3. -/
theorem lookups_spec_witness :
    getjobpid sampleJobs 11 = some 1 ∧
    sampleJobs[1]? = some { pid := 11, jid := 3, state := ST, cmdline := "cat\n" } ∧
    pid2jid sampleJobs 11 = 3 :=
  ⟨rfl, rfl,
   (lookups_spec sampleJobs 11).2.2.2.2.2 1
     { pid := 11, jid := 3, state := ST, cmdline := "cat\n" } rfl rfl⟩

end Tsh

namespace Tsh

/-! ## The jobs listing -/

theorem listjobsFrom_lines (jobs : List job_t) :
    ∀ i : Nat, ∃ words : List String,
      words.length = (jobs.filter (fun j => j.pid ≠ 0)).length ∧
      listjobsFrom i jobs =
        (List.zipWith
          (fun j w => ["[" ++ toString j.jid ++ "] (" ++ toString j.pid ++ ") ", w, j.cmdline])
          (jobs.filter (fun j => j.pid ≠ 0)) words).flatten ∧
      ∀ (k : Nat) (j : job_t) (w : String),
        (jobs.filter (fun j => j.pid ≠ 0))[k]? = some j → words[k]? = some w →
        (j.state = BG → w = "Running ") ∧ (j.state = FG → w = "Foreground ") ∧
        (j.state = ST → w = "Stopped ") := by
  induction jobs with
  | nil =>
    intro i
    exact ⟨[], rfl, rfl, fun k j w hj => by simp at hj⟩
  | cons a js ih =>
    intro i
    obtain ⟨words, hlen, hout, hw⟩ := ih (i + 1)
    by_cases ha : a.pid ≠ 0
    · have hfilt : (a :: js).filter (fun j => decide (j.pid ≠ 0)) =
          a :: js.filter (fun j => decide (j.pid ≠ 0)) := by
        simp [List.filter_cons, ha]
      rw [hfilt]
      refine ⟨(if a.state = BG then "Running "
          else if a.state = FG then "Foreground "
          else if a.state = ST then "Stopped "
          else "listjobs: Internal error: job[" ++ toString i ++ "].state="
                 ++ toString a.state ++ " ") :: words, ?_, ?_, ?_⟩
      · simp [hlen]
      · simp only [listjobsFrom, ha, if_true, hout,
          List.zipWith_cons_cons, List.flatten_cons, ne_eq, not_false_eq_true]
      · intro k j w hj hwk
        cases k with
        | zero =>
          simp only [List.getElem?_cons_zero, Option.some.injEq] at hj hwk
          subst hj
          subst hwk
          refine ⟨fun h => by simp [h], fun h => ?_, fun h => ?_⟩
          · rw [if_neg (by rw [h]; decide), if_pos h]
          · rw [if_neg (by rw [h]; decide), if_neg (by rw [h]; decide), if_pos h]
        | succ k =>
          simp only [List.getElem?_cons_succ] at hj hwk
          exact hw k j w hj hwk
    · have hfilt : (a :: js).filter (fun j => decide (j.pid ≠ 0)) =
          js.filter (fun j => decide (j.pid ≠ 0)) := by
        simp [List.filter_cons, ha]
      rw [hfilt]
      refine ⟨words, hlen, ?_, hw⟩
      simp only [listjobsFrom, ha, if_false, List.nil_append, hout]

/-- C17. For every job table, `listjobs` prints, in slot order, for each slot
with a pid other than 0 and for no other slot, the three pieces
`[<jid>] (<pid>) `, a state word and the command text of the job; the state
word is `Running ` for state `BG`, `Foreground ` for `FG` and `Stopped ` for
`ST`. The `jobs` builtin prints this listing and leaves the table unchanged. -/
theorem listjobs_lines (jobs : List job_t) (rest : List String) :
    (∃ words : List String,
      words.length = (jobs.filter (fun j => j.pid ≠ 0)).length ∧
      listjobs jobs =
        (List.zipWith
          (fun j w => ["[" ++ toString j.jid ++ "] (" ++ toString j.pid ++ ") ", w, j.cmdline])
          (jobs.filter (fun j => j.pid ≠ 0)) words).flatten ∧
      ∀ (k : Nat) (j : job_t) (w : String),
        (jobs.filter (fun j => j.pid ≠ 0))[k]? = some j → words[k]? = some w →
        (j.state = BG → w = "Running ") ∧ (j.state = FG → w = "Foreground ") ∧
        (j.state = ST → w = "Stopped ")) ∧
    (builtin_cmd jobs ("jobs" :: rest)).out = listjobs jobs ∧
    (builtin_cmd jobs ("jobs" :: rest)).jobs = jobs ∧
    (eval sampleEnv jobs "jobs\n" ["jobs"]).jobs = jobs := by
  refine ⟨listjobsFrom_lines jobs 0, rfl, rfl, rfl⟩

/-- C17, witness: the listing of `sampleJobs`. -/
theorem listjobs_lines_witness :
    listjobs sampleJobs =
      ["[1] (10) ", "Running ", "sleep 5 &\n", "[3] (11) ", "Stopped ", "cat\n"] ∧
    (builtin_cmd sampleJobs ["jobs"]).jobs = sampleJobs :=
  ⟨by decide, (listjobs_lines sampleJobs []).2.2.1⟩

end Tsh

namespace Tsh

/-! ## parseline -/

end Tsh
namespace Tsh

theorem skipSpaces_space_cons (t : List Char) : skipSpaces (' ' :: t) = skipSpaces t := by
  simp [skipSpaces, List.dropWhile_cons]

end Tsh
namespace Tsh

theorem skipSpaces_replicate_append (n : Nat) (m : List Char) :
    skipSpaces (List.replicate n ' ' ++ m) = skipSpaces m := by
  induction n with
  | zero => rfl
  | succ n ih =>
    rw [List.replicate_succ, List.cons_append, skipSpaces_space_cons, ih]

end Tsh

namespace Tsh

/-! ## The signal mask around fork, and the descriptors of a stage -/

/-- C19, the code at a failing input. `SIGCHLD` is blocked across `fork` and
`addjob` only if it is already blocked or the uninitialised `initial_maks`
happens to hold it; with an empty mask and an empty `initial_maks` it is not
blocked, whereas `waitfg` does block it. The handler can then run for the
child before `addjob`: it finds no job and changes nothing, and the job added
afterwards stays in state `FG`, so that `waitfg` keeps waiting. -/
theorem sigchld_not_blocked_across_fork :
    (∀ mask initial_maks : List Int,
      SIGCHLD ∈ (eval_stage_masks mask initial_maks).atFork ↔
        (SIGCHLD ∈ mask ∨ SIGCHLD ∈ initial_maks)) ∧
    SIGCHLD ∉ (eval_stage_masks [] []).atFork ∧
    SIGCHLD ∉ (eval_stage_masks [] []).atAddjob ∧
    SIGCHLD ∈ waitfg_mask [] ∧
    sigchld_handler (initjobs jobs0) [(100, .exited 0)] =
      { jobs := initjobs jobs0, out := [] } ∧
    waitfg_blocks (addjob false (initjobs jobs0) 100 FG "sleep 5\n").jobs 100 = true := by
  refine ⟨?_, by decide, by decide, by decide, by decide, by decide⟩
  intro mask initial_maks
  simp [eval_stage_masks, sigprocmask_BLOCK]

theorem create_pipes_length (pipe : Nat → Option (Int × Int)) (l : List Nat)
    (fds : List Int) (h : create_pipes pipe l = some fds) : fds.length = 2 * l.length := by
  induction l generalizing fds with
  | nil =>
    simp only [create_pipes, Option.some.injEq] at h
    rw [← h]
    rfl
  | cons i is ih =>
    unfold create_pipes at h
    cases hp : pipe i with
    | none => rw [hp] at h; simp at h
    | some rw2 =>
      obtain ⟨r, w⟩ := rw2
      rw [hp] at h
      simp only at h
      cases hc : create_pipes pipe is with
      | none => rw [hc] at h; simp at h
      | some l2 =>
        rw [hc] at h
        simp only [Option.map_some', Option.some.injEq] at h
        rw [← h]
        simp only [List.length_cons, ih l2 hc]
        omega

/-- C20. For a pipeline of `N` pipes, whose descriptor array has `2N` entries
(as the array `eval` creates has), and a stage `i <= N`: the descriptor
operations of the stage are those for stdin followed by those for stdout.
Stdin is the input file when one was opened, else, when `i > 0`, the entry of
index `2(i-1)`, the read end of pipe `i-1`, else it is untouched; stdout is
the output file when one was opened, else, when `i < N`, the entry of index
`2i+1`, the write end of pipe `i`, else it is untouched; the indices used are
below `2N`. -/
theorem getting_redirect_spec (fl_input fl_output : Int) (i N : Nat) (pipefds : List Int)
    (hlen : pipefds.length = 2 * N) (hi : i ≤ N) :
    (∃ ins outs, getting_redirect fl_input fl_output i N pipefds = ins ++ outs ∧
      (fl_input ≠ -1 →
        ins = [FdOp.dup2 fl_input STDIN_FILENO, FdOp.close fl_input]) ∧
      (fl_input = -1 → 0 < i →
        stdinPipeIndex i = 2 * (i - 1) ∧ stdinPipeIndex i < 2 * N ∧
        ∃ fd, pipefds[2 * (i - 1)]? = some fd ∧ ins = [FdOp.dup2 fd STDIN_FILENO]) ∧
      (fl_input = -1 → i = 0 → ins = []) ∧
      (fl_output ≠ -1 →
        outs = [FdOp.dup2 fl_output STDOUT_FILENO, FdOp.close fl_output]) ∧
      (fl_output = -1 → i < N →
        stdoutPipeIndex i = 2 * i + 1 ∧ stdoutPipeIndex i < 2 * N ∧
        ∃ fd, pipefds[2 * i + 1]? = some fd ∧ outs = [FdOp.dup2 fd STDOUT_FILENO]) ∧
      (fl_output = -1 → i = N → outs = [])) ∧
    (∀ (pipe : Nat → Option (Int × Int)) (fds : List Int),
      create_pipes pipe (List.range N) = some fds → fds.length = 2 * N) := by
  constructor
  · refine ⟨_, _, rfl, ?_, ?_, ?_, ?_, ?_, ?_⟩
    · intro h
      rw [if_pos h]
    · intro h hpos
      have hidx : stdinPipeIndex i = 2 * (i - 1) := by
        unfold stdinPipeIndex
        omega
      have hlt : 2 * (i - 1) < pipefds.length := by omega
      refine ⟨hidx, by omega, pipefds[2 * (i - 1)], List.getElem?_eq_getElem hlt, ?_⟩
      rw [if_neg (by simp [h]), if_pos hpos, hidx]
      simp [List.getD_eq_getElem?_getD, List.getElem?_eq_getElem hlt]
    · intro h h0
      rw [if_neg (by simp [h]), if_neg (by omega)]
    · intro h
      rw [if_pos h]
    · intro h hlt2
      have hidx : stdoutPipeIndex i = 2 * i + 1 := by
        unfold stdoutPipeIndex
        omega
      have hlt : 2 * i + 1 < pipefds.length := by omega
      refine ⟨hidx, by omega, pipefds[2 * i + 1], List.getElem?_eq_getElem hlt, ?_⟩
      rw [if_neg (by simp [h]), if_pos hlt2, hidx]
      simp [List.getD_eq_getElem?_getD, List.getElem?_eq_getElem hlt]
    · intro h hN
      rw [if_neg (by simp [h]), if_neg (by omega)]
  · intro pipe fds h
    have := create_pipes_length pipe (List.range N) fds h
    simpa using this

/-- C20, witness: the middle stage of a pipeline of two pipes, with no
redirection, reads from entry 0 and writes to entry 3. -/
theorem getting_redirect_spec_witness :
    [3, 4, 5, 6].length = 2 * 2 ∧ 1 ≤ 2 ∧
    getting_redirect (-1) (-1) 1 2 [3, 4, 5, 6] =
      [FdOp.dup2 3 STDIN_FILENO, FdOp.dup2 6 STDOUT_FILENO] ∧
    (∀ (pipe : Nat → Option (Int × Int)) (fds : List Int),
      create_pipes pipe (List.range 2) = some fds → fds.length = 2 * 2) :=
  ⟨rfl, by decide, by decide,
   (getting_redirect_spec (-1) (-1) 1 2 [3, 4, 5, 6] rfl (by decide)).2⟩

end Tsh

namespace Tsh

/-! ## Splitting into stages loses nothing -/

theorem isPipeToken_iff (tok : String) : isPipeToken tok = true ↔ tok = "|" := by
  cases tok with
  | mk ds =>
    cases ds with
    | nil => simp [isPipeToken]
    | cons c cs =>
      cases cs with
      | nil =>
        simp only [isPipeToken, List.isEmpty_nil, Bool.and_true, beq_iff_eq]
        constructor
        · rintro rfl
          rfl
        · intro h
          have := congrArg String.data h
          simpa using this
      | cons d ds =>
        simp only [isPipeToken, List.isEmpty_cons, Bool.and_false, Bool.false_eq_true, false_iff]
        intro h
        have := congrArg String.data h
        simp at this

theorem total_num_pipes_eq_count (argv : List String) :
    total_num_pipes argv = argv.count "|" := by
  induction argv with
  | nil => rfl
  | cons a rest ih =>
    simp only [total_num_pipes, List.count_cons, ih, beq_iff_eq]
    omega

theorem total_num_pipes_loop_eq (argv : List String) (hne : argv ≠ []) :
    ∀ tracker, total_num_pipes_loop argv tracker = some (tracker + total_num_pipes argv) := by
  induction argv with
  | nil => exact absurd rfl hne
  | cons a rest ih =>
    intro tracker
    cases rest with
    | nil =>
      by_cases h : a = "|"
      · subst h
        have hp : isPipeToken "|" = true := (isPipeToken_iff "|").2 rfl
        simp [total_num_pipes_loop, total_num_pipes, hp]
      · have : isPipeToken a = false := by
          rw [← Bool.not_eq_true, isPipeToken_iff]
          exact h
        simp [total_num_pipes_loop, total_num_pipes, this, h]
    | cons b rest2 =>
      rw [total_num_pipes_loop, ih (by simp)]
      by_cases h : a = "|"
      · rw [if_pos ((isPipeToken_iff a).2 h)]
        simp only [total_num_pipes, h, if_true]
        congr 1
        omega
      · have : isPipeToken a = false := by
          rw [← Bool.not_eq_true, isPipeToken_iff]
          exact h
        simp [total_num_pipes, this, h]

theorem specSegment_subset (argv : List String) :
    ∀ (i : Nat) (x : String), x ∈ specSegment argv i → x ∈ argv := by
  induction argv with
  | nil =>
    intro i x h
    cases i <;> simp [specSegment] at h
  | cons a rest ih =>
    intro i x h
    cases i with
    | zero =>
      by_cases ha : a = "|"
      · simp [specSegment, ha] at h
      · simp only [specSegment, ha, if_false, List.mem_cons] at h
        rcases h with h | h
        · exact h ▸ List.mem_cons_self _ _
        · exact List.mem_cons_of_mem _ (ih 0 x h)
    | succ j =>
      by_cases ha : a = "|"
      · simp only [specSegment, ha, if_true] at h
        exact List.mem_cons_of_mem _ (ih j x h)
      · simp only [specSegment, ha, if_false] at h
        exact List.mem_cons_of_mem _ (ih (j + 1) x h)

theorem specSegment_length_le (argv : List String) :
    ∀ i : Nat, (specSegment argv i).length ≤ argv.length := by
  induction argv with
  | nil =>
    intro i
    cases i <;> simp [specSegment]
  | cons a rest ih =>
    intro i
    cases i with
    | zero =>
      by_cases ha : a = "|"
      · simp [specSegment, ha]
      · simp only [specSegment, ha, if_false, List.length_cons]
        have := ih 0
        omega
    | succ j =>
      by_cases ha : a = "|"
      · simp only [specSegment, ha, if_true, List.length_cons]
        have := ih j
        omega
      · simp only [specSegment, ha, if_false, List.length_cons]
        have := ih (j + 1)
        omega

theorem specPlainArgs_of_plain (l : List String) (hlt : "<" ∉ l) (hgt : ">" ∉ l) :
    specPlainArgs l = l := by
  induction l with
  | nil => rfl
  | cons a rest ih =>
    simp only [List.mem_cons, not_or] at hlt hgt
    rw [specPlainArgs_cons_plain a rest (fun h => hlt.1 h.symm) (fun h => hgt.1 h.symm),
      ih hlt.2 hgt.2]

theorem redirsOpenable_of_plain (fopen : String → String → Option Int) (l : List String)
    (hlt : "<" ∉ l) (hgt : ">" ∉ l) : redirsOpenable fopen l = true := by
  induction l with
  | nil => rfl
  | cons a rest ih =>
    simp only [List.mem_cons, not_or] at hlt hgt
    rw [redirsOpenable_cons_plain fopen a rest (fun h => hlt.1 h.symm) (fun h => hgt.1 h.symm),
      ih hlt.2 hgt.2]

theorem stageVector_eq (fopen : String → String → Option Int) (argv : List String)
    (argv_sec : ArgBuf) (index pipe_count : Nat)
    (hro : redirsOpenable fopen (specSegment argv index) = true)
    (hlen : (specPlainArgs (specSegment argv index)).length < MAXARGS) :
    stageVector fopen argv argv_sec index pipe_count =
      some (specPlainArgs (specSegment argv index)) := by
  obtain ⟨s2, h1, h2, h3⟩ := sectioning_loop_spec fopen index argv.length argv
    { argv_sec := argv_sec, file_inpt := -1, file_opt := -1, checking := pipe_count,
      position_idx := 0, placement_arg := 0, condition_1 := true } rfl rfl
    (by show (0 : Int) ≤ (pipe_count : Int); omega) (Nat.zero_le _) (fun _ => rfl)
    (by simpa using hro)
  simp only [Nat.sub_zero, Nat.zero_add] at h2 h3
  unfold stageVector sectioning_pipe
  rw [h1]
  simp only [Option.some.injEq]
  apply readArgv_of_cells
  · intro k hk
    rw [Nat.zero_add, Function.update_noteq (by omega), h2, writeArgs_apply,
      if_pos ⟨Nat.zero_le _, by omega⟩]
    rfl
  · rw [Nat.zero_add, ← h3]
    exact Function.update_same _ _ _
  · exact hlen

theorem stageVector_of_plain (fopen : String → String → Option Int) (argv : List String)
    (argv_sec : ArgBuf) (index pipe_count : Nat) (hlt : "<" ∉ argv) (hgt : ">" ∉ argv)
    (hlen : argv.length < MAXARGS) :
    stageVector fopen argv argv_sec index pipe_count = some (specSegment argv index) := by
  have h1 : "<" ∉ specSegment argv index := fun h => hlt (specSegment_subset argv index _ h)
  have h2 : ">" ∉ specSegment argv index := fun h => hgt (specSegment_subset argv index _ h)
  have h3 := specPlainArgs_of_plain _ h1 h2
  have h4 := stageVector_eq fopen argv argv_sec index pipe_count
    (redirsOpenable_of_plain fopen _ h1 h2)
    (by rw [h3]; exact Nat.lt_of_le_of_lt (specSegment_length_le argv index) hlen)
  rw [h4, h3]

theorem joinStages_cons_cons (s t : List String) (rest : List (List String)) :
    joinStages (s :: t :: rest) = s ++ "|" :: joinStages (t :: rest) := by
  simp [joinStages, List.intercalate]

theorem joinStages_segments (argv : List String) :
    joinStages ((List.range (total_num_pipes argv + 1)).map (specSegment argv)) = argv := by
  induction argv with
  | nil => rfl
  | cons a rest ih =>
    by_cases ha : a = "|"
    · have hN : total_num_pipes (a :: rest) + 1 = (total_num_pipes rest + 1) + 1 := by
        simp only [total_num_pipes, ha, if_true]
        omega
      rw [hN, List.range_succ_eq_map (total_num_pipes rest + 1), List.map_cons, List.map_map]
      have hf : (specSegment (a :: rest) ∘ Nat.succ) = specSegment rest := by
        funext i
        simp [specSegment, ha]
      rw [hf, List.range_succ_eq_map, List.map_cons, joinStages_cons_cons,
        ← List.map_cons, ← List.range_succ_eq_map, ih]
      simp [specSegment, ha]
    · have hN : total_num_pipes (a :: rest) = total_num_pipes rest := by
        simp [total_num_pipes, ha]
      rw [hN]
      rw [List.range_succ_eq_map] at ih ⊢
      rw [List.map_cons, List.map_map] at ih ⊢
      have hf : (specSegment (a :: rest) ∘ Nat.succ) = (specSegment rest ∘ Nat.succ) := by
        funext i
        simp [specSegment, ha]
      have h0 : specSegment (a :: rest) 0 = a :: specSegment rest 0 := by
        simp [specSegment, ha]
      rw [hf, h0]
      generalize List.map (specSegment rest ∘ Nat.succ) (List.range (total_num_pipes rest)) = tl
        at ih ⊢
      cases tl with
      | nil =>
        simp only [joinStages, List.intercalate] at ih ⊢
        simpa using ih
      | cons t ts =>
        rw [joinStages_cons_cons] at ih ⊢
        rw [List.cons_append, ih]

end Tsh
namespace Tsh

/-- C21. For every non-empty argument vector with no `<` and no `>` token that
fits the array of `MAXARGS` cells, `total_num_pipes` returns the number `N` of
tokens equal to `|` (the loop of the C code returns, with that count), every
call of `sectioning_pipe` for a stage index `0, 1, ..., N` returns, whatever the
array `argv_sec` held on entry and whatever `fopen` would do, and the vectors it
leaves, joined with a single `|` between consecutive stages, are the original
argument vector. -/
theorem stage_splitting_lossless (fopen : String → String → Option Int)
    (argv : List String) (argv_sec : Nat → ArgBuf) (pipe_count : Nat)
    (hne : argv ≠ []) (hlt : "<" ∉ argv) (hgt : ">" ∉ argv) (hlen : argv.length < MAXARGS) :
    total_num_pipes_loop argv 0 = some (argv.count "|") ∧
    total_num_pipes argv = argv.count "|" ∧
    ∃ stages : List (List String),
      (List.range (argv.count "|" + 1)).map
        (fun i => stageVector fopen argv (argv_sec i) i pipe_count) = stages.map some ∧
      joinStages stages = argv := by
  refine ⟨?_, total_num_pipes_eq_count argv, ?_⟩
  · rw [total_num_pipes_loop_eq argv hne 0, Nat.zero_add, total_num_pipes_eq_count]
  · refine ⟨(List.range (total_num_pipes argv + 1)).map (specSegment argv), ?_,
      joinStages_segments argv⟩
    rw [← total_num_pipes_eq_count, List.map_map]
    apply List.map_congr_left
    intro i _
    exact stageVector_of_plain fopen argv (argv_sec i) i pipe_count hlt hgt hlen

/-- C21, witness: `ls -l | | wc -l` has two `|` tokens; its stages `ls -l`, the
empty vector and `wc -l` join to the line again. -/
theorem stage_splitting_lossless_witness :
    pipedArgv ≠ [] ∧ "<" ∉ pipedArgv ∧ ">" ∉ pipedArgv ∧ pipedArgv.length < MAXARGS ∧
    total_num_pipes_loop pipedArgv 0 = some 2 ∧ total_num_pipes pipedArgv = 2 ∧
    ∃ stages : List (List String),
      (List.range 3).map
        (fun i => stageVector (fun _ _ => none) pipedArgv (fun _ => some "junk") i 2) =
          stages.map some ∧
      joinStages stages = pipedArgv :=
  ⟨by decide, by decide, by decide, by decide,
   stage_splitting_lossless (fun _ _ => none) pipedArgv (fun _ _ => some "junk") 2
     (by decide) (by decide) (by decide) (by decide)⟩

end Tsh

namespace Tsh

/-! ## Lookup after insert and delete -/

theorem findSlot_set_irrelevant (p : job_t → Bool) (n : job_t) (hpn : p n = false) :
    ∀ (l : List job_t) (i : Nat) (o : job_t), l[i]? = some o → p o = false →
      findSlot p (l.set i n) = findSlot p l := by
  intro l
  induction l with
  | nil =>
    intro i o ho
    simp at ho
  | cons a rest ih =>
    intro i o ho hpo
    cases i with
    | zero =>
      simp only [List.getElem?_cons_zero, Option.some.injEq] at ho
      subst ho
      simp [findSlot, hpn, hpo]
    | succ k =>
      simp only [List.getElem?_cons_succ] at ho
      simp only [List.set_cons_succ, findSlot]
      rw [ih k o ho hpo]

theorem pid2jid_absent (jobs : List job_t) (pid : Int) (h : ∀ j ∈ jobs, j.pid ≠ pid) :
    pid2jid jobs pid = 0 := by
  unfold pid2jid
  by_cases hp : pid < 1
  · rw [if_pos hp]
  · rw [if_neg hp]
    have : findSlot (fun j => decide (j.pid = pid)) jobs = none :=
      findSlot_eq_none.2 (fun j hj => by simpa using h j hj)
    rw [this]

theorem addjob_fresh_slot (verbose : Bool) (jobs : List job_t) (pid state : Int)
    (cmdline : String) (hadd : (addjob verbose jobs pid state cmdline).ret = 1) :
    ∃ (i : Nat) (o : job_t), jobs[i]? = some o ∧ o.pid = 0 ∧ freejid jobs ≠ 0 ∧
      (∀ (k : Nat) (b : job_t), k < i → jobs[k]? = some b → b.pid ≠ 0) ∧
      (addjob verbose jobs pid state cmdline).jobs =
        jobs.set i (⟨pid, freejid jobs, state, cmdline⟩ : job_t) := by
  rcases addjob_cases verbose jobs pid state cmdline with ⟨h0, _, _⟩ | ⟨i, _, _, hfree, hfs, hj⟩
  · rw [h0] at hadd
    exact absurd hadd (by decide)
  · obtain ⟨o, ho, hpo, hlt⟩ := findSlot_eq_some hfs
    refine ⟨i, o, ho, by simpa using hpo, hfree, ?_, ?_⟩
    · intro k b hk hb
      simpa using hlt k hk b hb
    · rw [hj, updSlot_eq_set _ _ _ _ ho]

end Tsh
namespace Tsh

/-- C22. For every reachable job table and every `pid >= 1` that no entry
holds, if `addjob(pid, state, cmdline)` returns 1 then, in the table it leaves,
`getjobpid(pid)` is a slot holding that pid, state and command line and the job
ID `freejid` assigned, which is at least 1; `pid2jid(pid)` is that ID and
`getjobjid` of that ID is the same slot; for every `q != pid`, `getjobpid(q)`
is the slot it was before and that slot holds what it held; and after a
following `deletejob(pid)`, which returns 1, `getjobpid(pid)` is absent and
`pid2jid(pid)` is 0. -/
theorem lookup_after_insert_delete (verbose : Bool) (jobs : List job_t) (pid state : Int)
    (cmdline : String) (hr : TableReach jobs) (hpid : 1 ≤ pid)
    (hfresh : ∀ j ∈ jobs, j.pid ≠ pid)
    (hadd : (addjob verbose jobs pid state cmdline).ret = 1) :
    ∃ i : Nat,
      getjobpid (addjob verbose jobs pid state cmdline).jobs pid = some i ∧
      (addjob verbose jobs pid state cmdline).jobs[i]? =
        some (⟨pid, freejid jobs, state, cmdline⟩ : job_t) ∧
      1 ≤ freejid jobs ∧
      pid2jid (addjob verbose jobs pid state cmdline).jobs pid = freejid jobs ∧
      getjobjid (addjob verbose jobs pid state cmdline).jobs (freejid jobs) = some i ∧
      (∀ q : Int, q ≠ pid →
        getjobpid (addjob verbose jobs pid state cmdline).jobs q = getjobpid jobs q ∧
        ∀ k : Nat, getjobpid jobs q = some k →
          (addjob verbose jobs pid state cmdline).jobs[k]? = jobs[k]?) ∧
      (deletejob (addjob verbose jobs pid state cmdline).jobs pid).ret = 1 ∧
      getjobpid (deletejob (addjob verbose jobs pid state cmdline).jobs pid).jobs pid = none ∧
      pid2jid (deletejob (addjob verbose jobs pid state cmdline).jobs pid).jobs pid = 0 := by
  obtain ⟨i, o, ho, hopid, hfree, hlive, hjobs⟩ :=
    addjob_fresh_slot verbose jobs pid state cmdline hadd
  have hok := tableOK_of_reach hr
  have hi : i < jobs.length := by
    rcases Nat.lt_or_ge i jobs.length with h | h
    · exact h
    · rw [List.getElem?_eq_none h] at ho
      exact absurd ho (by simp)
  have hfj : 1 ≤ freejid jobs ∧ ∀ j ∈ jobs, j.jid ≠ freejid jobs := by
    rcases freejid_cases jobs (tableOK_jid_range hok) with ⟨h0, _⟩ | ⟨h1, _, h3, _⟩
    · exact absurd h0 hfree
    · exact ⟨h1, h3⟩
  rw [hjobs]
  have hnew : (jobs.set i (⟨pid, freejid jobs, state, cmdline⟩ : job_t))[i]? =
      some (⟨pid, freejid jobs, state, cmdline⟩ : job_t) := by
    simp [List.getElem?_set, hi]
  have hbefore : ∀ (k : Nat) (b : job_t), k < i →
      (jobs.set i (⟨pid, freejid jobs, state, cmdline⟩ : job_t))[k]? = some b → b ∈ jobs := by
    intro k b hk hb
    rw [List.getElem?_set_ne (by omega)] at hb
    exact List.getElem?_mem hb
  have hfind : findSlot (fun j => decide (j.pid = pid))
      (jobs.set i (⟨pid, freejid jobs, state, cmdline⟩ : job_t)) = some i :=
    findSlot_of_first hnew (by simp)
      (fun k b hk hb => by simpa using hfresh b (hbefore k b hk hb))
  have hget : getjobpid (jobs.set i (⟨pid, freejid jobs, state, cmdline⟩ : job_t)) pid =
      some i := by
    unfold getjobpid
    rw [if_neg (by omega)]
    exact hfind
  have hdel : (deletejob (jobs.set i (⟨pid, freejid jobs, state, cmdline⟩ : job_t)) pid).ret = 1 ∧
      (deletejob (jobs.set i (⟨pid, freejid jobs, state, cmdline⟩ : job_t)) pid).jobs =
        jobs.set i (clearjob (⟨pid, freejid jobs, state, cmdline⟩ : job_t)) := by
    rcases deletejob_cases (jobs.set i (⟨pid, freejid jobs, state, cmdline⟩ : job_t)) pid with
      ⟨_, _, h | h⟩ | ⟨i2, hret, _, hfs, hj⟩
    · omega
    · rw [hfind] at h
      exact absurd h (by simp)
    · rw [hfind] at hfs
      obtain rfl : i = i2 := Option.some.inj hfs
      refine ⟨hret, ?_⟩
      rw [hj, updSlot_eq_set _ _ _ _ hnew, List.set_set]
  have hgone : ∀ j ∈ jobs.set i (clearjob (⟨pid, freejid jobs, state, cmdline⟩ : job_t)),
      j.pid ≠ pid := by
    intro j hj
    rcases List.mem_or_eq_of_mem_set hj with h | h
    · exact hfresh j h
    · rw [h]
      show (0 : Int) ≠ pid
      omega
  refine ⟨i, hget, hnew, hfj.1, ?_, ?_, ?_, hdel.1, ?_, ?_⟩
  · exact pid2jid_of_first _ i (⟨pid, freejid jobs, state, cmdline⟩ : job_t) hnew hpid
      (fun k b hk hb => hfresh b (hbefore k b hk hb))
  · unfold getjobjid
    rw [if_neg (by omega)]
    exact findSlot_of_first hnew (by simp)
      (fun k b hk hb => by simpa using hfj.2 b (hbefore k b hk hb))
  · intro q hq
    have hsame : getjobpid (jobs.set i (⟨pid, freejid jobs, state, cmdline⟩ : job_t)) q =
        getjobpid jobs q := by
      unfold getjobpid
      by_cases hq1 : q < 1
      · rw [if_pos hq1, if_pos hq1]
      · rw [if_neg hq1, if_neg hq1]
        apply findSlot_set_irrelevant _ _ _ jobs i o ho
        · simp only [decide_eq_false_iff_not]
          omega
        · simp only [decide_eq_false_iff_not]
          exact fun h => hq h.symm
    refine ⟨hsame, ?_⟩
    intro k hk
    obtain ⟨hq1, hfs⟩ := getjobpid_eq_some hk
    obtain ⟨b, hb, hpb, _⟩ := findSlot_eq_some hfs
    have hne : i ≠ k := by
      rintro rfl
      rw [ho] at hb
      obtain rfl := Option.some.inj hb
      simp only [decide_eq_true_eq] at hpb
      omega
    rw [List.getElem?_set_ne hne]
  · rw [hdel.2]
    exact getjobpid_absent _ pid hgone
  · rw [hdel.2]
    exact pid2jid_absent _ pid hgone

/-- C22, witness: the table holds pid 10 as job 1; pid 12 is added as a
background job, takes slot 1 with job ID 2, the lookup of pid 10 is still slot
0, and pid 12 is gone after `deletejob(12)`. -/
theorem lookup_after_insert_delete_witness :
    TableReach oneJob ∧ (1 : Int) ≤ 12 ∧ (∀ j ∈ oneJob, j.pid ≠ 12) ∧
    (addjob false oneJob 12 BG "sleep 9 &\n").ret = 1 ∧
    ∃ i : Nat,
      getjobpid (addjob false oneJob 12 BG "sleep 9 &\n").jobs 12 = some i ∧
      (addjob false oneJob 12 BG "sleep 9 &\n").jobs[i]? =
        some (⟨12, 2, BG, "sleep 9 &\n"⟩ : job_t) ∧
      pid2jid (addjob false oneJob 12 BG "sleep 9 &\n").jobs 12 = 2 ∧
      getjobjid (addjob false oneJob 12 BG "sleep 9 &\n").jobs 2 = some i ∧
      getjobpid (addjob false oneJob 12 BG "sleep 9 &\n").jobs 10 = some 0 ∧
      getjobpid (deletejob (addjob false oneJob 12 BG "sleep 9 &\n").jobs 12).jobs 12 = none ∧
      pid2jid (deletejob (addjob false oneJob 12 BG "sleep 9 &\n").jobs 12).jobs 12 = 0 :=
  ⟨TableReach.addjob false (initjobs jobs0) 10 BG "sleep 5 &\n" TableReach.init (Or.inr rfl),
   by decide, by decide, by decide,
   (lookup_after_insert_delete false oneJob 12 BG "sleep 9 &\n"
      (TableReach.addjob false (initjobs jobs0) 10 BG "sleep 5 &\n" TableReach.init (Or.inr rfl))
      (by decide) (by decide) (by decide)).imp
     (fun _ h => ⟨h.1, h.2.1, h.2.2.2.1, h.2.2.2.2.1,
       (h.2.2.2.2.2.1 10 (by decide)).1.trans (by decide),
       h.2.2.2.2.2.2.2.1, h.2.2.2.2.2.2.2.2⟩)⟩

end Tsh

namespace Tsh

/-! ## A child-status notification inside do_bgfg -/

/-- The run of `do_bgfg` is its lookup followed by the statements after it. -/
theorem do_bgfg_eq_after (jobs : List job_t) (argv0 argv1 : String) (rest : List String) :
    do_bgfg jobs (argv0 :: argv1 :: rest) =
      do_bgfg_after jobs argv0 argv1 (checkingType argv1 jobs) := by
  unfold do_bgfg
  cases h : checkingType argv1 jobs with
  | none => simp only [h, do_bgfg_after]
  | some placement => simp only [h, do_bgfg_after]

/-- With no child to reap the handler changes nothing and the interrupted run
is the run of `do_bgfg`. -/
theorem do_bgfg_interrupted_nil (jobs : List job_t) (argv : List String) :
    do_bgfg_interrupted jobs argv [] = do_bgfg jobs argv := by
  match argv with
  | [] => rfl
  | [_] => rfl
  | argv0 :: argv1 :: rest =>
    rw [do_bgfg_eq_after]
    simp [do_bgfg_interrupted, sigchld_handler]

theorem reachableAsync_of_reachable {s : Shell} (h : Reachable s) : ReachableAsync s := by
  induction h with
  | init => exact ReachableAsync.init
  | step s t _ hst ih => exact ReachableAsync.step s t ih (StepAsync.step s t hst)

theorem raceOne_reachable : ReachableAsync raceOne :=
  ReachableAsync.step _ _ ReachableAsync.init
    (StepAsync.step _ _
      (Step.eval (forkEnv 100) "sleep 1 &\n" ["sleep", "1", "&"]
        { jobs := initjobs jobs0, waits := [] } rfl (by decide) (by decide)))

theorem raceTwo_reachable : ReachableAsync raceTwo :=
  ReachableAsync.step
    (afterEval (forkEnv 101) "sleep 2 &\n" ["sleep", "2", "&"] raceOne) raceTwo
    (ReachableAsync.step _ _ raceOne_reachable
      (StepAsync.step _ _
        (Step.eval (forkEnv 101) "sleep 2 &\n" ["sleep", "2", "&"] raceOne
          (by decide) (by decide) (by decide))))
    (StepAsync.step _ _
      (Step.sigchld (afterEval (forkEnv 101) "sleep 2 &\n" ["sleep", "2", "&"] raceOne)
        [(100, .exited 0)]))

theorem raceThree_reachable : ReachableAsync raceThree :=
  ReachableAsync.step raceTwo raceThree raceTwo_reachable
    (StepAsync.bgfg_interrupted raceTwo "fg" "%2" [] [(101, .exited 0)] rfl (Or.inr rfl))

theorem raceFour_reachable : ReachableAsync raceFour :=
  ReachableAsync.step { jobs := raceThree.jobs, waits := [] } raceFour
    (ReachableAsync.step raceThree _ raceThree_reachable
      (StepAsync.step _ _
        (Step.waitfg_return raceThree 0 [] (by decide) (by decide))))
    (StepAsync.step _ _
      (Step.eval (forkEnv 102) "sleep 3\n" ["sleep", "3"]
        { jobs := raceThree.jobs, waits := [] } rfl (by decide) (by decide)))

theorem raceBg_reachable : ReachableAsync raceBg :=
  ReachableAsync.step raceOne raceBg raceOne_reachable
    (StepAsync.bgfg_interrupted raceOne "bg" "%1" [] [(100, .exited 0)] (by decide)
      (Or.inl rfl))

end Tsh
namespace Tsh

/-- C1, the code at a failing run. `do_bgfg` does not block `SIGCHLD` between
its lookup and its state write. Run: `sleep 1 &` (pid 100, job 1, slot 0) and
`sleep 2 &` (pid 101, job 2, slot 1) are launched, child 100 exits and is
reaped, then `fg %2` is typed and child 101 exits right after `checkingType`
has returned slot 1. The handler clears slot 1, `do_bgfg` writes `FG` into the
cleared slot and calls `waitfg(0)`, which returns at once. The next foreground
line, `sleep 3` (pid 102), is stored in slot 0 with state `FG`: the state
reached has two slots in state `FG`. -/
theorem two_foreground_after_fg_race :
    ReachableAsync raceFour ∧
    raceThree.jobs[1]? = some { pid := 0, jid := 0, state := FG, cmdline := "" } ∧
    raceThree.waits = [0] ∧ waitfg_blocks raceThree.jobs 0 = false ∧
    raceFour.jobs[0]? = some { pid := 102, jid := 1, state := FG, cmdline := "sleep 3\n" } ∧
    raceFour.jobs[1]? = some { pid := 0, jid := 0, state := FG, cmdline := "" } ∧
    (raceFour.jobs.filter (fun j => j.state = FG)).length = 2 ∧
    ¬ (raceFour.jobs.filter (fun j => j.state = FG)).length ≤ 1 :=
  ⟨raceFour_reachable, by decide, by decide, by decide, by decide, by decide, by decide,
   by decide⟩

/-- C14, the code at a failing run. After `sleep 1 &` (pid 100, job 1, slot 0),
`bg %1` is typed and child 100 exits right after `checkingType` has returned
slot 0: the handler clears the slot, then `do_bgfg` sends `SIGCONT` to group 0,
writes `BG` into the cleared slot and prints `[0] (0) `. The table reached has
a slot with pid 0 and job ID 0 whose state is not `UNDEF`. -/
theorem cleared_slot_not_undef_after_bg_race :
    ReachableAsync raceBg ∧
    do_bgfg_interrupted raceOne.jobs ["bg", "%1"] [(100, .exited 0)] =
      { jobs := raceBg.jobs, out := ["[0] (0) "], kills := [(0, SIGCONT)], waitfg := none } ∧
    raceBg.jobs[0]? = some { pid := 0, jid := 0, state := BG, cmdline := "" } ∧
    ¬ (∀ j ∈ raceBg.jobs, (j.pid = 0 ↔ j.jid = 0) ∧ (j.jid = 0 ↔ j.state = UNDEF)) :=
  ⟨raceBg_reachable, by decide, by decide, by decide⟩

end Tsh
